import Mathlib

/-!
# require-conditional-status-checks: gitignore matcher and check requirement

A shallow embedding of `pkg/gitignore/gitignore.go`, `pkg/composite/check.go`,
`CheckSatisfied` of `pkg/composite/run.go` and `Config.Validate` of
`pkg/requireconditional/config.go`.

Go strings are modelled as `List Char`, the runes of a valid UTF-8 string;
positions and lengths are counted in runes. A Go call that can panic returns
an `Outcome`. A loop of the source that advances its index inside the body
is a recursion on the rest of the runes with a count `skip` of the runes the
body has already passed.
-/

namespace Gitignore

/-! ## Results of calls that may panic -/

/-- The result of a call: it returns a value, it panics, or it leaves the
fragment of the regular-expression library that this development models. -/
inductive Outcome (α : Type) where
  | ret (a : α)
  | panicked
  | unmodelled
  deriving DecidableEq, Repr

/-- Apply a function to the returned value, keeping a panic a panic. -/
def Outcome.map {α β : Type} (f : α → β) : Outcome α → Outcome β
  | Outcome.ret a => Outcome.ret (f a)
  | Outcome.panicked => Outcome.panicked
  | Outcome.unmodelled => Outcome.unmodelled

/-- Sequencing of calls that may panic. -/
def Outcome.andThen {α β : Type} (o : Outcome α) (f : α → Outcome β) : Outcome β :=
  match o with
  | Outcome.ret a => f a
  | Outcome.panicked => Outcome.panicked
  | Outcome.unmodelled => Outcome.unmodelled

/-! ## Library functions of `strings` and `unicode` used by the matcher -/

/-- Go `unicode.IsSpace`: the Latin-1 spaces and the runes with the Unicode
White_Space property. -/
def isSpace (c : Char) : Bool :=
  c = '\t' || c = '\n' || c = Char.ofNat 0x0B || c = Char.ofNat 0x0C || c = '\r' || c = ' '
    || c = Char.ofNat 0x85 || c = Char.ofNat 0xA0 || c = Char.ofNat 0x1680
    || (0x2000 ≤ c.toNat && c.toNat ≤ 0x200A)
    || c = Char.ofNat 0x2028 || c = Char.ofNat 0x2029 || c = Char.ofNat 0x202F
    || c = Char.ofNat 0x205F || c = Char.ofNat 0x3000

/-- Go `strings.TrimRightFunc(s, unicode.IsSpace)`: drop the trailing spaces. -/
def trimRightSpace : List Char → List Char
  | [] => []
  | c :: cs =>
    match trimRightSpace cs with
    | [] => if isSpace c then [] else [c]
    | d :: ds => c :: d :: ds

/-- Go `strings.Index(s, "/")`: the position of the first separator, or -1.
The source compares the position only with the last position of the string,
which gives the same answer in bytes and in runes. -/
def indexSlash : List Char → Int
  | [] => -1
  | c :: cs =>
    if c = '/' then 0
    else
      let i := indexSlash cs
      if i = -1 then -1 else i + 1

/-- Go `strings.HasSuffix(s, "/")`. -/
def endsWithSlash (s : List Char) : Bool :=
  s.getLast? = some '/'

/-- Go `strings.Split(s, "/")`: the segments between the separators; never empty. -/
def splitSlash : List Char → List (List Char)
  | [] => [[]]
  | c :: cs =>
    if c = '/' then [] :: splitSlash cs
    else
      match splitSlash cs with
      | [] => [[c]]
      | seg :: segs => (c :: seg) :: segs

/-- Go `strings.Join(parts, "/")`. -/
def joinSlash : List (List Char) → List Char
  | [] => []
  | [seg] => seg
  | seg :: next :: segs => seg ++ '/' :: joinSlash (next :: segs)

/-- Go `strings.Contains(s, "**")`. -/
def containsTwoAsterisk : List Char → Bool
  | [] => false
  | [_] => false
  | c :: d :: cs => (c = '*' && d = '*') || containsTwoAsterisk (d :: cs)

/-- Go `strings.Replace(s, "**", "*", -1)`: every non-overlapping `**`, from
the left, becomes `*`. -/
def replaceTwoAsterisk : List Char → List Char
  | [] => []
  | [c] => [c]
  | c :: d :: cs =>
    if c = '*' ∧ d = '*' then '*' :: replaceTwoAsterisk cs
    else c :: replaceTwoAsterisk (d :: cs)

/-! ## `pkg/gitignore/gitignore.go`: normalisation -/

/-- Rules (5) and (6): a pattern with a separator at the beginning or in the
middle is anchored; any other pattern gets a leading two-asterisk segment. -/
def earlySlash (pattern : List Char) : List Char :=
  if pattern.head? = some '/' then pattern
  else
    let i := indexSlash pattern
    if i ≠ -1 ∧ i < (pattern.length : Int) - 1 then '/' :: pattern
    else '*' :: '*' :: '/' :: pattern

/-- A pattern ending in a separator gets a two-asterisk segment appended. -/
def lateSlash (pattern : List Char) : List Char :=
  if endsWithSlash pattern then pattern ++ ['*', '*'] else pattern

/-- The bounded loop of `transformTwoAsterisk`: at most `passes` rounds of
replacing, stopping as soon as no two-asterisk pair is left. -/
def collapsePart : Nat → List Char → List Char
  | 0, part => part
  | passes + 1, part =>
    if containsTwoAsterisk part then collapsePart passes (replaceTwoAsterisk part) else part

/-- The body of the loop over the parts in `transformTwoAsterisk`. -/
def transformPart (part : List Char) : List Char :=
  if part = ['*', '*'] ∨ ¬ containsTwoAsterisk part = true then part
  else collapsePart 1000 part

/-- Rules (10) to (13): within each segment that is not exactly two asterisks,
runs of asterisks become a single asterisk. -/
def transformTwoAsterisk (pattern : List Char) : List Char :=
  joinSlash ((splitSlash pattern).map transformPart)

/-- The steps of `NormalizeGitignore` after the trimming, for a pattern that
does not start with the negation mark. -/
def normalizeCore (pattern : List Char) : List Char :=
  transformTwoAsterisk (lateSlash (earlySlash pattern))

/-- The body of `NormalizeGitignore`; the recursive call is on a strictly
shorter string, and `fuel` bounds the depth of the recursion. -/
def normalizeFuel : Nat → List Char → List Char
  | 0, _ => []
  | fuel + 1, pattern =>
    if pattern = [] then []
    else if pattern.head? = some '#' then []
    else
      match trimRightSpace pattern with
      | '!' :: rest => '!' :: normalizeFuel fuel rest
      | trimmed => normalizeCore trimmed

/-- The function `NormalizeGitignore` of the source: the canonical form of a
pattern, or the empty string for a pattern that never matches. -/
def NormalizeGitignore (pattern : List Char) : List Char :=
  normalizeFuel (pattern.length + 1) pattern

/-! ## The regular-expression library (`regexp`, RE2 syntax with Perl flags)

The library is not part of the repository. It is modelled for the fragment
made of literals, `.`, bracket classes with ranges, the anchors, groups,
alternation and the repetition operators. A construct outside the fragment
(counted repetition, flags and named groups, Perl, POSIX and Unicode classes,
octal and hexadecimal escapes, word boundaries, quoting, very deep nesting)
yields `Outcome.unmodelled`; the size limit that recent releases of the
library put on an expression is not modelled. -/

/-- The abstract syntax of a compiled expression. -/
inductive Regex where
  | fail
  | empty
  | lit (c : Char)
  | anyNotNL
  | cls (negated : Bool) (ranges : List (Char × Char))
  | bol
  | eol
  | cat (a b : Regex)
  | alt (a b : Regex)
  | star (a : Regex)
  deriving DecidableEq, Repr

/-- A group under construction: the alternatives already closed by a
vertical bar and the pieces of the current alternative, latest first. -/
structure Frame where
  alts : List Regex
  items : List Regex
  deriving DecidableEq, Repr

/-- The concatenation of the pieces of an alternative (given latest first). -/
def concatItems (items : List Regex) : Regex :=
  items.foldl (fun acc r => Regex.cat r acc) Regex.empty

/-- The expression of a finished group. -/
def closeFrame (f : Frame) : Regex :=
  f.alts.foldl (fun acc r => Regex.alt r acc) (concatItems f.items)

/-- ASCII letters and digits. -/
def isAlnum (c : Char) : Bool :=
  ('0'.toNat ≤ c.toNat && c.toNat ≤ '9'.toNat)
    || ('A'.toNat ≤ c.toNat && c.toNat ≤ 'Z'.toNat)
    || ('a'.toNat ≤ c.toNat && c.toNat ≤ 'z'.toNat)

/-- The rune denoted by a backslash followed by `d` (`parseEscape` of the
library): an escaped ASCII punctuation character is itself, six letters are
the C escapes, every other letter or digit and every non-ASCII rune is an
error. The letters of the Perl and Unicode classes and the octal and
hexadecimal escapes are outside the model. -/
def escapedRune (d : Char) : Outcome Char :=
  if d = 'p' ∨ d = 'P' ∨ d = 'd' ∨ d = 'D' ∨ d = 's' ∨ d = 'S' ∨ d = 'w' ∨ d = 'W'
      ∨ d = 'x' ∨ ('0'.toNat ≤ d.toNat ∧ d.toNat ≤ '7'.toNat) then Outcome.unmodelled
  else if d = 'a' then Outcome.ret (Char.ofNat 7)
  else if d = 'f' then Outcome.ret (Char.ofNat 12)
  else if d = 'n' then Outcome.ret '\n'
  else if d = 'r' then Outcome.ret '\r'
  else if d = 't' then Outcome.ret '\t'
  else if d = 'v' then Outcome.ret (Char.ofNat 11)
  else if d.toNat < 128 ∧ isAlnum d = false then Outcome.ret d
  else Outcome.panicked

/-- A backslash followed by `d` outside a bracket class: the anchors `\A`
and `\z`, the rejected `\C`, and the escaped runes; word boundaries and
quoting are outside the model. -/
def escapedAtom (d : Char) : Outcome Regex :=
  if d = 'A' then Outcome.ret Regex.bol
  else if d = 'z' then Outcome.ret Regex.eol
  else if d = 'C' then Outcome.panicked
  else if d = 'b' ∨ d = 'B' ∨ d = 'Q' ∨ d = 'E' then Outcome.unmodelled
  else (escapedRune d).map Regex.lit

/-- One character of a bracket class (`parseClassChar`): the rune and the
number of characters of the input it takes. -/
def readClassChar : List Char → Outcome (Char × Nat)
  | [] => Outcome.panicked
  | c :: cs =>
    if c = '\\' then
      match cs with
      | [] => Outcome.panicked
      | d :: _ => (escapedRune d).map (fun r => (r, 2))
    else Outcome.ret (c, 1)

/-- The items of a bracket class up to the closing bracket (`parseClass`).
`skip` counts the characters already taken by the previous item, `first`
says that a closing bracket here would be a literal, `n` counts the
characters read so far. The result is the list of ranges and the number of
characters read, the closing bracket included. -/
def parseClassItems :
    List Char → Nat → Bool → List (Char × Char) → Nat → Outcome (List (Char × Char) × Nat)
  | [], _, _, _, _ => Outcome.panicked
  | _ :: cs, skip + 1, first, acc, n => parseClassItems cs skip first acc (n + 1)
  | c :: cs, 0, first, acc, n =>
    if c = ']' ∧ first = false then Outcome.ret (acc.reverse, n + 1)
    else if c = '[' ∧ cs.head? = some ':' ∧ 2 ≤ cs.length then Outcome.unmodelled
    else
      match readClassChar (c :: cs) with
      | Outcome.panicked => Outcome.panicked
      | Outcome.unmodelled => Outcome.unmodelled
      | Outcome.ret (lo, k) =>
        match cs.drop (k - 1) with
        | dash :: e :: rest =>
          if dash = '-' ∧ e ≠ ']' then
            match readClassChar (e :: rest) with
            | Outcome.panicked => Outcome.panicked
            | Outcome.unmodelled => Outcome.unmodelled
            | Outcome.ret (hi, k2) =>
              if hi < lo then Outcome.panicked
              else parseClassItems cs (k - 1 + 1 + k2) false ((lo, hi) :: acc) (n + 1)
          else parseClassItems cs (k - 1) false ((lo, lo) :: acc) (n + 1)
        | _ => parseClassItems cs (k - 1) false ((lo, lo) :: acc) (n + 1)

/-- A bracket class, read from the character after the opening bracket: the
class and the number of characters read. -/
def parseClass (cs : List Char) : Outcome (Regex × Nat) :=
  if cs.head? = some '^' then
    (parseClassItems cs 1 true [] 0).map (fun p => (Regex.cls true p.1, p.2))
  else
    (parseClassItems cs 0 true [] 0).map (fun p => (Regex.cls false p.1, p.2))

/-- The argument `r` under the repetition operator `op`. -/
def applyRepeat (op : Char) (r : Regex) : Regex :=
  if op = '*' then Regex.star r
  else if op = '+' then Regex.cat r (Regex.star r)
  else Regex.alt r Regex.empty

/-- The parser of the library, one character at a time. `skip` counts the
characters already taken by the previous construct, `stack` holds the
enclosing groups, `frame` the group being read, and `rep` says that the
previous construct was a repetition operator. The errors of the library are
a closing parenthesis without an opening one and the converse, a repetition
operator without an argument or right after another one, a bracket class
without its closing bracket or with a reversed range, and an invalid or
trailing escape. An opening brace (the rune 123) before a digit may start a
counted repetition, which is outside the model, like a group that starts
with a question mark and groups nested a hundred deep. -/
def parseLoop : List Char → Nat → List Frame → Frame → Bool → Outcome Regex
  | [], _, stack, frame, _ =>
    if stack = [] then Outcome.ret (closeFrame frame) else Outcome.panicked
  | _ :: cs, skip + 1, stack, frame, rep => parseLoop cs skip stack frame rep
  | c :: cs, 0, stack, frame, rep =>
    if c = '(' then
      if cs.head? = some '?' then Outcome.unmodelled
      else if 100 ≤ stack.length then Outcome.unmodelled
      else parseLoop cs 0 (frame :: stack) ⟨[], []⟩ false
    else if c = ')' then
      match stack with
      | [] => Outcome.panicked
      | outer :: rest =>
        parseLoop cs 0 rest ⟨outer.alts, closeFrame frame :: outer.items⟩ false
    else if c = '|' then
      parseLoop cs 0 stack ⟨concatItems frame.items :: frame.alts, []⟩ false
    else if c = '*' ∨ c = '+' ∨ c = '?' then
      if rep then Outcome.panicked
      else
        match frame.items with
        | [] => Outcome.panicked
        | r :: items =>
          parseLoop cs (if cs.head? = some '?' then 1 else 0) stack
            ⟨frame.alts, applyRepeat c r :: items⟩ true
    else if c = Char.ofNat 123 then
      if (cs.head?.map Char.isDigit) = some true then Outcome.unmodelled
      else parseLoop cs 0 stack ⟨frame.alts, Regex.lit c :: frame.items⟩ false
    else if c = '[' then
      match parseClass cs with
      | Outcome.panicked => Outcome.panicked
      | Outcome.unmodelled => Outcome.unmodelled
      | Outcome.ret (r, n) => parseLoop cs n stack ⟨frame.alts, r :: frame.items⟩ false
    else if c = '\\' then
      match cs with
      | [] => Outcome.panicked
      | d :: _ =>
        match escapedAtom d with
        | Outcome.panicked => Outcome.panicked
        | Outcome.unmodelled => Outcome.unmodelled
        | Outcome.ret r => parseLoop cs 1 stack ⟨frame.alts, r :: frame.items⟩ false
    else if c = '^' then parseLoop cs 0 stack ⟨frame.alts, Regex.bol :: frame.items⟩ false
    else if c = '$' then parseLoop cs 0 stack ⟨frame.alts, Regex.eol :: frame.items⟩ false
    else if c = '.' then
      parseLoop cs 0 stack ⟨frame.alts, Regex.anyNotNL :: frame.items⟩ false
    else parseLoop cs 0 stack ⟨frame.alts, Regex.lit c :: frame.items⟩ false

/-- Go `regexp.MustCompile`: the compiled expression, or a panic on an
expression that does not parse. -/
def MustCompile (expr : List Char) : Outcome Regex :=
  parseLoop expr 0 [] ⟨[], []⟩ false

/-- Whether the character `d` lies in one of the ranges of a bracket class. -/
def inRanges (ranges : List (Char × Char)) (d : Char) : Bool :=
  ranges.any (fun r => r.1.toNat ≤ d.toNat && d.toNat ≤ r.2.toNat)

/-- Whether the expression matches the empty string at a position that is
the start of the text when `st` holds and its end when `en` holds. -/
def nullable (st en : Bool) : Regex → Bool
  | Regex.fail => false
  | Regex.empty => true
  | Regex.lit _ => false
  | Regex.anyNotNL => false
  | Regex.cls _ _ => false
  | Regex.bol => st
  | Regex.eol => en
  | Regex.cat a b => nullable st en a && nullable st en b
  | Regex.alt a b => nullable st en a || nullable st en b
  | Regex.star _ => true

/-- Concatenation that drops the expressions known to match nothing. -/
def mkCat : Regex → Regex → Regex
  | Regex.fail, _ => Regex.fail
  | Regex.empty, b => b
  | a, b => Regex.cat a b

/-- Alternation that drops the expressions known to match nothing. -/
def mkAlt : Regex → Regex → Regex
  | Regex.fail, b => b
  | a, Regex.fail => a
  | a, b => Regex.alt a b

/-- The derivative: what is left to match after the character `d`, read
at a position that is the start of the text when `st` holds. -/
def deriv (st : Bool) (d : Char) : Regex → Regex
  | Regex.fail => Regex.fail
  | Regex.empty => Regex.fail
  | Regex.lit c => if d = c then Regex.empty else Regex.fail
  | Regex.anyNotNL => if d = '\n' then Regex.fail else Regex.empty
  | Regex.cls negated ranges =>
    if inRanges ranges d = negated then Regex.fail else Regex.empty
  | Regex.bol => Regex.fail
  | Regex.eol => Regex.fail
  | Regex.cat a b =>
    mkAlt (mkCat (deriv st d a) b) (if nullable st false a then deriv st d b else Regex.fail)
  | Regex.alt a b => mkAlt (deriv st d a) (deriv st d b)
  | Regex.star a => mkCat (deriv st d a) (Regex.star a)

/-- Whether some prefix of the text matches the expression. -/
def matchPrefix : List Char → Bool → Regex → Bool
  | [], st, r => nullable st true r
  | d :: ds, st, r => nullable st false r || matchPrefix ds false (deriv st d r)

/-- Whether some part of the text, from any position on, matches. -/
def matchSearch : List Char → Bool → Regex → Bool
  | [], st, r => nullable st true r
  | d :: ds, st, r => matchPrefix (d :: ds) st r || matchSearch ds false r

/-- Go `(*Regexp).MatchString`: whether the text contains a match. -/
def MatchString (r : Regex) (s : List Char) : Bool :=
  matchSearch s true r

/-! ## `pkg/gitignore/gitignore.go`: translation and matching -/

/-- The position after the first closing bracket that is not preceded by a
backslash, scanning from index `i` with `prev` the rune before it. -/
def findClosingBracketFrom : Char → List Char → Nat → Nat
  | _, [], i => i
  | prev, c :: cs, i =>
    if c = ']' ∧ prev ≠ '\\' then i + 1 else findClosingBracketFrom c cs (i + 1)

/-- The function `findClosingBracket` of the source, on the runes after an
opening bracket. -/
def findClosingBracket : List Char → Nat
  | [] => 0
  | c :: cs => if c = ']' then 1 else findClosingBracketFrom c cs 1

/-- The loop of `asRegexp` over the runes of the pattern; `skip` is the
number of times the body has already advanced the index past the current
rune. -/
def rewrite : List Char → Nat → List Char
  | [], _ => []
  | _ :: cs, skip + 1 => rewrite cs skip
  | r :: cs, 0 =>
    if r = '\\' then
      match cs with
      | [] => '\\' :: '\\' :: '\\' :: rewrite cs 0
      | next :: _ => '\\' :: '\\' :: '\\' :: next :: rewrite cs 1
    else if r = '*' then
      if cs.head? = some '*' then
        if (cs.drop 1).head? = some '/' then '.' :: '*' :: rewrite cs 2
        else '.' :: '*' :: rewrite cs 1
      else '[' :: '^' :: '\\' :: '/' :: ']' :: '*' :: rewrite cs 0
    else if r = '?' then '[' :: '^' :: '\\' :: '/' :: ']' :: rewrite cs 0
    else if r = '[' then
      if cs = [] then '[' :: rewrite cs 0
      else '[' :: cs.take (findClosingBracket cs) ++ rewrite cs (findClosingBracket cs)
    else r :: rewrite cs 0

/-- The expression string that `asRegexp` hands to the library. -/
def asRegexpSource (pattern : List Char) : List Char :=
  '^' :: rewrite pattern 0 ++ ['$']

/-- The function `asRegexp` of the source. -/
def asRegexp (pattern : List Char) : Outcome Regex :=
  MustCompile (asRegexpSource pattern)

/-- Go `strings.TrimPrefix(s, "/")`. -/
def trimLeadingSlash : List Char → List Char
  | [] => []
  | c :: cs => if c = '/' then cs else c :: cs

/-- The function `GitignoreMatch` of the source. -/
def GitignoreMatch (filename : List Char) : List Char → Outcome Bool
  | [] => Outcome.ret false
  | c :: rest =>
    if c = '!' then (GitignoreMatch filename rest).map (fun b => !b)
    else
      if NormalizeGitignore (c :: rest) = [] then Outcome.ret false
      else
        (asRegexp (trimLeadingSlash (NormalizeGitignore (c :: rest)))).map
          (fun r => MatchString r filename)

/-! ## The loop of `asRegexp` with explicit indices

The same loop once more, this time with the index `i` of the source and
every read of the slice `p` checked against its length, to state that no
read is out of range and that the loop ends. -/

/-- Go `p[lo:hi]` on a slice whose capacity is its length: `none` stands for
the panic on bounds that are out of range. -/
def sliceOf (p : List Char) (lo hi : Nat) : Option (List Char) :=
  if lo ≤ hi ∧ hi ≤ p.length then some ((p.drop lo).take (hi - lo)) else none

/-- One iteration of the loop of `asRegexp` at the index `i`: the index at
which the next iteration starts (after the `i++` of the loop header) and the
runes appended to `rewritten`; `none` stands for the panic of a read or a
slice out of range. A read `p[k]` is `p[k]?`. -/
def asRegexpStep (p : List Char) (i : Nat) : Option (Nat × List Char) :=
  match p[i]? with
  | none => none
  | some r =>
    if r = '\\' then
      if i + 1 ≥ p.length then some (i + 1, ['\\', '\\', '\\'])
      else
        match p[i + 1]? with
        | none => none
        | some next => some (i + 2, ['\\', '\\', '\\', next])
    else if r = '*' then
      if i + 1 ≥ p.length then some (i + 1, ['[', '^', '\\', '/', ']', '*'])
      else
        match p[i + 1]? with
        | none => none
        | some next =>
          if next ≠ '*' then some (i + 1, ['[', '^', '\\', '/', ']', '*'])
          else if i + 2 < p.length then
            match p[i + 2]? with
            | none => none
            | some sep =>
              if sep = '/' then some (i + 3, ['.', '*']) else some (i + 2, ['.', '*'])
          else some (i + 2, ['.', '*'])
    else if r = '?' then some (i + 1, ['[', '^', '\\', '/', ']'])
    else if r = '[' then
      if i + 1 ≥ p.length then some (i + 1, ['['])
      else
        match sliceOf p (i + 1) p.length with
        | none => none
        | some rest =>
          match sliceOf p i (i + 1 + findClosingBracket rest) with
          | none => none
          | some seg => some (i + findClosingBracket rest + 1, seg)
    else some (i + 1, [r])

/-- How a run of the loop ends. -/
inductive LoopResult where
  | done (rewritten : List Char)
  | indexOutOfRange
  | outOfFuel
  deriving DecidableEq, Repr

/-- The loop of `asRegexp` from the index `i` on, for at most `fuel`
iterations, and the closing `$`. -/
def asRegexpLoop (p : List Char) : Nat → Nat → List Char → LoopResult
  | 0, i, rewritten =>
    if i < p.length then LoopResult.outOfFuel else LoopResult.done (rewritten ++ ['$'])
  | fuel + 1, i, rewritten =>
    if i < p.length then
      match asRegexpStep p i with
      | none => LoopResult.indexOutOfRange
      | some (j, out) => asRegexpLoop p fuel j (rewritten ++ out)
    else LoopResult.done (rewritten ++ ['$'])

end Gitignore

namespace Composite

open Gitignore

/-! ## `pkg/composite/check.go` -/

/-- A record of the comparison's file list (`github.CommitFile`); every field
is a pointer to a string in the library, here an optional string. -/
structure CommitFile where
  status : Option (List Char)
  filename : Option (List Char)
  previousFilename : Option (List Char)
  deriving DecidableEq, Repr

/-- The comparison of two commits (`github.CommitsComparison`): a list of
pointers to file records, each of which may be nil. -/
structure CommitsComparison where
  files : List (Option CommitFile)
  deriving DecidableEq, Repr

/-- The getter `GetFilename`: the empty string on a nil record or field. -/
def GetFilename (f : Option CommitFile) : List Char :=
  match f with
  | some cf => cf.filename.getD []
  | none => []

/-- The getter `GetStatus`: the empty string on a nil record or field. -/
def GetStatus (f : Option CommitFile) : List Char :=
  match f with
  | some cf => cf.status.getD []
  | none => []

/-- The getter `GetPreviousFilename`: the empty string on a nil record or field. -/
def GetPreviousFilename (f : Option CommitFile) : List Char :=
  match f with
  | some cf => cf.previousFilename.getD []
  | none => []

/-- A required check on a pull request. -/
structure Check where
  job : List Char
  paths : List (List Char)
  deriving DecidableEq, Repr

/-- The error value built by `ex.New`: a class and a message. -/
structure Exception where
  cls : String
  message : String
  deriving DecidableEq, Repr

/-- The limit on the number of files of a comparison. -/
def commitsComparisonMaxFiles : Nat := 300

/-- The error returned for a comparison with too many files. -/
def tooManyFiles (count : Nat) : Exception :=
  ⟨"Commit Comparison contained too many files", "File Count: " ++ toString count⟩

/-- The status of a renamed file, the string literal of the source. -/
def statusRenamed : List Char := "renamed".toList

/-- The inner loop of `Required`, over the patterns, for one file: `true`
when the function returns from inside the loop. The matcher is the
parameter `gm`. -/
def requiredForFile (gm : List Char → List Char → Outcome Bool) (file : Option CommitFile) :
    List (List Char) → Outcome Bool
  | [] => Outcome.ret false
  | pattern :: rest =>
    Outcome.andThen (gm (GetFilename file) pattern) fun m =>
      if m then Outcome.ret true
      else if GetStatus file = statusRenamed then
        Outcome.andThen (gm (GetPreviousFilename file) pattern) fun m2 =>
          if m2 then Outcome.ret true else requiredForFile gm file rest
      else requiredForFile gm file rest

/-- The outer loop of `Required`, over the files. -/
def requiredForFiles (gm : List Char → List Char → Outcome Bool) (paths : List (List Char)) :
    List (Option CommitFile) → Outcome Bool
  | [] => Outcome.ret false
  | file :: rest =>
    Outcome.andThen (requiredForFile gm file paths) fun m =>
      if m then Outcome.ret true else requiredForFiles gm paths rest

/-- The method `Check.Required` of the source with the matcher it calls as
the parameter `gm`: the pair of the decision and the error. -/
def Check.RequiredWith (gm : List Char → List Char → Outcome Bool) (c : Check)
    (cc : CommitsComparison) : Outcome (Bool × Option Exception) :=
  if commitsComparisonMaxFiles ≤ cc.files.length then
    Outcome.ret (false, some (tooManyFiles cc.files.length))
  else if c.paths.length = 0 then Outcome.ret (true, none)
  else (requiredForFiles gm c.paths cc.files).map (fun b => (b, none))

/-- The method `Check.Required` of the source. -/
def Check.Required (c : Check) (cc : CommitsComparison) : Outcome (Bool × Option Exception) :=
  Check.RequiredWith GitignoreMatch c cc

/-! ## `pkg/composite/run.go`: `CheckSatisfied`

The calls of `action.Infof` and `action.Errorf` write to the log and have no
part in the values returned; they are left out, and with them the run ID,
which is read for the log only. -/

/-- A check run of the library (`github.CheckRun`) with the fields that
`CheckSatisfied` reads; each is a pointer in the library, here an option. -/
structure CheckRun where
  id : Option Int
  name : Option (List Char)
  status : Option (List Char)
  conclusion : Option (List Char)
  deriving DecidableEq, Repr

/-- The zero value of `github.CheckRun`, which a Go map gives for a key that
it does not hold. -/
def zeroCheckRun : CheckRun := ⟨none, none, none, none⟩

/-- The function `safeDereference` of the source. -/
def safeDereference (s : Option (List Char)) (fallback : List Char) : List Char :=
  match s with
  | none => fallback
  | some v => v

/-- The fallback of both calls of `safeDereference`. -/
def unknown : List Char := "unknown".toList

/-- The status of a run that has ended. -/
def completed : List Char := "completed".toList

/-- The conclusion of a run that went well. -/
def success : List Char := "success".toList

/-- The first loop of `CheckSatisfied`, over the runs: it fills the map
`known`, here the function from a name to the run stored under it (the zero
value for a name that has none). A nil run and a run without a name are
skipped; a later run replaces an earlier one of the same name. -/
def fillKnown : List (Option CheckRun) → (List Char → CheckRun) → List Char → CheckRun
  | [], known => known
  | none :: rest, known => fillKnown rest known
  | some run :: rest, known =>
    match run.name with
    | none => fillKnown rest known
    | some name => fillKnown rest (fun key => if key = name then run else known key)

/-- The second loop of `CheckSatisfied`, over the required names, with the
variables `failed` and `incomplete` as they stand before the iteration. -/
def checkRequired (known : List Char → CheckRun) :
    List (List Char) → Bool → List (List Char) → Bool × List (List Char)
  | [], failed, incomplete => (failed, incomplete)
  | name :: rest, failed, incomplete =>
    if safeDereference (known name).status unknown = completed then
      if safeDereference (known name).conclusion unknown = success then
        checkRequired known rest failed incomplete
      else checkRequired known rest true incomplete
    else checkRequired known rest failed (incomplete ++ [name])

/-- The error returned when a required check has ended without success. -/
def notSuccessful : Exception :=
  ⟨"Some required checks were not successful", ""⟩

/-- The function `CheckSatisfied` of the source. The call of the API
`ListCheckRunsForRef` is the parameter `lccr`: its error, or the list of
check runs of its answer. The result is the pair of the names returned and
the error. -/
def CheckSatisfied (lccr : Except Exception (List (Option CheckRun)))
    (required : List (List Char)) : List (List Char) × Option Exception :=
  match lccr with
  | Except.error err => (required, some err)
  | Except.ok checkRuns =>
    match checkRequired (fillKnown checkRuns (fun _ => zeroCheckRun)) required false [] with
    | (true, incomplete) => (incomplete, some notSuccessful)
    | (false, incomplete) => (incomplete, none)

end Composite

namespace Requireconditional

/-! ## `pkg/requireconditional/config.go`: `Config.Validate` -/

/-- The configuration of the action; the two durations are counts of
nanoseconds. -/
structure Config where
  GitHubToken : List Char
  Timeout : Int
  Interval : Int
  ChecksYAML : List Char
  ChecksFilename : List Char
  GitHubRootURL : List Char
  EventName : List Char
  EventAction : List Char
  GitHubOrg : List Char
  GitHubRepo : List Char
  BaseSHA : List Char
  HeadSHA : List Char
  deriving DecidableEq, Repr

/-- The error value built by `ex.New`: its class and, for a call with
`ex.OptMessagef`, the label of the message and the string that the verb `%q`
shows after it. -/
structure Exception where
  cls : String
  message : Option (String × List Char)
  deriving DecidableEq, Repr

/-- The event name of a pull request. -/
def pullRequest : List Char := "pull_request".toList

/-- The event action of a pull request that was opened. -/
def opened : List Char := "opened".toList

/-- The event action of a pull request that got new commits. -/
def synchronize : List Char := "synchronize".toList

/-- The event action of a pull request that was opened again. -/
def reopened : List Char := "reopened".toList

/-- The error for an event that is no pull request. -/
def errEventName (c : Config) : Exception :=
  ⟨"The Require Conditional Status Checks Action can only run on pull requests",
    some ("Event Name: ", c.EventName)⟩

/-- The error for an event action that no code change has caused. -/
def errEventAction (c : Config) : Exception :=
  ⟨"The Require Conditional Status Checks Action can only run on pull request types spawned by code changes",
    some ("Event Action: ", c.EventAction)⟩

/-- The error for a missing base SHA. -/
def errBaseSHA : Exception :=
  ⟨"Could not determine the base SHA for this pull request", none⟩

/-- The error for a missing head SHA. -/
def errHeadSHA : Exception :=
  ⟨"Could not determine the head SHA for this pull request", none⟩

/-- The error for a missing owner. -/
def errGitHubOrg : Exception :=
  ⟨"The Require Conditional Status Checks Action requires a GitHub owner or org", none⟩

/-- The error for a missing repository. -/
def errGitHubRepo : Exception :=
  ⟨"The Require Conditional Status Checks Action requires a GitHub repository", none⟩

/-- The error for a missing root URL. -/
def errGitHubRootURL : Exception :=
  ⟨"The Require Conditional Status Checks Action requires a GitHub root URL", none⟩

/-- The error for a missing token. -/
def errGitHubToken : Exception :=
  ⟨"The Require Conditional Status Checks Action requires a GitHub API token", none⟩

/-- The error for checks given both ways. -/
def errBothChecks : Exception :=
  ⟨"The Require Conditional Status Checks Action requires exactly one of checks YAML or checks filename; both are set",
    none⟩

/-- The error for checks given in neither way. -/
def errNoChecks : Exception :=
  ⟨"The Require Conditional Status Checks Action requires exactly one of checks YAML or checks filename; neither are set",
    none⟩

/-- The method `Config.Validate` of the source: `none` is the nil error. -/
def Config.Validate (c : Config) : Option Exception :=
  if c.EventName ≠ pullRequest then some (errEventName c)
  else if ¬ (c.EventAction = opened ∨ c.EventAction = synchronize ∨ c.EventAction = reopened)
    then some (errEventAction c)
  else if c.BaseSHA = [] then some errBaseSHA
  else if c.HeadSHA = [] then some errHeadSHA
  else if c.GitHubOrg = [] then some errGitHubOrg
  else if c.GitHubRepo = [] then some errGitHubRepo
  else if c.GitHubRootURL = [] then some errGitHubRootURL
  else if c.GitHubToken = [] then some errGitHubToken
  else if c.ChecksYAML ≠ [] ∧ c.ChecksFilename ≠ [] then some errBothChecks
  else if c.ChecksYAML = [] ∧ c.ChecksFilename = [] then some errNoChecks
  else none

end Requireconditional

/-! ## Notions used in the proofs -/

namespace Gitignore

/-- A string without a trailing space: its last rune, if any, is no space. -/
def NoTrailingSpace (s : List Char) : Prop :=
  ∀ c, s.getLast? = some c → isSpace c = false

/-- The number of positions at which an asterisk is followed by an asterisk. -/
def adjacentAsterisks : List Char → Nat
  | [] => 0
  | [_] => 0
  | c :: d :: cs => (if c = '*' ∧ d = '*' then 1 else 0) + adjacentAsterisks (d :: cs)

/-- The expression for the runes of `w`, each a literal, followed by `x`. -/
def litChain (w : List Char) (x : Regex) : Regex :=
  w.foldr (fun c acc => Regex.cat (Regex.lit c) acc) x

/-- The runes that the translation copies and that the expression language
takes as a literal or, for the dot, as the any-rune operator: every rune but
the backslash, the asterisk, the question mark, the opening bracket, the
parentheses, the bar, the plus, the opening brace, the caret and the dollar. -/
def isPlain (c : Char) : Bool :=
  !(c = '\\' || c = '*' || c = '?' || c = '[' || c = '(' || c = ')' || c = '|' || c = '+'
    || c = Char.ofNat 123 || c = '^' || c = '$')

/-- The expression that one plain rune is compiled to. -/
def atom (c : Char) : Regex :=
  if c = '.' then Regex.anyNotNL else Regex.lit c

/-- The expression for the plain runes of `w`, followed by `x`. -/
def atomChain (w : List Char) (x : Regex) : Regex :=
  w.foldr (fun c acc => Regex.cat (atom c) acc) x

/-- The text `u` agrees with the plain runes `w`: rune for rune the same,
except that a dot of `w` stands for any rune of `u` but the newline. -/
def agrees : List Char → List Char → Prop
  | [], [] => True
  | c :: w, d :: u => (if c = '.' then d ≠ '\n' else d = c) ∧ agrees w u
  | [], _ :: _ => False
  | _ :: _, [] => False

/-- The runes of a file name in the claims: ASCII letters and digits, the
dot, the hyphen and the underscore. -/
def isNameRune (c : Char) : Bool :=
  isAlnum c || c = '.' || c = '-' || c = '_'

/-- The class that the translation emits for `*` and `?`: every rune but the
separator. -/
def notSlash : Regex := Regex.cls true [('/', '/')]

/-- The expression of the pieces `items` (latest first) put in front of the
expression `acc`. -/
def wrap (items : List Regex) (acc : Regex) : Regex :=
  items.foldl (fun acc r => Regex.cat r acc) acc

/-- The ASCII letters. -/
def isAsciiLetter (c : Char) : Bool :=
  ('a'.toNat ≤ c.toNat && c.toNat ≤ 'z'.toNat) || ('A'.toNat ≤ c.toNat && c.toNat ≤ 'Z'.toNat)

/-- A segment with each run of two or more asterisks replaced by a single
asterisk. -/
def collapseRuns : List Char → List Char
  | [] => []
  | [c] => [c]
  | c :: d :: cs =>
    if c = '*' ∧ d = '*' then collapseRuns (d :: cs) else c :: collapseRuns (d :: cs)

/-- What the claim says `transformTwoAsterisk` makes of a segment: a segment
that is exactly two asterisks or has no two adjacent asterisks is kept, any
other has its runs of asterisks collapsed. -/
def collapsedSegment (seg : List Char) : List Char :=
  if seg = ['*', '*'] ∨ containsTwoAsterisk seg = false then seg else collapseRuns seg

/-- The pattern has a separator somewhere other than as its last rune. -/
def HasInnerSlash (p : List Char) : Prop :=
  ∃ a b : List Char, p = a ++ '/' :: b ∧ b ≠ []

/-- The pattern is not empty and all its runes are spaces. -/
def IsBlank (q : List Char) : Prop :=
  q ≠ [] ∧ ∀ c ∈ q, isSpace c = true

/-- The declarative meaning of an expression: `Matches st en r s` says that
`r` matches exactly the piece `s` of the text, where `st` tells that the
piece begins at the start of the text and `en` that it stops at its end.
An iteration of a star that takes no rune is left out, as it adds nothing. -/
inductive Matches : Bool → Bool → Regex → List Char → Prop where
  | empty {st en : Bool} : Matches st en Regex.empty []
  | lit {st en : Bool} {c : Char} : Matches st en (Regex.lit c) [c]
  | anyNotNL {st en : Bool} {d : Char} : d ≠ '\n' → Matches st en Regex.anyNotNL [d]
  | cls {st en : Bool} {negated : Bool} {ranges : List (Char × Char)} {d : Char} :
      inRanges ranges d ≠ negated → Matches st en (Regex.cls negated ranges) [d]
  | bol {en : Bool} : Matches true en Regex.bol []
  | eol {st : Bool} : Matches st true Regex.eol []
  | cat {st en : Bool} {a b : Regex} {s1 s2 : List Char} :
      Matches st (en && s2.isEmpty) a s1 → Matches (st && s1.isEmpty) en b s2 →
      Matches st en (Regex.cat a b) (s1 ++ s2)
  | altLeft {st en : Bool} {a b : Regex} {s : List Char} :
      Matches st en a s → Matches st en (Regex.alt a b) s
  | altRight {st en : Bool} {a b : Regex} {s : List Char} :
      Matches st en b s → Matches st en (Regex.alt a b) s
  | starNil {st en : Bool} {a : Regex} : Matches st en (Regex.star a) []
  | starCons {st en : Bool} {a : Regex} {d : Char} {s1 s2 : List Char} :
      Matches st (en && s2.isEmpty) a (d :: s1) → Matches false en (Regex.star a) s2 →
      Matches st en (Regex.star a) (d :: s1 ++ s2)

end Gitignore

namespace Composite

/-- The run that the claim speaks of for a name: the last run of that name in
the list, if there is one. -/
def lastRun (runs : List (Option CheckRun)) (name : List Char) : Option CheckRun :=
  ((runs.filterMap id).filter (fun run => run.name = some name)).getLast?

/-- A required name counts as incomplete when its run is missing or has a
status other than `completed`. -/
def isIncomplete (runs : List (Option CheckRun)) (name : List Char) : Bool :=
  match lastRun runs name with
  | none => true
  | some run => decide (run.status ≠ some completed)

end Composite

namespace Requireconditional

/-- The conditions of a valid configuration, in the order of the claim, each
with the error that `Validate` has for it. -/
def conditions (c : Config) : List (Bool × Exception) :=
  [ (decide (c.EventName = pullRequest), errEventName c),
    (decide (c.EventAction = opened ∨ c.EventAction = synchronize ∨ c.EventAction = reopened),
      errEventAction c),
    (decide (c.BaseSHA ≠ []), errBaseSHA),
    (decide (c.HeadSHA ≠ []), errHeadSHA),
    (decide (c.GitHubOrg ≠ []), errGitHubOrg),
    (decide (c.GitHubRepo ≠ []), errGitHubRepo),
    (decide (c.GitHubRootURL ≠ []), errGitHubRootURL),
    (decide (c.GitHubToken ≠ []), errGitHubToken),
    (decide ((c.ChecksYAML ≠ [] ∧ c.ChecksFilename = [])
        ∨ (c.ChecksYAML = [] ∧ c.ChecksFilename ≠ [])),
      if c.ChecksYAML ≠ [] then errBothChecks else errNoChecks) ]

/-- The error of the first condition of the list that fails, if any. -/
def firstFailure : List (Bool × Exception) → Option Exception
  | [] => none
  | (holds, err) :: rest => if holds then firstFailure rest else some err

/-- The configuration that the claim calls valid. -/
def IsValid (c : Config) : Prop :=
  c.EventName = pullRequest
    ∧ (c.EventAction = opened ∨ c.EventAction = synchronize ∨ c.EventAction = reopened)
    ∧ c.BaseSHA ≠ [] ∧ c.HeadSHA ≠ [] ∧ c.GitHubOrg ≠ [] ∧ c.GitHubRepo ≠ []
    ∧ c.GitHubRootURL ≠ [] ∧ c.GitHubToken ≠ []
    ∧ ((c.ChecksYAML ≠ [] ∧ c.ChecksFilename = [])
        ∨ (c.ChecksYAML = [] ∧ c.ChecksFilename ≠ []))

end Requireconditional

/-! ## Theorems -/

namespace Gitignore

/-! ### Trimming -/

theorem trimRightSpace_length_le (s : List Char) : (trimRightSpace s).length ≤ s.length := by
  induction s with
  | nil => simp [trimRightSpace]
  | cons c cs ih =>
    simp only [trimRightSpace]
    split
    · split <;> simp
    · rename_i d ds h
      rw [h] at ih
      simpa using ih

theorem trimRightSpace_cons_of_not_space (c : Char) (cs : List Char) (h : isSpace c = false) :
    trimRightSpace (c :: cs) = c :: trimRightSpace cs := by
  simp only [trimRightSpace]
  split
  · rename_i h2
    simp [h, h2]
  · rename_i d ds h2
    simp [h2]

/-- What `trimRightSpace` returns starts like its argument. -/
theorem trimRightSpace_head (c : Char) (cs : List Char) :
    trimRightSpace (c :: cs) = [] ∨ ∃ t, trimRightSpace (c :: cs) = c :: t := by
  simp only [trimRightSpace]
  split
  · split
    · exact Or.inl rfl
    · exact Or.inr ⟨[], rfl⟩
  · exact Or.inr ⟨_, rfl⟩

theorem trimRightSpace_of_noTrailingSpace (s : List Char) (h : NoTrailingSpace s) :
    trimRightSpace s = s := by
  induction s with
  | nil => rfl
  | cons c cs ih =>
    cases cs with
    | nil =>
      have hc : isSpace c = false := h c (by simp)
      simp [trimRightSpace, hc]
    | cons d ds =>
      have h2 : NoTrailingSpace (d :: ds) := by
        intro x hx
        apply h x
        simpa [List.getLast?_cons_cons] using hx
      have := ih h2
      simp only [trimRightSpace] at this ⊢
      rw [this]

theorem noTrailingSpace_trimRightSpace (s : List Char) : NoTrailingSpace (trimRightSpace s) := by
  induction s with
  | nil => intro c hc; simp [trimRightSpace] at hc
  | cons c cs ih =>
    simp only [trimRightSpace]
    split
    · split
      · intro x hx; simp at hx
      · rename_i hsp
        intro x hx
        simp at hx
        subst hx
        simpa using hsp
    · rename_i d ds h
      rw [h] at ih
      intro x hx
      apply ih x
      simpa [List.getLast?_cons_cons] using hx

/-! ### The recursion of `NormalizeGitignore` -/

theorem normalizeFuel_stable (n : Nat) : ∀ (m : Nat) (p : List Char),
    p.length < n → p.length < m → normalizeFuel n p = normalizeFuel m p := by
  induction n with
  | zero => intro m p h; omega
  | succ n ih =>
    intro m p hn hm
    cases m with
    | zero => omega
    | succ m =>
      simp only [normalizeFuel]
      split
      · rfl
      · split
        · rfl
        · split
          · rename_i rest ht
            have hl := trimRightSpace_length_le p
            rw [ht] at hl
            simp only [List.length_cons] at hl
            rw [ih m rest (by omega) (by omega)]
          · rfl

/-- The equation of the source for `NormalizeGitignore`. -/
theorem NormalizeGitignore_eq (p : List Char) :
    NormalizeGitignore p =
      if p = [] then []
      else if p.head? = some '#' then []
      else
        match trimRightSpace p with
        | '!' :: rest => '!' :: NormalizeGitignore rest
        | trimmed => normalizeCore trimmed := by
  by_cases h1 : p = []
  · subst h1; rfl
  by_cases h2 : p.head? = some '#'
  · simp [NormalizeGitignore, normalizeFuel, h1, h2]
  rw [if_neg h1, if_neg h2]
  have hl := trimRightSpace_length_le p
  have hu : NormalizeGitignore p =
      match trimRightSpace p with
      | '!' :: rest => '!' :: normalizeFuel p.length rest
      | trimmed => normalizeCore trimmed := by
    simp only [NormalizeGitignore, normalizeFuel, if_neg h1, if_neg h2]
  rw [hu]
  split
  · rename_i rest ht
    rw [ht] at hl
    simp only [List.length_cons] at hl
    simp only [NormalizeGitignore]
    rw [normalizeFuel_stable p.length (rest.length + 1) rest (by omega) (by omega)]
  · rfl

/-! ### Collapsing the asterisks of a segment -/

theorem containsTwoAsterisk_eq_false_iff (s : List Char) :
    containsTwoAsterisk s = false ↔ adjacentAsterisks s = 0 := by
  induction s using containsTwoAsterisk.induct with
  | case1 => simp [containsTwoAsterisk, adjacentAsterisks]
  | case2 c => simp [containsTwoAsterisk, adjacentAsterisks]
  | case3 c d cs ih =>
    simp only [containsTwoAsterisk, adjacentAsterisks, Bool.or_eq_false_iff, ih]
    by_cases h : c = '*' ∧ d = '*'
    · simp [h.1, h.2]
    · have : ¬ (c = '*' ∧ d = '*') := h
      simp only [this, if_false, Nat.zero_add, and_iff_right_iff_imp]
      intro _
      simpa using h

theorem adjacentAsterisks_le_length (s : List Char) : adjacentAsterisks s ≤ s.length := by
  induction s using adjacentAsterisks.induct with
  | case1 => simp [adjacentAsterisks]
  | case2 c => simp [adjacentAsterisks]
  | case3 c d cs ih =>
    simp only [adjacentAsterisks, List.length_cons] at ih ⊢
    split <;> omega

theorem replaceTwoAsterisk_head (s : List Char) :
    (replaceTwoAsterisk s).head? = s.head? := by
  cases s with
  | nil => rfl
  | cons c cs =>
    cases cs with
    | nil => rfl
    | cons d ds =>
      simp only [replaceTwoAsterisk]
      split
      · rename_i h; simp [h.1]
      · simp

theorem adjacentAsterisks_cons (c : Char) (s : List Char) :
    adjacentAsterisks (c :: s) =
      (if c = '*' ∧ s.head? = some '*' then 1 else 0) + adjacentAsterisks s := by
  cases s with
  | nil => simp [adjacentAsterisks]
  | cons d ds => simp [adjacentAsterisks]

theorem adjacentAsterisks_replace (s : List Char) :
    2 * adjacentAsterisks (replaceTwoAsterisk s) ≤ adjacentAsterisks s := by
  induction s using replaceTwoAsterisk.induct with
  | case1 => simp [replaceTwoAsterisk, adjacentAsterisks]
  | case2 c => simp [replaceTwoAsterisk, adjacentAsterisks]
  | case3 c d cs h ih =>
    rw [replaceTwoAsterisk, if_pos h, adjacentAsterisks_cons, replaceTwoAsterisk_head,
      adjacentAsterisks_cons c, adjacentAsterisks_cons d]
    simp only [h.1, h.2, List.head?_cons, true_and, and_self, if_true]
    split <;> omega
  | case4 c d cs h ih =>
    rw [replaceTwoAsterisk, if_neg h, adjacentAsterisks_cons, replaceTwoAsterisk_head,
      adjacentAsterisks_cons c]
    simp only [List.head?_cons, Option.some.injEq]
    rw [if_neg h]
    omega

theorem collapsePart_clean (n : Nat) : ∀ s : List Char,
    adjacentAsterisks s < 2 ^ n → containsTwoAsterisk (collapsePart n s) = false := by
  induction n with
  | zero =>
    intro s h
    simp only [collapsePart]
    rw [containsTwoAsterisk_eq_false_iff]
    simpa using h
  | succ n ih =>
    intro s h
    simp only [collapsePart]
    split
    · apply ih
      have := adjacentAsterisks_replace s
      rw [Nat.pow_succ] at h
      omega
    · rename_i hc
      simpa using hc

theorem replaceTwoAsterisk_getLast (s : List Char) :
    (replaceTwoAsterisk s).getLast? = s.getLast? := by
  induction s using replaceTwoAsterisk.induct with
  | case1 => rfl
  | case2 c => rfl
  | case3 c d cs h ih =>
    rw [replaceTwoAsterisk, if_pos h, List.getLast?_cons, ih, List.getLast?_cons_cons,
      List.getLast?_cons, h.2]
  | case4 c d cs h ih =>
    rw [replaceTwoAsterisk, if_neg h, List.getLast?_cons, ih, List.getLast?_cons_cons]
    simp [List.getLast?_cons]

theorem mem_replaceTwoAsterisk (x : Char) (s : List Char) :
    x ∈ replaceTwoAsterisk s → x ∈ s := by
  induction s using replaceTwoAsterisk.induct with
  | case1 => simp [replaceTwoAsterisk]
  | case2 c => simp [replaceTwoAsterisk]
  | case3 c d cs h ih =>
    rw [replaceTwoAsterisk, if_pos h]
    intro hx
    rcases List.mem_cons.1 hx with hx | hx
    · simp [hx, h.1]
    · simp [ih hx]
  | case4 c d cs h ih =>
    rw [replaceTwoAsterisk, if_neg h]
    intro hx
    rcases List.mem_cons.1 hx with hx | hx
    · simp [hx]
    · exact List.mem_cons_of_mem _ (ih hx)

theorem collapsePart_head (n : Nat) : ∀ s : List Char, (collapsePart n s).head? = s.head? := by
  induction n with
  | zero => intro s; rfl
  | succ n ih =>
    intro s
    simp only [collapsePart]
    split
    · rw [ih, replaceTwoAsterisk_head]
    · rfl

theorem collapsePart_getLast (n : Nat) : ∀ s : List Char,
    (collapsePart n s).getLast? = s.getLast? := by
  induction n with
  | zero => intro s; rfl
  | succ n ih =>
    intro s
    simp only [collapsePart]
    split
    · rw [ih, replaceTwoAsterisk_getLast]
    · rfl

theorem mem_collapsePart (x : Char) (n : Nat) : ∀ s : List Char,
    x ∈ collapsePart n s → x ∈ s := by
  induction n with
  | zero => intro s h; exact h
  | succ n ih =>
    intro s
    simp only [collapsePart]
    split
    · intro h
      exact mem_replaceTwoAsterisk x s (ih _ h)
    · exact id

theorem transformPart_head (seg : List Char) : (transformPart seg).head? = seg.head? := by
  unfold transformPart
  split
  · rfl
  · exact collapsePart_head _ _

theorem transformPart_getLast (seg : List Char) :
    (transformPart seg).getLast? = seg.getLast? := by
  unfold transformPart
  split
  · rfl
  · exact collapsePart_getLast _ _

theorem mem_transformPart (x : Char) (seg : List Char) : x ∈ transformPart seg → x ∈ seg := by
  unfold transformPart
  split
  · exact id
  · exact mem_collapsePart x _ _

/-- A segment that is two asterisks or has fewer than `2 ^ 1000` adjacent
asterisks is left alone by a second pass. -/
theorem transformPart_idem (seg : List Char)
    (h : seg = ['*', '*'] ∨ adjacentAsterisks seg < 2 ^ 1000) :
    transformPart (transformPart seg) = transformPart seg := by
  by_cases h1 : seg = ['*', '*'] ∨ ¬ containsTwoAsterisk seg = true
  · have : transformPart seg = seg := by simp only [transformPart, if_pos h1]
    rw [this, this]
  · have hs : transformPart seg = collapsePart 1000 seg := by
      simp only [transformPart, if_neg h1]
    have hadj : adjacentAsterisks seg < 2 ^ 1000 := by
      rcases h with h | h
      · exact absurd (Or.inl h) h1
      · exact h
    have hc := collapsePart_clean 1000 seg hadj
    rw [hs]
    generalize collapsePart 1000 seg = t at hc
    simp only [transformPart, hc]
    simp

/-! ### Splitting and joining -/

theorem splitSlash_ne_nil (s : List Char) : splitSlash s ≠ [] := by
  cases s with
  | nil => simp [splitSlash]
  | cons c cs =>
    simp only [splitSlash]
    split
    · simp
    · split <;> simp

theorem joinSlash_cons (seg : List Char) (segs : List (List Char)) (h : segs ≠ []) :
    joinSlash (seg :: segs) = seg ++ '/' :: joinSlash segs := by
  cases segs with
  | nil => exact absurd rfl h
  | cons a as => rfl

theorem joinSlash_splitSlash (s : List Char) : joinSlash (splitSlash s) = s := by
  induction s with
  | nil => rfl
  | cons c cs ih =>
    simp only [splitSlash]
    split
    · rename_i h
      rw [joinSlash_cons _ _ (splitSlash_ne_nil cs), ih, h]
      rfl
    · split
      · rename_i h2
        exact absurd h2 (splitSlash_ne_nil cs)
      · rename_i seg segs h2
        rw [h2] at ih
        cases segs with
        | nil =>
          simp only [joinSlash] at ih ⊢
          rw [ih]
        | cons a as =>
          simp only [joinSlash] at ih ⊢
          rw [← ih]
          rfl

theorem splitSlash_of_not_mem (s : List Char) (h : '/' ∉ s) : splitSlash s = [s] := by
  induction s with
  | nil => rfl
  | cons c cs ih =>
    have hc : c ≠ '/' := fun e => h (by simp [e])
    have hcs : '/' ∉ cs := fun e => h (List.mem_cons_of_mem _ e)
    simp only [splitSlash, if_neg hc, ih hcs]

theorem splitSlash_append_slash (z w : List Char) :
    splitSlash (z ++ '/' :: w) = splitSlash z ++ splitSlash w := by
  induction z with
  | nil => simp [splitSlash]
  | cons c cs ih =>
    have hne := splitSlash_ne_nil cs
    rw [List.cons_append]
    by_cases hc : c = '/'
    · rw [splitSlash, if_pos hc, ih, splitSlash, if_pos hc]
      rfl
    · rw [splitSlash, if_neg hc, ih, splitSlash, if_neg hc]
      cases hsp : splitSlash cs with
      | nil => exact absurd hsp hne
      | cons a as => rfl

theorem splitSlash_joinSlash (segs : List (List Char)) (hne : segs ≠ [])
    (h : ∀ seg ∈ segs, '/' ∉ seg) : splitSlash (joinSlash segs) = segs := by
  induction segs with
  | nil => exact absurd rfl hne
  | cons a as ih =>
    cases as with
    | nil =>
      simp only [joinSlash]
      exact splitSlash_of_not_mem a (h a (by simp))
    | cons b bs =>
      rw [joinSlash_cons _ _ (by simp), splitSlash_append_slash,
        splitSlash_of_not_mem a (h a (by simp)),
        ih (by simp) (fun seg hs => h seg (List.mem_cons_of_mem _ hs))]
      rfl

theorem not_mem_of_mem_splitSlash (s : List Char) :
    ∀ seg ∈ splitSlash s, '/' ∉ seg := by
  induction s with
  | nil => simp [splitSlash]
  | cons c cs ih =>
    simp only [splitSlash]
    split
    · intro seg hs
      rcases List.mem_cons.1 hs with hs | hs
      · simp [hs]
      · exact ih seg hs
    · rename_i hc
      split
      · intro seg hs
        simp only [List.mem_singleton] at hs
        subst hs
        simpa using fun e => hc e.symm
      · rename_i a as h2
        rw [h2] at ih
        intro seg hs
        rcases List.mem_cons.1 hs with hs | hs
        · subst hs
          intro hm
          rcases List.mem_cons.1 hm with hm | hm
          · exact hc hm.symm
          · exact ih a (by simp) hm
        · exact ih seg (List.mem_cons_of_mem _ hs)

theorem length_le_of_mem_splitSlash (s : List Char) :
    ∀ seg ∈ splitSlash s, seg.length ≤ s.length := by
  induction s with
  | nil => simp [splitSlash]
  | cons c cs ih =>
    simp only [splitSlash]
    split
    · intro seg hs
      rcases List.mem_cons.1 hs with hs | hs
      · simp [hs]
      · have := ih seg hs
        simp only [List.length_cons]
        omega
    · split
      · simp
      · rename_i a as h2
        rw [h2] at ih
        intro seg hs
        rcases List.mem_cons.1 hs with hs | hs
        · subst hs
          have := ih a (by simp)
          simp only [List.length_cons]
          omega
        · have := ih seg (List.mem_cons_of_mem _ hs)
          simp only [List.length_cons]
          omega

theorem joinSlash_map_head (f : List Char → List Char)
    (hf : ∀ seg, (f seg).head? = seg.head?) (segs : List (List Char)) :
    (joinSlash (segs.map f)).head? = (joinSlash segs).head? := by
  cases segs with
  | nil => rfl
  | cons a as =>
    cases as with
    | nil => exact hf a
    | cons b bs =>
      simp only [List.map, joinSlash, List.head?_append, hf, List.head?_cons]

theorem joinSlash_map_getLast (f : List Char → List Char)
    (hf : ∀ seg, (f seg).getLast? = seg.getLast?) (segs : List (List Char)) :
    (joinSlash (segs.map f)).getLast? = (joinSlash segs).getLast? := by
  induction segs with
  | nil => rfl
  | cons a as ih =>
    cases as with
    | nil => exact hf a
    | cons b bs =>
      simp only [List.map, joinSlash, List.getLast?_append, List.getLast?_cons] at ih ⊢
      rw [ih]
      simp only [Option.or]

/-! ### Facts about `transformTwoAsterisk` -/

theorem transformTwoAsterisk_head (x : List Char) :
    (transformTwoAsterisk x).head? = x.head? := by
  unfold transformTwoAsterisk
  rw [joinSlash_map_head _ transformPart_head, joinSlash_splitSlash]

theorem transformTwoAsterisk_getLast (x : List Char) :
    (transformTwoAsterisk x).getLast? = x.getLast? := by
  unfold transformTwoAsterisk
  rw [joinSlash_map_getLast _ transformPart_getLast, joinSlash_splitSlash]

theorem splitSlash_transformTwoAsterisk (x : List Char) :
    splitSlash (transformTwoAsterisk x) = (splitSlash x).map transformPart := by
  unfold transformTwoAsterisk
  apply splitSlash_joinSlash
  · simpa using splitSlash_ne_nil x
  · intro seg hs
    rcases List.mem_map.1 hs with ⟨a, ha, rfl⟩
    exact fun hm => not_mem_of_mem_splitSlash x a ha (mem_transformPart _ _ hm)

theorem transformTwoAsterisk_idem (x : List Char)
    (h : ∀ seg ∈ splitSlash x, seg = ['*', '*'] ∨ adjacentAsterisks seg < 2 ^ 1000) :
    transformTwoAsterisk (transformTwoAsterisk x) = transformTwoAsterisk x := by
  have hs := splitSlash_transformTwoAsterisk x
  unfold transformTwoAsterisk at hs ⊢
  rw [hs, List.map_map]
  congr 1
  apply List.map_congr_left
  intro seg hseg
  exact transformPart_idem seg (h seg hseg)

theorem transformTwoAsterisk_cons_slash (y : List Char) :
    transformTwoAsterisk ('/' :: y) = '/' :: transformTwoAsterisk y := by
  unfold transformTwoAsterisk
  have hne : (splitSlash y).map transformPart ≠ [] := by simpa using splitSlash_ne_nil y
  simp only [splitSlash, if_true, List.map]
  rw [joinSlash_cons _ _ hne]
  rfl

theorem transformTwoAsterisk_stars_slash (y : List Char) :
    transformTwoAsterisk ('*' :: '*' :: '/' :: y)
      = '*' :: '*' :: '/' :: transformTwoAsterisk y := by
  unfold transformTwoAsterisk
  have hne : (splitSlash y).map transformPart ≠ [] := by simpa using splitSlash_ne_nil y
  have hsp : splitSlash ('*' :: '*' :: '/' :: y) = ['*', '*'] :: splitSlash y := by
    simp [splitSlash]
  rw [hsp, List.map, joinSlash_cons _ _ hne]
  rfl

/-! ### The steps of `NormalizeGitignore` on its own results -/

theorem indexSlash_nil_of_eq (t : List Char) (h : t = []) : indexSlash t = -1 := by
  subst h; rfl

theorem earlySlash_cases (t : List Char) :
    (earlySlash t = t ∧ t.head? = some '/')
      ∨ (earlySlash t = '/' :: t ∧ t ≠ [] ∧ t.head? ≠ some '/')
      ∨ (earlySlash t = '*' :: '*' :: '/' :: t ∧ t.head? ≠ some '/') := by
  unfold earlySlash
  by_cases h1 : t.head? = some '/'
  · exact Or.inl ⟨by rw [if_pos h1], h1⟩
  · rw [if_neg h1]
    by_cases h2 : indexSlash t ≠ -1 ∧ indexSlash t < (t.length : Int) - 1
    · refine Or.inr (Or.inl ⟨if_pos h2, ?_, h1⟩)
      intro ht
      exact h2.1 (indexSlash_nil_of_eq t ht)
    · exact Or.inr (Or.inr ⟨if_neg h2, h1⟩)

theorem lateSlash_cases (z : List Char) :
    (z.getLast? = some '/' ∧ lateSlash z = z ++ ['*', '*'])
      ∨ (z.getLast? ≠ some '/' ∧ lateSlash z = z) := by
  unfold lateSlash endsWithSlash
  by_cases h : z.getLast? = some '/'
  · exact Or.inl ⟨h, by simp [h]⟩
  · exact Or.inr ⟨h, by simp [h]⟩

/-- The last rune of a pattern after `earlySlash` and `lateSlash` is neither
the separator nor a space. -/
theorem lateSlash_earlySlash_getLast (t : List Char) (h : NoTrailingSpace t) :
    ∃ c, (lateSlash (earlySlash t)).getLast? = some c ∧ c ≠ '/' ∧ isSpace c = false := by
  have hE : ∃ d, (earlySlash t).getLast? = some d ∧ (d = '/' ∨ isSpace d = false) := by
    rcases earlySlash_cases t with ⟨he, hh⟩ | ⟨he, hne, _⟩ | ⟨he, _⟩
    · rw [he]
      cases hl : t.getLast? with
      | none =>
        rw [List.getLast?_eq_none_iff] at hl
        subst hl
        simp at hh
      | some d => exact ⟨d, rfl, Or.inr (h d hl)⟩
    · rw [he, List.getLast?_cons]
      cases hl : t.getLast? with
      | none => exact absurd (List.getLast?_eq_none_iff.1 hl) hne
      | some d => exact ⟨d, rfl, Or.inr (h d hl)⟩
    · rw [he, List.getLast?_cons, List.getLast?_cons, List.getLast?_cons]
      cases hl : t.getLast? with
      | none => exact ⟨'/', rfl, Or.inl rfl⟩
      | some d => exact ⟨d, rfl, Or.inr (h d hl)⟩
  obtain ⟨d, hd, hds⟩ := hE
  rcases lateSlash_cases (earlySlash t) with ⟨hl, he⟩ | ⟨hl, he⟩
  · refine ⟨'*', ?_, by decide, by decide⟩
    rw [he, List.getLast?_append]
    rfl
  · rw [he]
    refine ⟨d, hd, ?_, ?_⟩
    · intro hc
      rw [hd, hc] at hl
      exact hl rfl
    · rcases hds with hds | hds
      · rw [hd, hds] at hl
        exact absurd rfl hl
      · exact hds

/-- The segments after `earlySlash` and `lateSlash` are two asterisks or no
longer than the pattern. -/
theorem segments_lateSlash_earlySlash (t : List Char) :
    ∀ seg ∈ splitSlash (lateSlash (earlySlash t)),
      seg = ['*', '*'] ∨ seg.length ≤ t.length := by
  have hE : ∀ seg ∈ splitSlash (earlySlash t), seg = ['*', '*'] ∨ seg.length ≤ t.length := by
    rcases earlySlash_cases t with ⟨he, _⟩ | ⟨he, _, _⟩ | ⟨he, _⟩
    · rw [he]
      exact fun seg hs => Or.inr (length_le_of_mem_splitSlash t seg hs)
    · rw [he]
      intro seg hs
      simp only [splitSlash, if_true, List.mem_cons] at hs
      rcases hs with hs | hs
      · exact Or.inr (by simp [hs])
      · exact Or.inr (length_le_of_mem_splitSlash t seg hs)
    · rw [he]
      intro seg hs
      have hsp : splitSlash ('*' :: '*' :: '/' :: t) = ['*', '*'] :: splitSlash t := by
        simp [splitSlash]
      rw [hsp] at hs
      rcases List.mem_cons.1 hs with hs | hs
      · exact Or.inl hs
      · exact Or.inr (length_le_of_mem_splitSlash t seg hs)
  rcases lateSlash_cases (earlySlash t) with ⟨hl, he⟩ | ⟨_, he⟩
  · rw [he]
    obtain ⟨z0, hz⟩ := List.getLast?_eq_some_iff.1 hl
    intro seg hs
    have e1 : earlySlash t ++ ['*', '*'] = z0 ++ '/' :: ['*', '*'] := by
      rw [hz]; simp
    have e2 : splitSlash (earlySlash t) = splitSlash z0 ++ splitSlash [] := by
      rw [hz]
      exact splitSlash_append_slash z0 []
    rw [e1, splitSlash_append_slash] at hs
    rcases List.mem_append.1 hs with hs | hs
    · apply hE
      rw [e2]
      exact List.mem_append_left _ hs
    · left
      have : splitSlash ['*', '*'] = [['*', '*']] := by decide
      rw [this] at hs
      simpa using hs
  · rw [he]
    exact hE

theorem indexSlash_stars (r : List Char) : indexSlash ('*' :: '*' :: '/' :: r) = 2 := by
  simp [indexSlash]

/-- The result of the steps after the trimming, and what the same steps
make of it. -/
theorem normalizeCore_twice (t : List Char) (hts : NoTrailingSpace t)
    (hlen : t.length < 2 ^ 1000) :
    NoTrailingSpace (normalizeCore t)
      ∧ ((normalizeCore t).head? = some '/' ∨ (normalizeCore t).head? = some '*')
      ∧ (normalizeCore (normalizeCore t) = normalizeCore t
          ∨ ∃ r, normalizeCore t = '*' :: '*' :: '/' :: r
              ∧ normalizeCore (normalizeCore t) = '/' :: '*' :: '*' :: '/' :: r) := by
  obtain ⟨c, hc, hcs, hcsp⟩ := lateSlash_earlySlash_getLast t hts
  have hidem : transformTwoAsterisk (transformTwoAsterisk (lateSlash (earlySlash t)))
      = transformTwoAsterisk (lateSlash (earlySlash t)) := by
    apply transformTwoAsterisk_idem
    intro seg hs
    rcases segments_lateSlash_earlySlash t seg hs with h | h
    · exact Or.inl h
    · exact Or.inr (lt_of_le_of_lt ((adjacentAsterisks_le_length seg).trans h) hlen)
  have hlast : (normalizeCore t).getLast? = some c := by
    unfold normalizeCore
    rw [transformTwoAsterisk_getLast, hc]
  have hnts : NoTrailingSpace (normalizeCore t) := by
    intro d hd
    rw [hlast] at hd
    cases hd
    exact hcsp
  have hL : lateSlash (normalizeCore t) = normalizeCore t := by
    rcases lateSlash_cases (normalizeCore t) with ⟨hl, _⟩ | ⟨_, he⟩
    · rw [hlast] at hl
      cases hl
      exact absurd rfl hcs
    · exact he
  have hhead : (normalizeCore t).head? = (lateSlash (earlySlash t)).head? := by
    unfold normalizeCore
    exact transformTwoAsterisk_head _
  have hLhead : (lateSlash (earlySlash t)).head? = (earlySlash t).head? := by
    rcases lateSlash_cases (earlySlash t) with ⟨_, he⟩ | ⟨_, he⟩
    · rw [he, List.head?_append]
      rcases earlySlash_cases t with ⟨h1, h2⟩ | ⟨h1, _, _⟩ | ⟨h1, _⟩
      · rw [h1, h2]; rfl
      · rw [h1]; rfl
      · rw [h1]; rfl
    · rw [he]
  by_cases hanch : (earlySlash t).head? = some '/'
  · -- the anchored pattern is left alone
    have hq : (normalizeCore t).head? = some '/' := by rw [hhead, hLhead, hanch]
    refine ⟨hnts, Or.inl hq, Or.inl ?_⟩
    have hE : earlySlash (normalizeCore t) = normalizeCore t := by
      unfold earlySlash
      rw [if_pos hq]
    show transformTwoAsterisk (lateSlash (earlySlash (normalizeCore t))) = normalizeCore t
    rw [hE, hL]
    exact hidem
  · -- the pattern without a separator gets one in front of its two asterisks
    have hEt : earlySlash t = '*' :: '*' :: '/' :: t := by
      rcases earlySlash_cases t with ⟨h1, h2⟩ | ⟨h1, _, _⟩ | ⟨h1, _⟩
      · rw [h1] at hanch
        exact absurd h2 hanch
      · rw [h1] at hanch
        exact absurd rfl hanch
      · exact h1
    obtain ⟨y, hy, hyne⟩ : ∃ y, lateSlash (earlySlash t) = '*' :: '*' :: '/' :: y ∧ y ≠ [] := by
      rcases lateSlash_cases (earlySlash t) with ⟨_, he⟩ | ⟨hl, he⟩
      · exact ⟨t ++ ['*', '*'], by rw [he, hEt]; rfl, by simp⟩
      · refine ⟨t, by rw [he, hEt], ?_⟩
        intro ht
        rw [hEt, ht] at hl
        exact hl rfl
    have hq : normalizeCore t = '*' :: '*' :: '/' :: transformTwoAsterisk y := by
      unfold normalizeCore
      rw [hy, transformTwoAsterisk_stars_slash]
    have hTy : transformTwoAsterisk y ≠ [] := by
      intro h0
      have := transformTwoAsterisk_head y
      rw [h0] at this
      cases y with
      | nil => exact hyne rfl
      | cons a as => simp at this
    refine ⟨hnts, Or.inr (by rw [hq]; rfl), Or.inr ⟨transformTwoAsterisk y, hq, ?_⟩⟩
    have hE : earlySlash (normalizeCore t) = '/' :: normalizeCore t := by
      have hpos : 0 < (transformTwoAsterisk y).length := List.length_pos.2 hTy
      rw [hq]
      unfold earlySlash
      rw [if_neg (by simp), indexSlash_stars]
      have hcond : ((2 : Int) ≠ -1 ∧
          (2 : Int) < (('*' :: '*' :: '/' :: transformTwoAsterisk y).length : Int) - 1) := by
        refine ⟨by decide, ?_⟩
        simp only [List.length_cons]
        push_cast
        omega
      exact if_pos hcond
    have hL2 : lateSlash ('/' :: normalizeCore t) = '/' :: normalizeCore t := by
      rcases lateSlash_cases ('/' :: normalizeCore t) with ⟨hl, _⟩ | ⟨_, he⟩
      · rw [List.getLast?_cons, hlast] at hl
        simp only [Option.getD_some, Option.some.injEq] at hl
        exact absurd hl hcs
      · exact he
    show transformTwoAsterisk (lateSlash (earlySlash (normalizeCore t)))
      = '/' :: '*' :: '*' :: '/' :: transformTwoAsterisk y
    rw [hE, hL2, transformTwoAsterisk_cons_slash]
    have : transformTwoAsterisk (normalizeCore t) = normalizeCore t := hidem
    rw [this, hq]

theorem NormalizeGitignore_bang (rest : List Char) :
    NormalizeGitignore ('!' :: rest) = '!' :: NormalizeGitignore (trimRightSpace rest) := by
  rw [NormalizeGitignore_eq, if_neg (by simp), if_neg (by simp),
    trimRightSpace_cons_of_not_space '!' rest (by decide)]
  rfl

theorem NormalizeGitignore_plain (p : List Char) (h1 : p ≠ []) (h2 : p.head? ≠ some '#')
    (h3 : p.head? ≠ some '!') :
    NormalizeGitignore p = normalizeCore (trimRightSpace p) := by
  rw [NormalizeGitignore_eq, if_neg h1, if_neg h2]
  split
  · rename_i rest ht
    cases p with
    | nil => exact absurd rfl h1
    | cons c cs =>
      rcases trimRightSpace_head c cs with h | ⟨t, h⟩
      · rw [h] at ht
        cases ht
      · rw [h] at ht
        cases ht
        exact absurd rfl h3
  · rfl

theorem noTrailingSpace_cons_bang (q : List Char) (h : NoTrailingSpace q) :
    NoTrailingSpace ('!' :: q) := by
  intro c hc
  rw [List.getLast?_cons] at hc
  cases hq : q.getLast? with
  | none =>
    rw [hq] at hc
    cases hc
    decide
  | some d =>
    rw [hq] at hc
    cases hc
    exact h d hq

theorem normalize_twice_aux (n : Nat) : ∀ p : List Char, p.length ≤ n → p.length < 2 ^ 1000 →
    NoTrailingSpace (NormalizeGitignore p)
      ∧ (NormalizeGitignore (NormalizeGitignore p) = NormalizeGitignore p
          ∨ ∃ bangs r, (∀ c ∈ bangs, c = '!')
              ∧ NormalizeGitignore p = bangs ++ '*' :: '*' :: '/' :: r
              ∧ NormalizeGitignore (NormalizeGitignore p)
                  = bangs ++ '/' :: '*' :: '*' :: '/' :: r) := by
  induction n with
  | zero =>
    intro p hp _
    have : p = [] := List.length_eq_zero.1 (by omega)
    subst this
    exact ⟨fun c hc => by simp [NormalizeGitignore, normalizeFuel] at hc, Or.inl rfl⟩
  | succ n ih =>
    intro p hp hlen
    by_cases h1 : p = []
    · subst h1
      exact ⟨fun c hc => by simp [NormalizeGitignore, normalizeFuel] at hc, Or.inl rfl⟩
    by_cases h2 : p.head? = some '#'
    · have hN : NormalizeGitignore p = [] := by
        rw [NormalizeGitignore_eq, if_neg h1, if_pos h2]
      rw [hN]
      exact ⟨fun c hc => by simp at hc, Or.inl rfl⟩
    by_cases h3 : p.head? = some '!'
    · obtain ⟨rest, rfl⟩ : ∃ rest, p = '!' :: rest := by
        cases p with
        | nil => exact absurd rfl h1
        | cons c cs =>
          simp only [List.head?_cons, Option.some.injEq] at h3
          exact ⟨cs, by rw [h3]⟩
      have hl := trimRightSpace_length_le rest
      simp only [List.length_cons] at hp hlen
      obtain ⟨hnts, hdisj⟩ := ih (trimRightSpace rest) (by omega) (by omega)
      have hN := NormalizeGitignore_bang rest
      have hNN : NormalizeGitignore (NormalizeGitignore ('!' :: rest))
          = '!' :: NormalizeGitignore (NormalizeGitignore (trimRightSpace rest)) := by
        rw [hN, NormalizeGitignore_bang, trimRightSpace_of_noTrailingSpace _ hnts]
      refine ⟨by rw [hN]; exact noTrailingSpace_cons_bang _ hnts, ?_⟩
      rcases hdisj with hd | ⟨bangs, r, hb, hq, hqq⟩
      · left
        rw [hNN, hd, hN]
      · right
        refine ⟨'!' :: bangs, r, ?_, ?_, ?_⟩
        · intro c hc
          rcases List.mem_cons.1 hc with hc | hc
          · exact hc
          · exact hb c hc
        · rw [hN, hq]; rfl
        · rw [hNN, hqq]; rfl
    · have hN := NormalizeGitignore_plain p h1 h2 h3
      have hts := noTrailingSpace_trimRightSpace p
      have hl := trimRightSpace_length_le p
      obtain ⟨hnts, hhead, hdisj⟩ := normalizeCore_twice (trimRightSpace p) hts (by omega)
      have hNN : NormalizeGitignore (normalizeCore (trimRightSpace p))
          = normalizeCore (normalizeCore (trimRightSpace p)) := by
        rw [NormalizeGitignore_plain, trimRightSpace_of_noTrailingSpace _ hnts]
        · intro h0
          rw [h0] at hhead
          simp at hhead
        · rcases hhead with h | h <;> rw [h] <;> decide
        · rcases hhead with h | h <;> rw [h] <;> decide
      rw [hN, hNN]
      refine ⟨hnts, ?_⟩
      rcases hdisj with hd | ⟨r, hq, hqq⟩
      · exact Or.inl hd
      · exact Or.inr ⟨[], r, by simp, by rw [hq]; rfl, by rw [hqq]; rfl⟩

/-! ### The matcher and the meaning of an expression -/

theorem matches_fail_iff (st en : Bool) (s : List Char) : Matches st en Regex.fail s ↔ False := by
  constructor
  · intro h; cases h
  · exact False.elim

theorem matches_empty_iff (st en : Bool) (s : List Char) :
    Matches st en Regex.empty s ↔ s = [] := by
  constructor
  · intro h; cases h; rfl
  · rintro rfl; exact Matches.empty

theorem matches_lit_iff (st en : Bool) (c : Char) (s : List Char) :
    Matches st en (Regex.lit c) s ↔ s = [c] := by
  constructor
  · intro h; cases h; rfl
  · rintro rfl; exact Matches.lit

theorem matches_anyNotNL_iff (st en : Bool) (s : List Char) :
    Matches st en Regex.anyNotNL s ↔ ∃ d, s = [d] ∧ d ≠ '\n' := by
  constructor
  · intro h; cases h with | anyNotNL hd => exact ⟨_, rfl, hd⟩
  · rintro ⟨d, rfl, hd⟩; exact Matches.anyNotNL hd

theorem matches_cls_iff (st en negated : Bool) (ranges : List (Char × Char)) (s : List Char) :
    Matches st en (Regex.cls negated ranges) s ↔ ∃ d, s = [d] ∧ inRanges ranges d ≠ negated := by
  constructor
  · intro h; cases h with | cls hd => exact ⟨_, rfl, hd⟩
  · rintro ⟨d, rfl, hd⟩; exact Matches.cls hd

theorem matches_bol_iff (st en : Bool) (s : List Char) :
    Matches st en Regex.bol s ↔ s = [] ∧ st = true := by
  constructor
  · intro h; cases h; exact ⟨rfl, rfl⟩
  · rintro ⟨rfl, rfl⟩; exact Matches.bol

theorem matches_eol_iff (st en : Bool) (s : List Char) :
    Matches st en Regex.eol s ↔ s = [] ∧ en = true := by
  constructor
  · intro h; cases h; exact ⟨rfl, rfl⟩
  · rintro ⟨rfl, rfl⟩; exact Matches.eol

theorem matches_cat_iff (st en : Bool) (a b : Regex) (s : List Char) :
    Matches st en (Regex.cat a b) s ↔
      ∃ s1 s2, s = s1 ++ s2 ∧ Matches st (en && s2.isEmpty) a s1
        ∧ Matches (st && s1.isEmpty) en b s2 := by
  constructor
  · intro h; cases h with | cat ha hb => exact ⟨_, _, rfl, ha, hb⟩
  · rintro ⟨s1, s2, rfl, ha, hb⟩; exact Matches.cat ha hb

theorem matches_alt_iff (st en : Bool) (a b : Regex) (s : List Char) :
    Matches st en (Regex.alt a b) s ↔ Matches st en a s ∨ Matches st en b s := by
  constructor
  · intro h
    cases h with
    | altLeft h => exact Or.inl h
    | altRight h => exact Or.inr h
  · rintro (h | h)
    · exact Matches.altLeft h
    · exact Matches.altRight h

theorem matches_star_iff (st en : Bool) (a : Regex) (s : List Char) :
    Matches st en (Regex.star a) s ↔
      s = [] ∨ ∃ d s1 s2, s = d :: s1 ++ s2 ∧ Matches st (en && s2.isEmpty) a (d :: s1)
        ∧ Matches false en (Regex.star a) s2 := by
  constructor
  · intro h
    cases h with
    | starNil => exact Or.inl rfl
    | starCons ha hs => exact Or.inr ⟨_, _, _, rfl, ha, hs⟩
  · rintro (rfl | ⟨d, s1, s2, rfl, ha, hs⟩)
    · exact Matches.starNil
    · exact Matches.starCons ha hs

theorem matches_mkAlt_iff (st en : Bool) (a b : Regex) (s : List Char) :
    Matches st en (mkAlt a b) s ↔ Matches st en a s ∨ Matches st en b s := by
  unfold mkAlt
  split
  · simp [matches_fail_iff]
  · simp [matches_fail_iff]
  · exact matches_alt_iff st en _ _ s

theorem matches_mkCat_iff (st en : Bool) (a b : Regex) (s : List Char) :
    Matches st en (mkCat a b) s ↔ Matches st en (Regex.cat a b) s := by
  unfold mkCat
  split
  · simp [matches_cat_iff, matches_fail_iff]
  · rw [matches_cat_iff]
    constructor
    · intro h
      exact ⟨[], s, rfl, by simp [matches_empty_iff], by simpa using h⟩
    · rintro ⟨s1, s2, rfl, h1, h2⟩
      rw [matches_empty_iff] at h1
      subst h1
      simpa using h2
  · rfl

theorem nullable_iff (r : Regex) : ∀ st en : Bool,
    nullable st en r = true ↔ Matches st en r [] := by
  induction r with
  | fail => intro st en; simp [nullable, matches_fail_iff]
  | empty => intro st en; simp [nullable, matches_empty_iff]
  | lit c => intro st en; simp [nullable, matches_lit_iff]
  | anyNotNL => intro st en; simp [nullable, matches_anyNotNL_iff]
  | cls negated ranges => intro st en; simp [nullable, matches_cls_iff]
  | bol => intro st en; simp [nullable, matches_bol_iff]
  | eol => intro st en; simp [nullable, matches_eol_iff]
  | cat a b iha ihb =>
    intro st en
    simp only [nullable, Bool.and_eq_true, iha, ihb, matches_cat_iff]
    constructor
    · rintro ⟨h1, h2⟩
      exact ⟨[], [], rfl, by simpa using h1, by simpa using h2⟩
    · rintro ⟨s1, s2, hs, h1, h2⟩
      have hs1 : s1 = [] := (List.append_eq_nil.1 hs.symm).1
      have hs2 : s2 = [] := (List.append_eq_nil.1 hs.symm).2
      subst hs1 hs2
      exact ⟨by simpa using h1, by simpa using h2⟩
  | alt a b iha ihb =>
    intro st en
    simp only [nullable, Bool.or_eq_true, iha, ihb, matches_alt_iff]
  | star a _ =>
    intro st en
    simp only [nullable, true_iff]
    exact Matches.starNil

/-- The derivative is what is left of the expression after one rune. -/
theorem deriv_iff (r : Regex) : ∀ (st en : Bool) (d : Char) (s : List Char),
    Matches false en (deriv st d r) s ↔ Matches st en r (d :: s) := by
  induction r with
  | fail => intro st en d s; simp [deriv, matches_fail_iff]
  | empty => intro st en d s; simp [deriv, matches_fail_iff, matches_empty_iff]
  | lit c =>
    intro st en d s
    simp only [deriv, matches_lit_iff]
    split
    · rename_i h; simp [matches_empty_iff, h]
    · rename_i h; simp [matches_fail_iff, h]
  | anyNotNL =>
    intro st en d s
    simp only [deriv, matches_anyNotNL_iff]
    split
    · rename_i h; simp [matches_fail_iff, h]
    · rename_i h
      rw [matches_empty_iff]
      constructor
      · rintro rfl; exact ⟨d, rfl, h⟩
      · rintro ⟨_, hs, _⟩
        exact (List.cons.inj hs).2
  | cls negated ranges =>
    intro st en d s
    simp only [deriv, matches_cls_iff]
    split
    · rename_i h; simp [matches_fail_iff, h]
    · rename_i h
      rw [matches_empty_iff]
      constructor
      · rintro rfl; exact ⟨d, rfl, h⟩
      · rintro ⟨_, hs, _⟩
        exact (List.cons.inj hs).2
  | bol => intro st en d s; simp [deriv, matches_fail_iff, matches_bol_iff]
  | eol => intro st en d s; simp [deriv, matches_fail_iff, matches_eol_iff]
  | cat a b iha ihb =>
    intro st en d s
    simp only [deriv, matches_mkAlt_iff, matches_mkCat_iff]
    rw [matches_cat_iff, matches_cat_iff]
    constructor
    · rintro (⟨s1, s2, rfl, h1, h2⟩ | h)
      · refine ⟨d :: s1, s2, rfl, (iha _ _ _ _).1 h1, ?_⟩
        simpa using h2
      · by_cases hn : nullable st false a = true
        · rw [if_pos hn] at h
          refine ⟨[], d :: s, rfl, ?_, ?_⟩
          · simpa using (nullable_iff a st false).1 hn
          · simpa using (ihb _ _ _ _).1 h
        · rw [if_neg hn, matches_fail_iff] at h
          exact h.elim
    · rintro ⟨s1, s2, hs, h1, h2⟩
      cases s1 with
      | nil =>
        simp only [List.nil_append] at hs
        subst hs
        right
        have hn : nullable st false a = true := (nullable_iff a st false).2 (by simpa using h1)
        rw [if_pos hn]
        exact (ihb _ _ _ _).2 (by simpa using h2)
      | cons c s1 =>
        simp only [List.cons_append, List.cons.injEq] at hs
        obtain ⟨rfl, rfl⟩ := hs
        left
        exact ⟨s1, s2, rfl, (iha _ _ _ _).2 h1, by simpa using h2⟩
  | alt a b iha ihb =>
    intro st en d s
    simp only [deriv, matches_mkAlt_iff, matches_alt_iff, iha, ihb]
  | star a iha =>
    intro st en d s
    simp only [deriv, matches_mkCat_iff]
    rw [matches_cat_iff, matches_star_iff]
    constructor
    · rintro ⟨s1, s2, rfl, h1, h2⟩
      right
      exact ⟨d, s1, s2, rfl, (iha _ _ _ _).1 h1, by simpa using h2⟩
    · rintro (h | ⟨c, s1, s2, hs, h1, h2⟩)
      · cases h
      · simp only [List.cons_append, List.cons.injEq] at hs
        obtain ⟨rfl, rfl⟩ := hs
        exact ⟨s1, s2, rfl, (iha _ _ _ _).2 h1, by simpa using h2⟩

/-- The prefix search finds exactly the matches that begin where it begins. -/
theorem matchPrefix_iff (s : List Char) : ∀ (st : Bool) (r : Regex),
    matchPrefix s st r = true ↔
      ∃ s1 s2, s = s1 ++ s2 ∧ Matches st s2.isEmpty r s1 := by
  induction s with
  | nil =>
    intro st r
    simp only [matchPrefix, nullable_iff]
    constructor
    · intro h; exact ⟨[], [], rfl, h⟩
    · rintro ⟨s1, s2, hs, h⟩
      have hs1 : s1 = [] := (List.append_eq_nil.1 hs.symm).1
      have hs2 : s2 = [] := (List.append_eq_nil.1 hs.symm).2
      subst hs1 hs2
      exact h
  | cons d ds ih =>
    intro st r
    simp only [matchPrefix, Bool.or_eq_true, nullable_iff, ih]
    constructor
    · rintro (h | ⟨s1, s2, rfl, h⟩)
      · exact ⟨[], d :: ds, rfl, h⟩
      · exact ⟨d :: s1, s2, rfl, (deriv_iff r st _ d s1).1 h⟩
    · rintro ⟨s1, s2, hs, h⟩
      cases s1 with
      | nil =>
        simp only [List.nil_append] at hs
        subst hs
        exact Or.inl h
      | cons c s1 =>
        simp only [List.cons_append, List.cons.injEq] at hs
        obtain ⟨rfl, rfl⟩ := hs
        exact Or.inr ⟨s1, s2, rfl, (deriv_iff r st _ _ s1).2 h⟩

/-- The search finds exactly the matches of a piece of the text. -/
theorem matchSearch_iff (s : List Char) : ∀ (st : Bool) (r : Regex),
    matchSearch s st r = true ↔
      ∃ s0 s1 s2, s = s0 ++ (s1 ++ s2) ∧ Matches (st && s0.isEmpty) s2.isEmpty r s1 := by
  induction s with
  | nil =>
    intro st r
    simp only [matchSearch, nullable_iff]
    constructor
    · intro h; exact ⟨[], [], [], rfl, by simpa using h⟩
    · rintro ⟨s0, s1, s2, hs, h⟩
      have h0 : s0 = [] := (List.append_eq_nil.1 hs.symm).1
      have h12 := (List.append_eq_nil.1 hs.symm).2
      have h1 : s1 = [] := (List.append_eq_nil.1 h12).1
      have h2 : s2 = [] := (List.append_eq_nil.1 h12).2
      subst h0 h1 h2
      simpa using h
  | cons d ds ih =>
    intro st r
    simp only [matchSearch, Bool.or_eq_true, matchPrefix_iff, ih]
    constructor
    · rintro (⟨s1, s2, hs, h⟩ | ⟨s0, s1, s2, hs, h⟩)
      · exact ⟨[], s1, s2, hs, by simpa using h⟩
      · exact ⟨d :: s0, s1, s2, by rw [hs]; rfl, by simpa using h⟩
    · rintro ⟨s0, s1, s2, hs, h⟩
      cases s0 with
      | nil => exact Or.inl ⟨s1, s2, hs, by simpa using h⟩
      | cons c s0 =>
        simp only [List.cons_append, List.cons.injEq] at hs
        exact Or.inr ⟨s0, s1, s2, hs.2, by simpa using h⟩

/-- `MatchString` reports a match of some piece of the text. -/
theorem MatchString_iff (r : Regex) (s : List Char) :
    MatchString r s = true ↔
      ∃ s0 s1 s2, s = s0 ++ (s1 ++ s2) ∧ Matches s0.isEmpty s2.isEmpty r s1 := by
  unfold MatchString
  rw [matchSearch_iff]
  simp

/-- A leading start anchor holds the match at the start of the text. -/
theorem matches_cat_bol_iff (st en : Bool) (x : Regex) (s : List Char) :
    Matches st en (Regex.cat Regex.bol x) s ↔ st = true ∧ Matches true en x s := by
  rw [matches_cat_iff]
  constructor
  · rintro ⟨s1, s2, rfl, h1, h2⟩
    rw [matches_bol_iff] at h1
    obtain ⟨rfl, rfl⟩ := h1
    exact ⟨rfl, by simpa using h2⟩
  · rintro ⟨rfl, h⟩
    exact ⟨[], s, rfl, by simp [matches_bol_iff], by simpa using h⟩

/-- A literal in front takes the first rune of the piece. -/
theorem matches_cat_lit_iff (st en : Bool) (c : Char) (x : Regex) (s : List Char) :
    Matches st en (Regex.cat (Regex.lit c) x) s ↔ ∃ t, s = c :: t ∧ Matches false en x t := by
  rw [matches_cat_iff]
  constructor
  · rintro ⟨s1, s2, rfl, h1, h2⟩
    rw [matches_lit_iff] at h1
    subst h1
    exact ⟨s2, rfl, by simpa using h2⟩
  · rintro ⟨t, rfl, h⟩
    exact ⟨[c], t, rfl, by simp [matches_lit_iff], by simpa using h⟩

/-- The end anchor at the end of an expression holds the match at the end
of the text. -/
theorem matches_cat_eol_empty_iff (st en : Bool) (s : List Char) :
    Matches st en (Regex.cat Regex.eol Regex.empty) s ↔ s = [] ∧ en = true := by
  rw [matches_cat_iff]
  constructor
  · rintro ⟨s1, s2, rfl, h1, h2⟩
    rw [matches_eol_iff] at h1
    rw [matches_empty_iff] at h2
    obtain ⟨rfl, h1⟩ := h1
    subst h2
    exact ⟨rfl, by simpa using h1⟩
  · rintro ⟨rfl, rfl⟩
    exact ⟨[], [], rfl, by simp [matches_eol_iff], by simp [matches_empty_iff]⟩

/-- The expression `.*` matches the pieces without a newline. -/
theorem matches_star_anyNotNL_iff (s : List Char) : ∀ st en : Bool,
    Matches st en (Regex.star Regex.anyNotNL) s ↔ ∀ c ∈ s, c ≠ '\n' := by
  induction s with
  | nil =>
    intro st en
    exact ⟨fun _ c hc => absurd hc (List.not_mem_nil c), fun _ => Matches.starNil⟩
  | cons d ds ih =>
    intro st en
    rw [matches_star_iff]
    constructor
    · rintro (h | ⟨c, s1, s2, hs, h1, h2⟩)
      · cases h
      · rw [matches_anyNotNL_iff] at h1
        obtain ⟨x, hx, hxn⟩ := h1
        simp only [List.cons.injEq] at hx
        obtain ⟨rfl, rfl⟩ := hx
        simp only [List.cons_append, List.nil_append, List.cons.injEq] at hs
        obtain ⟨rfl, rfl⟩ := hs
        intro y hy
        rcases List.mem_cons.1 hy with hy | hy
        · rw [hy]; exact hxn
        · exact (ih false en).1 h2 y hy
    · intro h
      right
      refine ⟨d, [], ds, rfl, ?_, ?_⟩
      · rw [matches_anyNotNL_iff]
        exact ⟨d, rfl, h d (by simp)⟩
      · exact (ih false en).2 (fun y hy => h y (List.mem_cons_of_mem _ hy))

/-- The expression that `a/**/e` is compiled to. -/
theorem asRegexp_doubleStar :
    asRegexp (trimLeadingSlash (NormalizeGitignore "a/**/e".toList))
      = Outcome.ret (Regex.cat Regex.bol (Regex.cat (Regex.lit 'a') (Regex.cat (Regex.lit '/')
          (Regex.cat (Regex.star Regex.anyNotNL) (Regex.cat (Regex.lit 'e')
            (Regex.cat Regex.eol Regex.empty)))))) := by
  decide

/-- What the pattern `a/**/e` matches: the paths `a/` ++ d ++ `e` for any
string `d` without a newline, whether or not `d` is made of whole segments. -/
theorem doubleStar_matches_iff (f : List Char) :
    GitignoreMatch f "a/**/e".toList = Outcome.ret true ↔
      ∃ d : List Char, f = 'a' :: '/' :: d ++ ['e'] ∧ ∀ c ∈ d, c ≠ '\n' := by
  have hG : GitignoreMatch f "a/**/e".toList
      = (asRegexp (trimLeadingSlash (NormalizeGitignore "a/**/e".toList))).map
          (fun r => MatchString r f) := rfl
  rw [hG, asRegexp_doubleStar]
  simp only [Outcome.map, Outcome.ret.injEq, MatchString_iff, matches_cat_bol_iff,
    matches_cat_lit_iff]
  constructor
  · rintro ⟨s0, s1, s2, rfl, h0, t, rfl, u, rfl, h⟩
    rw [matches_cat_iff] at h
    obtain ⟨d, v, rfl, hd, hv⟩ := h
    rw [matches_star_anyNotNL_iff] at hd
    rw [matches_cat_lit_iff] at hv
    obtain ⟨w, rfl, hw⟩ := hv
    rw [matches_cat_eol_empty_iff] at hw
    obtain ⟨rfl, hs2⟩ := hw
    have h0' : s0 = [] := by simpa using h0
    have h2' : s2 = [] := by simpa using hs2
    subst h0' h2'
    exact ⟨d, by simp, hd⟩
  · rintro ⟨d, rfl, hd⟩
    refine ⟨[], 'a' :: '/' :: d ++ ['e'], [], by simp, by simp, '/' :: d ++ ['e'], rfl,
      d ++ ['e'], rfl, ?_⟩
    rw [matches_cat_iff]
    refine ⟨d, ['e'], rfl, (matches_star_anyNotNL_iff d _ _).2 hd, ?_⟩
    rw [matches_cat_lit_iff]
    exact ⟨[], rfl, by simp [matches_cat_eol_empty_iff]⟩

/-- A run of literals in front takes exactly these runes of the piece. -/
theorem matches_litChain_iff (w : List Char) (x : Regex) : ∀ (st en : Bool) (s : List Char),
    Matches st en (litChain w x) s ↔
      ∃ t, s = w ++ t ∧ Matches (st && w.isEmpty) en x t := by
  induction w with
  | nil => intro st en s; simp [litChain]
  | cons c w ih =>
    intro st en s
    have hc : litChain (c :: w) x = Regex.cat (Regex.lit c) (litChain w x) := rfl
    rw [hc, matches_cat_lit_iff]
    constructor
    · rintro ⟨t, rfl, h⟩
      obtain ⟨u, rfl, hu⟩ := (ih false en t).1 h
      exact ⟨u, rfl, by simpa using hu⟩
    · rintro ⟨t, rfl, h⟩
      exact ⟨w ++ t, rfl, (ih false en _).2 ⟨t, rfl, by simpa using h⟩⟩

/-- A dot in front takes one rune of the piece other than the newline. -/
theorem matches_cat_anyNotNL_iff (st en : Bool) (x : Regex) (s : List Char) :
    Matches st en (Regex.cat Regex.anyNotNL x) s ↔
      ∃ d t, s = d :: t ∧ d ≠ '\n' ∧ Matches false en x t := by
  rw [matches_cat_iff]
  constructor
  · rintro ⟨s1, s2, rfl, h1, h2⟩
    rw [matches_anyNotNL_iff] at h1
    obtain ⟨d, rfl, hd⟩ := h1
    exact ⟨d, s2, rfl, hd, by simpa using h2⟩
  · rintro ⟨d, t, rfl, hd, h⟩
    exact ⟨[d], t, rfl, by rw [matches_anyNotNL_iff]; exact ⟨d, rfl, hd⟩, by simpa using h⟩

/-- The expression that `path/to/bob.json` is compiled to. -/
theorem asRegexp_bob :
    asRegexp (trimLeadingSlash (NormalizeGitignore "path/to/bob.json".toList))
      = Outcome.ret (Regex.cat Regex.bol (litChain "path/to/bob".toList
          (Regex.cat Regex.anyNotNL (litChain "json".toList
            (Regex.cat Regex.eol Regex.empty))))) := by
  decide

/-- What the pattern `path/to/bob.json` matches: the paths with any rune
other than the newline at the place of the dot. -/
theorem dot_matches_iff (f : List Char) :
    GitignoreMatch f "path/to/bob.json".toList = Outcome.ret true ↔
      ∃ x : Char, x ≠ '\n' ∧ f = "path/to/bob".toList ++ x :: "json".toList := by
  have hG : GitignoreMatch f "path/to/bob.json".toList
      = (asRegexp (trimLeadingSlash (NormalizeGitignore "path/to/bob.json".toList))).map
          (fun r => MatchString r f) := rfl
  rw [hG, asRegexp_bob]
  simp only [Outcome.map, Outcome.ret.injEq, MatchString_iff, matches_cat_bol_iff,
    matches_litChain_iff, matches_cat_anyNotNL_iff, matches_cat_eol_empty_iff]
  constructor
  · rintro ⟨s0, s1, s2, rfl, h0, t, rfl, x, u, rfl, hx, v, rfl, rfl, hs2⟩
    have h0' : s0 = [] := by simpa using h0
    have h2' : s2 = [] := by simpa using hs2
    subst h0' h2'
    exact ⟨x, hx, by simp⟩
  · rintro ⟨x, hx, rfl⟩
    exact ⟨[], _, [], by simp, by simp, x :: "json".toList, rfl, x, "json".toList, rfl, hx,
      [], by simp, rfl, by simp⟩

/-- The expression that `a/b/c\?d.txt` is compiled to: the backslash and the
question mark are literals, the dot is not. -/
theorem asRegexp_escaped_question :
    asRegexp (trimLeadingSlash (NormalizeGitignore "a/b/c\\?d.txt".toList))
      = Outcome.ret (Regex.cat Regex.bol (litChain "a/b/c\\?d".toList
          (Regex.cat Regex.anyNotNL (litChain "txt".toList
            (Regex.cat Regex.eol Regex.empty))))) := by
  decide

/-- What the pattern `a/b/c\?d.txt` matches: the paths that carry the
backslash and the question mark, with any rune other than the newline at the
place of the dot. -/
theorem escaped_question_matches_iff (f : List Char) :
    GitignoreMatch f "a/b/c\\?d.txt".toList = Outcome.ret true ↔
      ∃ x : Char, x ≠ '\n' ∧ f = "a/b/c\\?d".toList ++ x :: "txt".toList := by
  have hG : GitignoreMatch f "a/b/c\\?d.txt".toList
      = (asRegexp (trimLeadingSlash (NormalizeGitignore "a/b/c\\?d.txt".toList))).map
          (fun r => MatchString r f) := rfl
  rw [hG, asRegexp_escaped_question]
  simp only [Outcome.map, Outcome.ret.injEq, MatchString_iff, matches_cat_bol_iff,
    matches_litChain_iff, matches_cat_anyNotNL_iff, matches_cat_eol_empty_iff]
  constructor
  · rintro ⟨s0, s1, s2, rfl, h0, t, rfl, x, u, rfl, hx, v, rfl, rfl, hs2⟩
    have h0' : s0 = [] := by simpa using h0
    have h2' : s2 = [] := by simpa using hs2
    subst h0' h2'
    exact ⟨x, hx, by simp⟩
  · rintro ⟨x, hx, rfl⟩
    exact ⟨[], _, [], by simp, by simp, x :: "txt".toList, rfl, x, "txt".toList, rfl, hx,
      [], by simp, rfl, by simp⟩

/-- The expression that the normal form `**/**` is compiled to. -/
theorem asRegexp_two_doubleStars :
    asRegexp (trimLeadingSlash "**/**".toList)
      = Outcome.ret (Regex.cat Regex.bol (Regex.cat (Regex.star Regex.anyNotNL)
          (Regex.cat (Regex.star Regex.anyNotNL) (Regex.cat Regex.eol Regex.empty)))) := by
  decide

/-- C1, evaluated: `a/**/e` is translated to the expression `^a/.*e$`, so the
path `a/xe`, where the two asterisks stand for a part of a segment, matches,
as the paths `a/e` and `a/b/c/e` do. -/
theorem doubleStar_matches_partial_segment :
    asRegexpSource (trimLeadingSlash (NormalizeGitignore "a/**/e".toList)) = "^a/.*e$".toList
      ∧ GitignoreMatch "a/xe".toList "a/**/e".toList = Outcome.ret true
      ∧ GitignoreMatch "a/e".toList "a/**/e".toList = Outcome.ret true
      ∧ GitignoreMatch "a/b/c/e".toList "a/**/e".toList = Outcome.ret true := by
  decide

/-- C2, evaluated: the dot of `path/to/bob.json` reaches the expression
unescaped, so the path `path/to/bobXjson` matches the pattern. -/
theorem dot_matches_other_character :
    asRegexpSource (trimLeadingSlash (NormalizeGitignore "path/to/bob.json".toList))
        = "^path/to/bob.json$".toList
      ∧ GitignoreMatch "path/to/bobXjson".toList "path/to/bob.json".toList = Outcome.ret true := by
  decide

/-- C3, refuted as stated: the pattern `a/b/c\?d.txt` does not match the
path `a/b/c?d.txt`, which has no backslash. -/
theorem escaped_question_rejects_bare_path :
    GitignoreMatch "a/b/c?d.txt".toList "a/b/c\\?d.txt".toList = Outcome.ret false := by
  decide

/-- C3, amended: the pattern `a/b/c\?d.txt` matches the path `a/b/c\?d.txt`
that carries the backslash too, and matches neither `a/b/c?d.txt` nor
`a/b/cXd.txt`. -/
theorem escaped_question_matches_backslash_path :
    GitignoreMatch "a/b/c\\?d.txt".toList "a/b/c\\?d.txt".toList = Outcome.ret true
      ∧ GitignoreMatch "a/b/c?d.txt".toList "a/b/c\\?d.txt".toList = Outcome.ret false
      ∧ GitignoreMatch "a/b/cXd.txt".toList "a/b/c\\?d.txt".toList = Outcome.ret false := by
  decide

theorem trimRightSpace_of_all_space (p : List Char) (h : ∀ c ∈ p, isSpace c = true) :
    trimRightSpace p = [] := by
  induction p with
  | nil => rfl
  | cons c cs ih =>
    have hcs := ih (fun d hd => h d (List.mem_cons_of_mem _ hd))
    have hc := h c (by simp)
    simp [trimRightSpace, hcs, hc]

/-- Every non-empty pattern made of spaces has the normal form `**/**`. -/
theorem whitespace_normal_form (p : List Char) (hne : p ≠ [])
    (h : ∀ c ∈ p, isSpace c = true) : NormalizeGitignore p = "**/**".toList := by
  have hhead : ∀ x, isSpace x = false → p.head? ≠ some x := by
    intro x hx hp
    cases p with
    | nil => exact hne rfl
    | cons c cs =>
      simp only [List.head?_cons, Option.some.injEq] at hp
      have := h c (by simp)
      rw [hp, hx] at this
      cases this
  rw [NormalizeGitignore_plain p hne (hhead '#' (by decide)) (hhead '!' (by decide)),
    trimRightSpace_of_all_space p h]
  decide

/-- What a non-empty pattern made of spaces matches: every path without a
newline. -/
theorem whitespace_matches_iff (p : List Char) (hne : p ≠ [])
    (h : ∀ c ∈ p, isSpace c = true) (f : List Char) :
    GitignoreMatch f p = Outcome.ret true ↔ ∀ c ∈ f, c ≠ '\n' := by
  have hN := whitespace_normal_form p hne h
  cases p with
  | nil => exact absurd rfl hne
  | cons c rest =>
    have hc : c ≠ '!' := by
      intro e
      have := h c (by simp)
      rw [e] at this
      exact absurd this (by decide)
    have hne2 : "**/**".toList ≠ [] := by decide
    simp only [GitignoreMatch, if_neg hc, hN, if_neg hne2, asRegexp_two_doubleStars,
      Outcome.map, Outcome.ret.injEq, MatchString_iff, matches_cat_bol_iff]
    constructor
    · rintro ⟨s0, s1, s2, rfl, h0, hm⟩
      rw [matches_cat_iff] at hm
      obtain ⟨t1, t2, rfl, ht1, hm⟩ := hm
      rw [matches_cat_iff] at hm
      obtain ⟨u1, u2, rfl, hu1, hm⟩ := hm
      rw [matches_cat_eol_empty_iff] at hm
      obtain ⟨rfl, hs2⟩ := hm
      rw [matches_star_anyNotNL_iff] at ht1 hu1
      have h0' : s0 = [] := by simpa using h0
      have h2' : s2 = [] := by simpa using hs2
      subst h0' h2'
      intro x hx
      simp only [List.nil_append, List.append_nil, List.mem_append] at hx
      rcases hx with hx | hx
      · exact ht1 x hx
      · exact hu1 x hx
    · intro hf
      refine ⟨[], f, [], by simp, by simp, ?_⟩
      rw [matches_cat_iff]
      refine ⟨f, [], by simp, (matches_star_anyNotNL_iff f _ _).2 hf, ?_⟩
      rw [matches_cat_iff]
      exact ⟨[], [], rfl, Matches.starNil, by simp [matches_cat_eol_empty_iff]⟩

/-- A bound on a length by a power of two carries over to a larger power. -/
theorem length_lt_two_pow (s : List Char) (a b : Nat) (hab : a ≤ b) (h : s.length < 2 ^ a) :
    s.length < 2 ^ b :=
  Nat.lt_of_lt_of_le h (Nat.pow_le_pow_right (by decide) hab)

/-- C4, refuted as stated: the normal form of `any.txt` is `**/any.txt`, and
a second normalisation makes `/**/any.txt` of it, neither the same string
nor the empty one. -/
theorem normalize_twice_differs :
    NormalizeGitignore "any.txt".toList = "**/any.txt".toList
      ∧ NormalizeGitignore (NormalizeGitignore "any.txt".toList) = "/**/any.txt".toList
      ∧ NormalizeGitignore (NormalizeGitignore "any.txt".toList)
          ≠ NormalizeGitignore "any.txt".toList
      ∧ NormalizeGitignore (NormalizeGitignore "any.txt".toList) ≠ [] := by
  decide

/-- C4, amended: for every pattern shorter than `2 ^ 1000` runes, normalising
the normal form either changes nothing or puts one separator in front of the
leading `**/` that follows the negation marks of the normal form. -/
theorem normalize_twice (p : List Char) (h : p.length < 2 ^ 1000) :
    NormalizeGitignore (NormalizeGitignore p) = NormalizeGitignore p
      ∨ ∃ bangs r, (∀ c ∈ bangs, c = '!')
          ∧ NormalizeGitignore p = bangs ++ '*' :: '*' :: '/' :: r
          ∧ NormalizeGitignore (NormalizeGitignore p)
              = bangs ++ '/' :: '*' :: '*' :: '/' :: r :=
  (normalize_twice_aux p.length p (le_refl _) h).2

/-- C4, amended, at the pattern `any.txt`. -/
theorem normalize_twice_witness :
    "any.txt".toList.length < 2 ^ 1000
      ∧ (NormalizeGitignore (NormalizeGitignore "any.txt".toList)
            = NormalizeGitignore "any.txt".toList
          ∨ ∃ bangs r, (∀ c ∈ bangs, c = '!')
              ∧ NormalizeGitignore "any.txt".toList = bangs ++ '*' :: '*' :: '/' :: r
              ∧ NormalizeGitignore (NormalizeGitignore "any.txt".toList)
                  = bangs ++ '/' :: '*' :: '*' :: '/' :: r) :=
  ⟨length_lt_two_pow _ 3 1000 (by decide) (by decide),
    normalize_twice "any.txt".toList (length_lt_two_pow _ 3 1000 (by decide) (by decide))⟩

/-- C5, evaluated: the pattern made of one space is normalised to `**/**`,
not to the empty string, and matches the path `anything.txt`. -/
theorem whitespace_pattern_matches :
    NormalizeGitignore " ".toList = "**/**".toList
      ∧ GitignoreMatch "anything.txt".toList " ".toList = Outcome.ret true := by
  decide

/-- C6, evaluated: for the pattern `a(b` the expression handed to the
library is `^.*a(b$`, which does not parse, and `GitignoreMatch` panics; so
it does for the patterns `a[`, `[]` and `a\q`. -/
theorem translation_panics :
    asRegexpSource (trimLeadingSlash (NormalizeGitignore "a(b".toList)) = "^.*a(b$".toList
      ∧ GitignoreMatch "x".toList "a(b".toList = Outcome.panicked
      ∧ GitignoreMatch "x".toList "a[".toList = Outcome.panicked
      ∧ GitignoreMatch "x".toList "[]".toList = Outcome.panicked
      ∧ GitignoreMatch "x".toList "a\\q".toList = Outcome.panicked := by
  decide

/-- C10: a pattern with a leading negation mark gives the negated result of
the pattern without the mark, for every path and every pattern (a panic of
the one is a panic of the other). -/
theorem negation_inverts (f p : List Char) :
    GitignoreMatch f ('!' :: p) = (GitignoreMatch f p).map (fun b => !b) := by
  simp [GitignoreMatch]

end Gitignore

namespace Composite

open Gitignore

/-- The decision of the loops carries no error. -/
theorem map_pair_none_ne {o : Outcome Bool} {b : Bool} {e : Exception} :
    o.map (fun m => (m, (none : Option Exception))) ≠ Outcome.ret (b, some e) := by
  cases o <;> simp [Outcome.map]

/-- The inner loop, when every call of the matcher it makes returns:
it returns, and with `true` exactly when some pattern matches the file name
or, for a renamed file, the previous file name. -/
theorem requiredForFile_returns (gm : List Char → List Char → Outcome Bool)
    (file : Option CommitFile) : ∀ paths : List (List Char),
    (∀ pattern ∈ paths, (∃ b, gm (GetFilename file) pattern = Outcome.ret b)
      ∧ (GetStatus file = statusRenamed →
          ∃ b, gm (GetPreviousFilename file) pattern = Outcome.ret b)) →
    (requiredForFile gm file paths = Outcome.ret true
        ∨ requiredForFile gm file paths = Outcome.ret false)
      ∧ (requiredForFile gm file paths = Outcome.ret true ↔
          ∃ pattern ∈ paths, gm (GetFilename file) pattern = Outcome.ret true
            ∨ (GetStatus file = statusRenamed
                ∧ gm (GetPreviousFilename file) pattern = Outcome.ret true)) := by
  intro paths
  induction paths with
  | nil => intro _; simp [requiredForFile]
  | cons pattern rest ih =>
    intro h
    obtain ⟨⟨b, hb⟩, hprev⟩ := h pattern (by simp)
    have ih2 := ih (fun q hq => h q (List.mem_cons_of_mem _ hq))
    simp only [requiredForFile, hb, Outcome.andThen, List.exists_mem_cons_iff]
    cases b with
    | true => simp
    | false =>
      by_cases hren : GetStatus file = statusRenamed
      · obtain ⟨b2, hb2⟩ := hprev hren
        simp only [hren, if_true, hb2]
        cases b2 with
        | true => simp
        | false => simpa [hren] using ih2
      · simpa [hren] using ih2

/-- The outer loop, when every call of the matcher it makes returns. -/
theorem requiredForFiles_returns (gm : List Char → List Char → Outcome Bool)
    (paths : List (List Char)) : ∀ files : List (Option CommitFile),
    (∀ file ∈ files, ∀ pattern ∈ paths, (∃ b, gm (GetFilename file) pattern = Outcome.ret b)
      ∧ (GetStatus file = statusRenamed →
          ∃ b, gm (GetPreviousFilename file) pattern = Outcome.ret b)) →
    (requiredForFiles gm paths files = Outcome.ret true
        ∨ requiredForFiles gm paths files = Outcome.ret false)
      ∧ (requiredForFiles gm paths files = Outcome.ret true ↔
          ∃ file ∈ files, ∃ pattern ∈ paths, gm (GetFilename file) pattern = Outcome.ret true
            ∨ (GetStatus file = statusRenamed
                ∧ gm (GetPreviousFilename file) pattern = Outcome.ret true)) := by
  intro files
  induction files with
  | nil => intro _; simp [requiredForFiles]
  | cons file rest ih =>
    intro h
    obtain ⟨hor, hiff⟩ := requiredForFile_returns gm file paths (h file (by simp))
    have ih2 := ih (fun f hf => h f (List.mem_cons_of_mem _ hf))
    simp only [requiredForFiles, List.exists_mem_cons_iff]
    rcases hor with ht | hf
    · simp only [ht, Outcome.andThen, if_true, true_or, true_and, true_iff]
      exact Or.inl (hiff.1 ht)
    · have hno : ¬ ∃ pattern ∈ paths, gm (GetFilename file) pattern = Outcome.ret true
          ∨ (GetStatus file = statusRenamed
              ∧ gm (GetPreviousFilename file) pattern = Outcome.ret true) := by
        intro hex
        have := hiff.2 hex
        rw [hf] at this
        cases this
      simp only [hf, Outcome.andThen, Bool.false_eq_true, if_false, hno, false_or]
      exact ih2

/-- The statement of C7 under the condition that every call of the matcher
returns: for fewer than 300 files and a non-empty list of paths the call
returns `(true, nil)` when some pattern matches the file name or, for a
renamed file, the previous file name, and `(false, nil)` otherwise. -/
theorem required_iff_some_match (gm : List Char → List Char → Outcome Bool)
    (c : Check) (cc : CommitsComparison)
    (hn : cc.files.length < 300) (hp : c.paths ≠ [])
    (hret : ∀ file ∈ cc.files, ∀ pattern ∈ c.paths,
      (∃ b, gm (GetFilename file) pattern = Outcome.ret b)
        ∧ (GetStatus file = statusRenamed →
            ∃ b, gm (GetPreviousFilename file) pattern = Outcome.ret b)) :
    (c.RequiredWith gm cc = Outcome.ret (true, none)
        ∨ c.RequiredWith gm cc = Outcome.ret (false, none))
      ∧ (c.RequiredWith gm cc = Outcome.ret (true, none) ↔
          ∃ file ∈ cc.files, ∃ pattern ∈ c.paths,
            gm (GetFilename file) pattern = Outcome.ret true
              ∨ (GetStatus file = statusRenamed
                  ∧ gm (GetPreviousFilename file) pattern = Outcome.ret true)) := by
  obtain ⟨hor, hiff⟩ := requiredForFiles_returns gm c.paths cc.files hret
  have h300 : ¬ commitsComparisonMaxFiles ≤ cc.files.length := by
    unfold commitsComparisonMaxFiles; omega
  have hlen : ¬ c.paths.length = 0 := fun h => hp (List.length_eq_zero.1 h)
  unfold Check.RequiredWith
  rw [if_neg h300, if_neg hlen, ← hiff]
  rcases hor with h | h <;> simp [h, Outcome.map]

/-- The matcher is asked about the file name of every file, and about the
previous file name of the renamed files only: two matchers that agree on
these calls give the same result. -/
theorem required_congr (gm gm2 : List Char → List Char → Outcome Bool)
    (c : Check) (cc : CommitsComparison)
    (h : ∀ file ∈ cc.files, ∀ pattern ∈ c.paths,
      gm (GetFilename file) pattern = gm2 (GetFilename file) pattern
        ∧ (GetStatus file = statusRenamed →
            gm (GetPreviousFilename file) pattern = gm2 (GetPreviousFilename file) pattern)) :
    c.RequiredWith gm cc = c.RequiredWith gm2 cc := by
  have hfile : ∀ (file : Option CommitFile) (paths : List (List Char)),
      (∀ pattern ∈ paths, gm (GetFilename file) pattern = gm2 (GetFilename file) pattern
        ∧ (GetStatus file = statusRenamed →
            gm (GetPreviousFilename file) pattern = gm2 (GetPreviousFilename file) pattern)) →
      requiredForFile gm file paths = requiredForFile gm2 file paths := by
    intro file paths
    induction paths with
    | nil => intro _; rfl
    | cons pattern rest ih =>
      intro hp
      obtain ⟨h1, h2⟩ := hp pattern (by simp)
      have ih2 := ih (fun q hq => hp q (List.mem_cons_of_mem _ hq))
      simp only [requiredForFile, h1, ih2]
      by_cases hren : GetStatus file = statusRenamed
      · rw [h2 hren]
      · simp only [hren, if_false]
  have hfiles : ∀ files : List (Option CommitFile),
      (∀ file ∈ files, ∀ pattern ∈ c.paths,
        gm (GetFilename file) pattern = gm2 (GetFilename file) pattern
          ∧ (GetStatus file = statusRenamed →
            gm (GetPreviousFilename file) pattern
              = gm2 (GetPreviousFilename file) pattern)) →
      requiredForFiles gm c.paths files = requiredForFiles gm2 c.paths files := by
    intro files
    induction files with
    | nil => intro _; rfl
    | cons file rest ih =>
      intro hf
      simp only [requiredForFiles, hfile file c.paths (hf file (by simp)),
        ih (fun f hm => hf f (List.mem_cons_of_mem _ hm))]
  unfold Check.RequiredWith
  rw [hfiles cc.files h]

/-- C7, evaluated: with the single pattern `a(b` and one file `x` the call
panics instead of returning `(false, nil)`. -/
theorem required_panics_on_invalid_pattern :
    Check.Required ⟨"shark".toList, ["a(b".toList]⟩
      ⟨[some ⟨none, some "x".toList, none⟩]⟩ = Outcome.panicked := by
  decide

/-- C8: `Required` returns an error exactly for a comparison of 300 or more
files, then with the decision `false` and whatever the matcher would do;
for 299 files or fewer no returned error is non-nil. -/
theorem required_error_iff_too_many_files (c : Check) (cc : CommitsComparison) :
    ((∃ b e, c.Required cc = Outcome.ret (b, some e)) ↔ 300 ≤ cc.files.length)
      ∧ (∀ b e, c.Required cc = Outcome.ret (b, some e) → b = false)
      ∧ (300 ≤ cc.files.length → ∀ gm,
          c.RequiredWith gm cc = Outcome.ret (false, some (tooManyFiles cc.files.length)))
      ∧ (cc.files.length ≤ 299 → ∀ b e, c.Required cc = Outcome.ret (b, e) → e = none) := by
  by_cases h : 300 ≤ cc.files.length
  · have hr : ∀ gm, c.RequiredWith gm cc
        = Outcome.ret (false, some (tooManyFiles cc.files.length)) := by
      intro gm
      simp [Check.RequiredWith, commitsComparisonMaxFiles, h]
    refine ⟨⟨fun _ => h, fun _ => ⟨false, _, hr _⟩⟩, ?_, fun _ => hr, fun h2 => by omega⟩
    intro b e hbe
    have := (hr GitignoreMatch).symm.trans hbe
    simp only [Outcome.ret.injEq, Prod.mk.injEq] at this
    exact this.1.symm
  · have hn : ∀ b e, c.Required cc ≠ Outcome.ret (b, some e) := by
      intro b e
      unfold Check.Required Check.RequiredWith
      simp only [commitsComparisonMaxFiles, h, if_false]
      split
      · simp
      · exact map_pair_none_ne
    refine ⟨⟨fun ⟨b, e, hbe⟩ => absurd hbe (hn b e), fun h2 => absurd h2 h⟩, ?_, ?_, ?_⟩
    · intro b e hbe
      exact absurd hbe (hn b e)
    · intro h2
      exact absurd h2 h
    · intro _ b e hbe
      cases e with
      | none => rfl
      | some e => exact absurd hbe (hn b e)

/-- C8 at the comparison of 300 nil records of the test. -/
theorem required_error_iff_too_many_files_witness :
    300 ≤ (List.replicate 300 (none : Option CommitFile)).length
      ∧ Check.RequiredWith GitignoreMatch ⟨"shark".toList, ["week/**".toList]⟩
          ⟨List.replicate 300 none⟩
        = Outcome.ret (false, some (tooManyFiles
            (List.replicate 300 (none : Option CommitFile)).length)) :=
  ⟨by simp only [List.length_replicate, le_refl],
    (required_error_iff_too_many_files ⟨"shark".toList, ["week/**".toList]⟩
      ⟨List.replicate 300 none⟩).2.2.1 (by simp only [List.length_replicate, le_refl])
      GitignoreMatch⟩

/-- C9, refuted as stated: a check without paths, on a comparison of 300
files, is not reported as required; the call returns `false` and an error. -/
theorem no_paths_too_many_files :
    Check.Required ⟨"all-dem".toList, []⟩ ⟨List.replicate 300 none⟩
        = Outcome.ret (false, some (tooManyFiles 300))
      ∧ Check.Required ⟨"all-dem".toList, []⟩ ⟨List.replicate 300 none⟩
        ≠ Outcome.ret (true, none) := by
  have h : Check.Required ⟨"all-dem".toList, []⟩ ⟨List.replicate 300 none⟩
      = Outcome.ret (false, some (tooManyFiles 300)) := by
    simp only [Check.Required, Check.RequiredWith, commitsComparisonMaxFiles,
      List.length_replicate, le_refl, if_true]
  refine ⟨h, ?_⟩
  rw [h]
  simp

/-- C9, amended: a check without paths is required for every comparison of
fewer than 300 files, whatever the matcher would do. -/
theorem no_paths_required (c : Check) (cc : CommitsComparison)
    (hp : c.paths = []) (hn : cc.files.length < 300) :
    c.Required cc = Outcome.ret (true, none)
      ∧ ∀ gm, c.RequiredWith gm cc = Outcome.ret (true, none) := by
  have hr : ∀ gm, c.RequiredWith gm cc = Outcome.ret (true, none) := by
    intro gm
    have h : ¬ 300 ≤ cc.files.length := by omega
    simp [Check.RequiredWith, commitsComparisonMaxFiles, h, hp]
  exact ⟨hr _, hr⟩

/-- C9, amended, at the check and the empty comparison of the test. -/
theorem no_paths_required_witness :
    Check.Required ⟨"all-dem".toList, []⟩ ⟨[]⟩ = Outcome.ret (true, none) :=
  (no_paths_required ⟨"all-dem".toList, []⟩ ⟨[]⟩ rfl (by decide)).1

end Composite

namespace Gitignore

/-! ### Translating and parsing runs of plain runes -/

theorem rewrite_plain (w : List Char) (rest : List Char) (h : ∀ c ∈ w, isPlain c = true) :
    rewrite (w ++ rest) 0 = w ++ rewrite rest 0 := by
  induction w with
  | nil => rfl
  | cons c w ih =>
    have hc := h c (by simp)
    have ih2 := ih (fun d hd => h d (List.mem_cons_of_mem _ hd))
    simp only [isPlain, Bool.not_eq_true', Bool.or_eq_false_iff, decide_eq_false_iff_not] at hc
    obtain ⟨⟨⟨⟨⟨⟨⟨⟨⟨⟨h1, h2⟩, h3⟩, h4⟩, _⟩, _⟩, _⟩, _⟩, _⟩, _⟩, _⟩ := hc
    show rewrite (c :: (w ++ rest)) 0 = c :: (w ++ rewrite rest 0)
    simp only [rewrite, if_neg h1, if_neg h2, if_neg h3, if_neg h4, ih2]

theorem parseLoop_plain (w : List Char) : ∀ (rest : List Char) (stack : List Frame)
    (alts items : List Regex) (rep : Bool), (∀ c ∈ w, isPlain c = true) →
    parseLoop (w ++ rest) 0 stack ⟨alts, items⟩ rep
      = parseLoop rest 0 stack ⟨alts, (w.map atom).reverse ++ items⟩ (rep && w.isEmpty) := by
  induction w with
  | nil => intro rest stack alts items rep _; simp
  | cons c w ih =>
    intro rest stack alts items rep h
    have hc := h c (by simp)
    have ih2 := ih rest stack alts (atom c :: items) false
      (fun d hd => h d (List.mem_cons_of_mem _ hd))
    simp only [isPlain, Bool.not_eq_true', Bool.or_eq_false_iff, decide_eq_false_iff_not] at hc
    obtain ⟨⟨⟨⟨⟨⟨⟨⟨⟨⟨h1, h2⟩, h3⟩, h4⟩, h5⟩, h6⟩, h7⟩, h8⟩, h9⟩, h10⟩, h11⟩ := hc
    have hstep : parseLoop (c :: (w ++ rest)) 0 stack ⟨alts, items⟩ rep
        = parseLoop (w ++ rest) 0 stack ⟨alts, atom c :: items⟩ false := by
      by_cases hd : c = '.'
      · simp [parseLoop, atom, hd]
      · simp [parseLoop, atom, h1, h2, h3, h4, h5, h6, h7, h8, h9, h10, h11, hd]
    rw [List.cons_append, hstep, ih2]
    simp

theorem rewrite_twoAsterisk_end : rewrite ['*', '*'] 0 = ['.', '*'] := by
  decide

theorem rewrite_asterisk (rest : List Char) (h : rest.head? ≠ some '*') :
    rewrite ('*' :: rest) 0 = '[' :: '^' :: '\\' :: '/' :: ']' :: '*' :: rewrite rest 0 := by
  simp [rewrite, h]

theorem rewrite_question (rest : List Char) :
    rewrite ('?' :: rest) 0 = '[' :: '^' :: '\\' :: '/' :: ']' :: rewrite rest 0 := by
  simp [rewrite]

theorem rewrite_escape (c : Char) (rest : List Char) :
    rewrite ('\\' :: c :: rest) 0 = '\\' :: '\\' :: '\\' :: c :: rewrite rest 0 := by
  simp [rewrite]

theorem rewrite_escape_end : rewrite ['\\'] 0 = ['\\', '\\', '\\'] := by
  decide

theorem parseLoop_caret (rest : List Char) (stack : List Frame) (alts items : List Regex)
    (rep : Bool) :
    parseLoop ('^' :: rest) 0 stack ⟨alts, items⟩ rep
      = parseLoop rest 0 stack ⟨alts, Regex.bol :: items⟩ false := by
  simp [parseLoop]

theorem parseLoop_star (rest : List Char) (stack : List Frame) (alts items : List Regex)
    (r : Regex) (h : rest.head? ≠ some '?') :
    parseLoop ('*' :: rest) 0 stack ⟨alts, r :: items⟩ false
      = parseLoop rest 0 stack ⟨alts, Regex.star r :: items⟩ true := by
  simp [parseLoop, applyRepeat, h]

theorem parseLoop_dot_star (rest : List Char) (stack : List Frame) (alts items : List Regex)
    (rep : Bool) (h : rest.head? ≠ some '?') :
    parseLoop ('.' :: '*' :: rest) 0 stack ⟨alts, items⟩ rep
      = parseLoop rest 0 stack ⟨alts, Regex.star Regex.anyNotNL :: items⟩ true := by
  have h1 : parseLoop ('.' :: '*' :: rest) 0 stack ⟨alts, items⟩ rep
      = parseLoop ('*' :: rest) 0 stack ⟨alts, Regex.anyNotNL :: items⟩ false := by
    simp [parseLoop]
  rw [h1, parseLoop_star _ _ _ _ _ h]

theorem parseClass_notSlash (rest : List Char) :
    parseClass ('^' :: '\\' :: '/' :: ']' :: rest) = Outcome.ret (notSlash, 4) := by
  cases rest with
  | nil => decide
  | cons r rs =>
    simp [parseClass, parseClassItems, readClassChar, escapedRune, isAlnum, Outcome.map, notSlash]

theorem parseLoop_skip (cs : List Char) : ∀ (k : Nat) (stack : List Frame) (frame : Frame)
    (rep : Bool), k ≤ cs.length →
    parseLoop cs k stack frame rep = parseLoop (cs.drop k) 0 stack frame rep := by
  induction cs with
  | nil =>
    intro k stack frame rep hk
    have : k = 0 := by simpa using hk
    subst this
    rfl
  | cons c cs ih =>
    intro k stack frame rep hk
    cases k with
    | zero => rfl
    | succ k =>
      rw [parseLoop, List.drop_succ_cons]
      exact ih k stack frame rep (by simpa using hk)

theorem parseLoop_bracket (cs : List Char) (stack : List Frame) (alts items : List Regex)
    (rep : Bool) (r : Regex) (n : Nat) (h : parseClass cs = Outcome.ret (r, n)) :
    parseLoop ('[' :: cs) 0 stack ⟨alts, items⟩ rep
      = parseLoop cs n stack ⟨alts, r :: items⟩ false := by
  simp [parseLoop, h]

theorem parseLoop_notSlash (rest : List Char) (stack : List Frame) (alts items : List Regex)
    (rep : Bool) :
    parseLoop ('[' :: '^' :: '\\' :: '/' :: ']' :: rest) 0 stack ⟨alts, items⟩ rep
      = parseLoop rest 0 stack ⟨alts, notSlash :: items⟩ false := by
  rw [parseLoop_bracket _ _ _ _ _ _ _ (parseClass_notSlash rest),
    parseLoop_skip _ 4 _ _ _ (by simp)]
  rfl

theorem parseLoop_notSlash_star (rest : List Char) (stack : List Frame)
    (alts items : List Regex) (rep : Bool) (h : rest.head? ≠ some '?') :
    parseLoop ('[' :: '^' :: '\\' :: '/' :: ']' :: '*' :: rest) 0 stack ⟨alts, items⟩ rep
      = parseLoop rest 0 stack ⟨alts, Regex.star notSlash :: items⟩ true := by
  rw [parseLoop_notSlash, parseLoop_star _ _ _ _ _ h]

theorem parseLoop_escaped_question (rest : List Char) (stack : List Frame)
    (alts items : List Regex) (rep : Bool) :
    parseLoop ('\\' :: '\\' :: '\\' :: '?' :: rest) 0 stack ⟨alts, items⟩ rep
      = parseLoop rest 0 stack ⟨alts, Regex.lit '?' :: Regex.lit '\\' :: items⟩ false := by
  simp [parseLoop, escapedAtom, escapedRune, isAlnum, Outcome.map]

theorem parseLoop_escaped_asterisk (rest : List Char) (stack : List Frame)
    (alts items : List Regex) (rep : Bool) :
    parseLoop ('\\' :: '\\' :: '\\' :: '*' :: rest) 0 stack ⟨alts, items⟩ rep
      = parseLoop rest 0 stack ⟨alts, Regex.lit '*' :: Regex.lit '\\' :: items⟩ false := by
  simp [parseLoop, escapedAtom, escapedRune, isAlnum, Outcome.map]

theorem parseLoop_dollar_end (alts items : List Regex) (rep : Bool) :
    parseLoop ['$'] 0 [] ⟨alts, items⟩ rep
      = Outcome.ret (closeFrame ⟨alts, Regex.eol :: items⟩) := by
  simp [parseLoop]

/-! ### The expression of a frame of atoms -/

theorem foldl_cat_reverse_append (l more : List Regex) (acc : Regex) :
    (l.reverse ++ more).foldl (fun acc r => Regex.cat r acc) acc
      = more.foldl (fun acc r => Regex.cat r acc)
          (l.foldr (fun r a => Regex.cat r a) acc) := by
  rw [List.foldl_append, List.foldl_reverse]

theorem foldr_map_atom (w : List Char) (acc : Regex) :
    (w.map atom).foldr (fun r a => Regex.cat r a) acc = atomChain w acc := by
  induction w with
  | nil => rfl
  | cons c w ih => simp only [List.map, List.foldr, ih, atomChain]

/-! ### The meaning of the expressions that the translation emits -/

theorem char_eq_of_toNat_eq {c d : Char} (h : c.toNat = d.toNat) : c = d :=
  Char.eq_of_val_eq (UInt32.ext h)

theorem inRanges_slash (d : Char) : inRanges [('/', '/')] d = true ↔ d = '/' := by
  simp only [inRanges, List.any_cons, List.any_nil, Bool.or_false, Bool.and_eq_true,
    decide_eq_true_eq]
  constructor
  · rintro ⟨h1, h2⟩
    exact char_eq_of_toNat_eq (Nat.le_antisymm h2 h1)
  · rintro rfl
    exact ⟨le_refl _, le_refl _⟩

theorem matches_notSlash_iff (st en : Bool) (s : List Char) :
    Matches st en notSlash s ↔ ∃ d, s = [d] ∧ d ≠ '/' := by
  unfold notSlash
  rw [matches_cls_iff]
  constructor
  · rintro ⟨d, rfl, hd⟩
    refine ⟨d, rfl, fun e => hd ?_⟩
    exact (inRanges_slash d).2 e
  · rintro ⟨d, rfl, hd⟩
    refine ⟨d, rfl, fun e => hd ?_⟩
    exact (inRanges_slash d).1 e

theorem matches_atom_iff (st en : Bool) (c : Char) (s : List Char) :
    Matches st en (atom c) s ↔ ∃ d, s = [d] ∧ (if c = '.' then d ≠ '\n' else d = c) := by
  unfold atom
  by_cases hc : c = '.'
  · simp only [hc, if_true, matches_anyNotNL_iff]
  · simp only [hc, if_false, matches_lit_iff]
    constructor
    · rintro rfl; exact ⟨c, rfl, rfl⟩
    · rintro ⟨d, rfl, rfl⟩; rfl

theorem agrees_length (w : List Char) : ∀ u : List Char, agrees w u → u.length = w.length := by
  induction w with
  | nil =>
    intro u h
    cases u with
    | nil => rfl
    | cons d u => exact h.elim
  | cons c w ih =>
    intro u h
    cases u with
    | nil => exact h.elim
    | cons d u =>
      simp only [agrees] at h
      simp [ih u h.2]

theorem agrees_self (w : List Char) : agrees w w := by
  induction w with
  | nil => trivial
  | cons c w ih =>
    simp only [agrees]
    refine ⟨?_, ih⟩
    by_cases hc : c = '.'
    · simp only [hc, if_true]
      decide
    · simp only [hc, if_false]

theorem agrees_iff_eq (w : List Char) (h : '.' ∉ w) : ∀ u : List Char, agrees w u ↔ u = w := by
  induction w with
  | nil =>
    intro u
    cases u with
    | nil => simp [agrees]
    | cons d u => simp [agrees]
  | cons c w ih =>
    intro u
    have hc : c ≠ '.' := fun e => h (by simp [e])
    have hw : '.' ∉ w := fun e => h (List.mem_cons_of_mem _ e)
    cases u with
    | nil => simp [agrees]
    | cons d u => simp [agrees, hc, ih hw u]

/-- A run of atoms in front takes as many runes of the piece, which agree
with the plain runes. -/
theorem matches_atomChain_iff (w : List Char) (x : Regex) : ∀ (st en : Bool) (s : List Char),
    Matches st en (atomChain w x) s ↔
      ∃ u t, s = u ++ t ∧ agrees w u ∧ Matches (st && w.isEmpty) en x t := by
  induction w with
  | nil =>
    intro st en s
    simp only [atomChain, List.foldr, List.isEmpty_nil, Bool.and_true]
    constructor
    · intro h; exact ⟨[], s, rfl, trivial, h⟩
    · rintro ⟨u, t, rfl, hu, h⟩
      cases u with
      | nil => exact h
      | cons d u => exact hu.elim
  | cons c w ih =>
    intro st en s
    have hc : atomChain (c :: w) x = Regex.cat (atom c) (atomChain w x) := rfl
    rw [hc, matches_cat_iff]
    constructor
    · rintro ⟨s1, s2, rfl, h1, h2⟩
      rw [matches_atom_iff] at h1
      obtain ⟨d, rfl, hd⟩ := h1
      obtain ⟨u, t, rfl, hu, ht⟩ := (ih _ en s2).1 h2
      exact ⟨d :: u, t, rfl, ⟨hd, hu⟩, by simpa using ht⟩
    · rintro ⟨u, t, rfl, hu, ht⟩
      cases u with
      | nil => exact hu.elim
      | cons d u =>
        refine ⟨[d], u ++ t, rfl, (matches_atom_iff _ _ _ _).2 ⟨d, rfl, hu.1⟩, ?_⟩
        exact (ih _ en _).2 ⟨u, t, rfl, hu.2, by simpa using ht⟩

theorem matches_star_notSlash_iff (s : List Char) : ∀ st en : Bool,
    Matches st en (Regex.star notSlash) s ↔ ∀ c ∈ s, c ≠ '/' := by
  induction s with
  | nil =>
    intro st en
    exact ⟨fun _ c hc => absurd hc (List.not_mem_nil c), fun _ => Matches.starNil⟩
  | cons d ds ih =>
    intro st en
    rw [matches_star_iff]
    constructor
    · rintro (h | ⟨c, s1, s2, hs, h1, h2⟩)
      · cases h
      · rw [matches_notSlash_iff] at h1
        obtain ⟨x, hx, hxn⟩ := h1
        simp only [List.cons.injEq] at hx
        obtain ⟨rfl, rfl⟩ := hx
        simp only [List.cons_append, List.nil_append, List.cons.injEq] at hs
        obtain ⟨rfl, rfl⟩ := hs
        intro y hy
        rcases List.mem_cons.1 hy with hy | hy
        · rw [hy]; exact hxn
        · exact (ih false en).1 h2 y hy
    · intro h
      right
      refine ⟨d, [], ds, rfl, ?_, ?_⟩
      · rw [matches_notSlash_iff]
        exact ⟨d, rfl, h d (by simp)⟩
      · exact (ih false en).2 (fun y hy => h y (List.mem_cons_of_mem _ hy))

/-- The expression of a lone `*` in front takes a run without a separator. -/
theorem matches_cat_star_notSlash_iff (st en : Bool) (x : Regex) (s : List Char) :
    Matches st en (Regex.cat (Regex.star notSlash) x) s ↔
      ∃ m t, s = m ++ t ∧ (∀ c ∈ m, c ≠ '/') ∧ Matches (st && m.isEmpty) en x t := by
  rw [matches_cat_iff]
  constructor
  · rintro ⟨m, t, rfl, h1, h2⟩
    exact ⟨m, t, rfl, (matches_star_notSlash_iff m _ _).1 h1, h2⟩
  · rintro ⟨m, t, rfl, h1, h2⟩
    exact ⟨m, t, rfl, (matches_star_notSlash_iff m _ _).2 h1, h2⟩

/-- The expression `.*` in front takes a run without a newline. -/
theorem matches_cat_star_anyNotNL_iff (st en : Bool) (x : Regex) (s : List Char) :
    Matches st en (Regex.cat (Regex.star Regex.anyNotNL) x) s ↔
      ∃ m t, s = m ++ t ∧ (∀ c ∈ m, c ≠ '\n') ∧ Matches (st && m.isEmpty) en x t := by
  rw [matches_cat_iff]
  constructor
  · rintro ⟨m, t, rfl, h1, h2⟩
    exact ⟨m, t, rfl, (matches_star_anyNotNL_iff m _ _).1 h1, h2⟩
  · rintro ⟨m, t, rfl, h1, h2⟩
    exact ⟨m, t, rfl, (matches_star_anyNotNL_iff m _ _).2 h1, h2⟩

/-- The expression of `?` in front takes one rune other than the separator. -/
theorem matches_cat_notSlash_iff (st en : Bool) (x : Regex) (s : List Char) :
    Matches st en (Regex.cat notSlash x) s ↔
      ∃ d t, s = d :: t ∧ d ≠ '/' ∧ Matches false en x t := by
  rw [matches_cat_iff]
  constructor
  · rintro ⟨s1, s2, rfl, h1, h2⟩
    rw [matches_notSlash_iff] at h1
    obtain ⟨d, rfl, hd⟩ := h1
    exact ⟨d, s2, rfl, hd, by simpa using h2⟩
  · rintro ⟨d, t, rfl, hd, h⟩
    exact ⟨[d], t, rfl, (matches_notSlash_iff _ _ _).2 ⟨d, rfl, hd⟩, by simpa using h⟩

/-- An expression that starts with the start anchor matches a text when the
rest of the expression matches a piece at the start of the text. -/
theorem MatchString_bol_iff (x : Regex) (f : List Char) :
    MatchString (Regex.cat Regex.bol x) f = true ↔
      ∃ s1 s2, f = s1 ++ s2 ∧ Matches true s2.isEmpty x s1 := by
  rw [MatchString_iff]
  constructor
  · rintro ⟨s0, s1, s2, rfl, h⟩
    rw [matches_cat_bol_iff] at h
    have h0 : s0 = [] := by simpa using h.1
    subst h0
    exact ⟨s1, s2, rfl, h.2⟩
  · rintro ⟨s1, s2, rfl, h⟩
    exact ⟨[], s1, s2, rfl, (matches_cat_bol_iff _ _ _ _).2 ⟨rfl, h⟩⟩

/-! ### Normal forms of patterns without two adjacent asterisks -/

theorem adjacentAsterisks_append_right (u v : List Char) :
    adjacentAsterisks v ≤ adjacentAsterisks (u ++ v) := by
  induction u with
  | nil => exact le_refl _
  | cons c u ih =>
    rw [List.cons_append, adjacentAsterisks_cons]
    omega

theorem adjacentAsterisks_append_left (u v : List Char) :
    adjacentAsterisks u ≤ adjacentAsterisks (u ++ v) := by
  induction u with
  | nil => simp [adjacentAsterisks]
  | cons c u ih =>
    rw [List.cons_append, adjacentAsterisks_cons, adjacentAsterisks_cons]
    have hh : (c = '*' ∧ u.head? = some '*') → (c = '*' ∧ (u ++ v).head? = some '*') := by
      rintro ⟨h1, h2⟩
      refine ⟨h1, ?_⟩
      cases u with
      | nil => simp at h2
      | cons d u => simpa using h2
    by_cases h : c = '*' ∧ u.head? = some '*'
    · rw [if_pos h, if_pos (hh h)]
      omega
    · rw [if_neg h]
      omega

theorem containsTwoAsterisk_of_infix (u s v : List Char)
    (h : containsTwoAsterisk (u ++ (s ++ v)) = false) : containsTwoAsterisk s = false := by
  rw [containsTwoAsterisk_eq_false_iff] at h ⊢
  have h1 := adjacentAsterisks_append_right u (s ++ v)
  have h2 := adjacentAsterisks_append_left s v
  omega

theorem joinSlash_append (a b : List (List Char)) (ha : a ≠ []) (hb : b ≠ []) :
    joinSlash (a ++ b) = joinSlash a ++ '/' :: joinSlash b := by
  induction a with
  | nil => exact absurd rfl ha
  | cons x xs ih =>
    cases xs with
    | nil =>
      rw [List.singleton_append, joinSlash_cons _ _ hb]
      rfl
    | cons y ys =>
      have e1 : joinSlash (x :: (y :: ys ++ b)) = x ++ '/' :: joinSlash (y :: ys ++ b) :=
        joinSlash_cons _ _ (by simp)
      have e2 : joinSlash (x :: y :: ys) = x ++ '/' :: joinSlash (y :: ys) := rfl
      rw [List.cons_append, e1, ih (by simp), e2]
      simp

theorem transformTwoAsterisk_append_slash (a b : List Char) :
    transformTwoAsterisk (a ++ '/' :: b)
      = transformTwoAsterisk a ++ '/' :: transformTwoAsterisk b := by
  unfold transformTwoAsterisk
  rw [splitSlash_append_slash, List.map_append,
    joinSlash_append _ _ (by simpa using splitSlash_ne_nil a)
      (by simpa using splitSlash_ne_nil b)]

theorem infix_of_mem_segments (segs : List (List Char)) :
    ∀ seg ∈ segs, ∃ u v, joinSlash segs = u ++ (seg ++ v) := by
  induction segs with
  | nil => intro seg h; exact absurd h (List.not_mem_nil seg)
  | cons a as ih =>
    intro seg h
    cases as with
    | nil =>
      have : seg = a := by simpa using h
      subst this
      exact ⟨[], [], by simp [joinSlash]⟩
    | cons b bs =>
      rw [joinSlash_cons _ _ (by simp)]
      rcases List.mem_cons.1 h with h | h
      · subst h
        exact ⟨[], '/' :: joinSlash (b :: bs), by simp⟩
      · obtain ⟨u, v, huv⟩ := ih seg h
        exact ⟨a ++ '/' :: u, v, by rw [huv]; simp⟩

/-- A pattern without two adjacent asterisks is left alone. -/
theorem transformTwoAsterisk_of_clean (x : List Char) (h : containsTwoAsterisk x = false) :
    transformTwoAsterisk x = x := by
  unfold transformTwoAsterisk
  have hmap : (splitSlash x).map transformPart = splitSlash x := by
    conv_rhs => rw [← List.map_id (splitSlash x)]
    apply List.map_congr_left
    intro seg hs
    obtain ⟨u, v, huv⟩ := infix_of_mem_segments (splitSlash x) seg hs
    rw [joinSlash_splitSlash] at huv
    rw [huv] at h
    have hseg := containsTwoAsterisk_of_infix u seg v h
    simp [transformPart, hseg]
  rw [hmap, joinSlash_splitSlash]

theorem containsTwoAsterisk_of_not_mem (x : List Char) (h : '*' ∉ x) :
    containsTwoAsterisk x = false := by
  induction x using containsTwoAsterisk.induct with
  | case1 => rfl
  | case2 c => rfl
  | case3 c d cs ih =>
    have hc : c ≠ '*' := fun e => h (by simp [e])
    simp only [containsTwoAsterisk, Bool.or_eq_false_iff]
    exact ⟨by simp [hc], ih (fun e => h (List.mem_cons_of_mem _ e))⟩

theorem transformTwoAsterisk_stars : transformTwoAsterisk ['*', '*'] = ['*', '*'] := by
  decide

/-! ### The position of the first separator -/

theorem indexSlash_cons (c : Char) (cs : List Char) :
    indexSlash (c :: cs)
      = if c = '/' then 0 else if indexSlash cs = -1 then -1 else indexSlash cs + 1 := rfl

theorem indexSlash_ge (s : List Char) : -1 ≤ indexSlash s := by
  induction s with
  | nil => simp [indexSlash]
  | cons d ds ih =>
    rw [indexSlash_cons]
    split
    · omega
    · split <;> omega

theorem indexSlash_of_mem (u : List Char) (h : '/' ∈ u) : ∀ v : List Char,
    indexSlash (u ++ v) ≠ -1 ∧ indexSlash (u ++ v) < u.length := by
  induction u with
  | nil => exact absurd h (List.not_mem_nil _)
  | cons c cs ih =>
    intro v
    rw [List.cons_append, indexSlash_cons, List.length_cons]
    by_cases hc : c = '/'
    · rw [if_pos hc]
      push_cast
      exact ⟨by decide, by omega⟩
    · have hm : '/' ∈ cs := by
        rcases List.mem_cons.1 h with h | h
        · exact absurd h.symm hc
        · exact h
      obtain ⟨h1, h2⟩ := ih hm v
      have h0 := indexSlash_ge (cs ++ v)
      rw [if_neg hc, if_neg h1]
      push_cast
      constructor <;> omega

/-! ### The runes of the claims -/

theorem isPlain_eq_false (c : Char) (h : isPlain c = false) :
    c = '\\' ∨ c = '*' ∨ c = '?' ∨ c = '[' ∨ c = '(' ∨ c = ')' ∨ c = '|' ∨ c = '+'
      ∨ c = Char.ofNat 123 ∨ c = '^' ∨ c = '$' := by
  simp only [isPlain, Bool.not_eq_false', Bool.or_eq_true, decide_eq_true_eq] at h
  tauto

theorem isSpace_bound (c : Char) (h : isSpace c = true) : c.toNat ≤ 32 ∨ 133 ≤ c.toNat := by
  simp only [isSpace, Bool.or_eq_true, decide_eq_true_eq, Bool.and_eq_true] at h
  rcases h with ((((((((((((((h | h) | h) | h) | h) | h) | h) | h) | h) | h) | h) | h) | h) | h)
    | h)
  all_goals first
    | (subst h; decide)
    | (right; omega)

theorem isAlnum_bound (c : Char) (h : isAlnum c = true) : 48 ≤ c.toNat ∧ c.toNat ≤ 122 := by
  simp only [isAlnum, Bool.or_eq_true, Bool.and_eq_true, decide_eq_true_eq] at h
  have h0 : '0'.toNat = 48 := by decide
  have h9 : '9'.toNat = 57 := by decide
  have hA : 'A'.toNat = 65 := by decide
  have hZ : 'Z'.toNat = 90 := by decide
  have ha : 'a'.toNat = 97 := by decide
  have hz : 'z'.toNat = 122 := by decide
  omega

theorem isAlnum_ne (c d : Char) (h : isAlnum c = true) (hd : isAlnum d = false) : c ≠ d := by
  intro e
  rw [e, hd] at h
  cases h

theorem isSpace_of_isAlnum (c : Char) (h : isAlnum c = true) : isSpace c = false := by
  cases hs : isSpace c with
  | false => rfl
  | true =>
    have h1 := isSpace_bound c hs
    have h2 := isAlnum_bound c h
    omega

theorem isPlain_of_isAlnum (c : Char) (h : isAlnum c = true) : isPlain c = true := by
  cases hp : isPlain c with
  | true => rfl
  | false =>
    rcases isPlain_eq_false c hp with e | e | e | e | e | e | e | e | e | e | e <;>
      exact absurd e (isAlnum_ne c _ h (by decide))

theorem isNameRune_cases (c : Char) (h : isNameRune c = true) :
    isAlnum c = true ∨ c = '.' ∨ c = '-' ∨ c = '_' := by
  simp only [isNameRune, Bool.or_eq_true, decide_eq_true_eq] at h
  tauto

theorem isPlain_of_isNameRune (c : Char) (h : isNameRune c = true) : isPlain c = true := by
  rcases isNameRune_cases c h with h | h | h | h
  · exact isPlain_of_isAlnum c h
  · subst h; decide
  · subst h; decide
  · subst h; decide

theorem isSpace_of_isNameRune (c : Char) (h : isNameRune c = true) : isSpace c = false := by
  rcases isNameRune_cases c h with h | h | h | h
  · exact isSpace_of_isAlnum c h
  · subst h; decide
  · subst h; decide
  · subst h; decide

theorem isNameRune_ne (c d : Char) (h : isNameRune c = true) (hd : isNameRune d = false) :
    c ≠ d := by
  intro e
  rw [e, hd] at h
  cases h

/-! ### From the normal form to the result of `GitignoreMatch` -/

theorem NormalizeGitignore_of_clean (p : List Char) (h1 : p ≠ []) (h2 : p.head? ≠ some '#')
    (h3 : p.head? ≠ some '!') (h4 : NoTrailingSpace p) :
    NormalizeGitignore p = normalizeCore p := by
  rw [NormalizeGitignore_plain p h1 h2 h3, trimRightSpace_of_noTrailingSpace p h4]

theorem GitignoreMatch_of_regex (f p q : List Char) (r : Regex) (h1 : p.head? ≠ some '!')
    (h2 : NormalizeGitignore p = q) (h3 : q ≠ [])
    (h4 : asRegexp (trimLeadingSlash q) = Outcome.ret r) :
    GitignoreMatch f p = Outcome.ret (MatchString r f) := by
  cases p with
  | nil =>
    rw [← h2] at h3
    exact absurd rfl h3
  | cons c rest =>
    have hc : c ≠ '!' := by
      intro e
      exact h1 (by simp [e])
    simp only [GitignoreMatch, if_neg hc, h2, if_neg h3, h4, Outcome.map]

theorem noTrailingSpace_of_getLast (p : List Char) (c : Char) (h : p.getLast? = some c)
    (hc : isSpace c = false) : NoTrailingSpace p := by
  intro d hd
  rw [h] at hd
  cases hd
  exact hc

/-! ### Patterns of plain runes -/

/-- The expression of a pattern of plain runes: the start anchor, the atoms
of the runes and the end anchor. -/
theorem asRegexp_plain (q : List Char) (h : ∀ c ∈ q, isPlain c = true) :
    asRegexp q = Outcome.ret (Regex.cat Regex.bol (atomChain q (Regex.cat Regex.eol Regex.empty))) := by
  have hr : rewrite q 0 = q := by
    have := rewrite_plain q [] h
    simpa [rewrite] using this
  unfold asRegexp asRegexpSource MustCompile
  rw [hr, List.cons_append, parseLoop_caret, parseLoop_plain q _ _ _ _ _ h,
    parseLoop_dollar_end]
  simp only [closeFrame, concatItems, List.foldl_cons, List.foldl_nil,
    foldl_cat_reverse_append, foldr_map_atom]

/-- The expression of a pattern of plain runes matches the texts that agree
with the pattern, from the first rune to the last. -/
theorem MatchString_plain_iff (q f : List Char) :
    MatchString (Regex.cat Regex.bol (atomChain q (Regex.cat Regex.eol Regex.empty))) f = true
      ↔ agrees q f := by
  rw [MatchString_bol_iff]
  constructor
  · rintro ⟨s1, s2, rfl, h⟩
    rw [matches_atomChain_iff] at h
    obtain ⟨u, t, rfl, hu, ht⟩ := h
    rw [matches_cat_eol_empty_iff] at ht
    obtain ⟨rfl, hs2⟩ := ht
    have : s2 = [] := by simpa using hs2
    subst this
    simpa using hu
  · intro h
    refine ⟨f, [], by simp, ?_⟩
    rw [matches_atomChain_iff]
    exact ⟨f, [], by simp, h, by simp [matches_cat_eol_empty_iff]⟩

/-- C11: for every non-empty path `q` of name runes and separators that does
not end with a separator, the pattern `/q` matches the path `q` and does
not match the path `/q`. -/
theorem leading_slash_matches_relative_path (q : List Char) (hne : q ≠ [])
    (hall : ∀ c ∈ q, isNameRune c = true ∨ c = '/') (hlast : q.getLast? ≠ some '/') :
    GitignoreMatch q ('/' :: q) = Outcome.ret true
      ∧ GitignoreMatch ('/' :: q) ('/' :: q) = Outcome.ret false := by
  have hplain : ∀ c ∈ q, isPlain c = true := by
    intro c hc
    rcases hall c hc with h | h
    · exact isPlain_of_isNameRune c h
    · subst h; decide
  obtain ⟨c, hc⟩ : ∃ c, q.getLast? = some c := by
    cases hq : q.getLast? with
    | none => exact absurd (List.getLast?_eq_none_iff.1 hq) hne
    | some c => exact ⟨c, rfl⟩
  have hcm : c ∈ q := List.mem_of_getLast?_eq_some hc
  have hcname : isNameRune c = true := by
    rcases hall c hcm with h | h
    · exact h
    · rw [hc, h] at hlast
      exact absurd rfl hlast
  have hlastp : ('/' :: q).getLast? = some c := by
    rw [List.getLast?_cons, hc]
    rfl
  have hstar : '*' ∉ '/' :: q := by
    intro hm
    rcases List.mem_cons.1 hm with hm | hm
    · exact absurd hm (by decide)
    · rcases hall _ hm with h | h
      · exact isNameRune_ne _ _ h (by decide) rfl
      · exact absurd h (by decide)
  have hN : NormalizeGitignore ('/' :: q) = '/' :: q := by
    rw [NormalizeGitignore_of_clean _ (by simp) (by simp) (by simp)
      (noTrailingSpace_of_getLast _ c hlastp (isSpace_of_isNameRune c hcname))]
    have hE : earlySlash ('/' :: q) = '/' :: q := by
      unfold earlySlash
      rw [if_pos (by simp)]
    have hL : lateSlash ('/' :: q) = '/' :: q := by
      rcases lateSlash_cases ('/' :: q) with ⟨hl, _⟩ | ⟨_, he⟩
      · rw [hlastp] at hl
        cases hl
        exact absurd hcname (by decide)
      · exact he
    unfold normalizeCore
    rw [hE, hL, transformTwoAsterisk_of_clean _ (containsTwoAsterisk_of_not_mem _ hstar)]
  have hR : asRegexp (trimLeadingSlash ('/' :: q))
      = Outcome.ret (Regex.cat Regex.bol (atomChain q (Regex.cat Regex.eol Regex.empty))) := by
    have : trimLeadingSlash ('/' :: q) = q := by simp [trimLeadingSlash]
    rw [this]
    exact asRegexp_plain q hplain
  constructor
  · rw [GitignoreMatch_of_regex q _ _ _ (by simp) hN (by simp) hR,
      (MatchString_plain_iff q q).2 (agrees_self q)]
  · rw [GitignoreMatch_of_regex _ _ _ _ (by simp) hN (by simp) hR]
    have hno : ¬ agrees q ('/' :: q) := by
      intro h
      have := agrees_length q _ h
      simp at this
    have : MatchString (Regex.cat Regex.bol (atomChain q (Regex.cat Regex.eol Regex.empty)))
        ('/' :: q) = false := by
      rw [← Bool.not_eq_true, MatchString_plain_iff]
      exact hno
    rw [this]

/-- C11 at the path `a/b/c.json` of the test. -/
theorem leading_slash_matches_relative_path_witness :
    GitignoreMatch "a/b/c.json".toList ('/' :: "a/b/c.json".toList) = Outcome.ret true
      ∧ GitignoreMatch ('/' :: "a/b/c.json".toList) ('/' :: "a/b/c.json".toList)
          = Outcome.ret false :=
  leading_slash_matches_relative_path "a/b/c.json".toList (by decide) (by decide) (by decide)

/-! ### The expressions of the patterns of the claims -/

theorem wrap_nil (acc : Regex) : wrap [] acc = acc := rfl

theorem wrap_cons (r : Regex) (items : List Regex) (acc : Regex) :
    wrap (r :: items) acc = wrap items (Regex.cat r acc) := rfl

theorem wrap_atoms (w : List Char) (items : List Regex) (acc : Regex) :
    wrap ((w.map atom).reverse ++ items) acc = wrap items (atomChain w acc) := by
  unfold wrap
  rw [foldl_cat_reverse_append, foldr_map_atom]

theorem closeFrame_eol (items : List Regex) :
    closeFrame ⟨[], Regex.eol :: items⟩ = wrap items (Regex.cat Regex.eol Regex.empty) := rfl

theorem head_append_dollar_ne (w : List Char) (rest : List Char)
    (h : ∀ c ∈ w, isPlain c = true) (hr : rest.head? ≠ some '?') :
    (w ++ rest).head? ≠ some '?' := by
  cases w with
  | nil => simpa using hr
  | cons c w =>
    intro e
    simp only [List.cons_append, List.head?_cons, Option.some.injEq] at e
    have := h c (by simp)
    rw [e] at this
    exact absurd this (by decide)

/-- The end of the parse: plain runes and the end anchor. -/
theorem parseLoop_end_plain (w : List Char) (items : List Regex) (rep : Bool)
    (h : ∀ c ∈ w, isPlain c = true) :
    parseLoop (w ++ ['$']) 0 [] ⟨[], items⟩ rep
      = Outcome.ret (wrap items (atomChain w (Regex.cat Regex.eol Regex.empty))) := by
  rw [parseLoop_plain w _ _ _ _ _ h, parseLoop_dollar_end, closeFrame_eol, wrap_atoms]

/-- The end of the parse: plain runes, `.*` and the end anchor. -/
theorem parseLoop_end_plain_dotStar (w : List Char) (items : List Regex) (rep : Bool)
    (h : ∀ c ∈ w, isPlain c = true) :
    parseLoop (w ++ '.' :: '*' :: ['$']) 0 [] ⟨[], items⟩ rep
      = Outcome.ret (wrap items (atomChain w
          (Regex.cat (Regex.star Regex.anyNotNL) (Regex.cat Regex.eol Regex.empty)))) := by
  rw [parseLoop_plain w _ _ _ _ _ h, parseLoop_dot_star _ _ _ _ _ (by simp),
    parseLoop_dollar_end, closeFrame_eol, wrap_cons, wrap_atoms]

theorem getLast_of_ne_nil (q : List Char) (hne : q ≠ []) : ∃ c, q.getLast? = some c ∧ c ∈ q := by
  cases hq : q.getLast? with
  | none => exact absurd (List.getLast?_eq_none_iff.1 hq) hne
  | some c => exact ⟨c, rfl, List.mem_of_getLast?_eq_some hq⟩

theorem getLast_append_of_ne_nil (a b : List Char) (hne : b ≠ []) :
    (a ++ b).getLast? = b.getLast? := by
  rw [List.getLast?_append]
  cases hb : b.getLast? with
  | none => exact absurd (List.getLast?_eq_none_iff.1 hb) hne
  | some c => rfl

/-- What `.*` before the end anchor matches: the rest of the text, when it
has no newline. -/
theorem matches_dotStar_eol_iff (st en : Bool) (t : List Char) :
    Matches st en (Regex.cat (Regex.star Regex.anyNotNL) (Regex.cat Regex.eol Regex.empty)) t
      ↔ (∀ c ∈ t, c ≠ '\n') ∧ en = true := by
  rw [matches_cat_star_anyNotNL_iff]
  constructor
  · rintro ⟨m, v, rfl, hm, hv⟩
    rw [matches_cat_eol_empty_iff] at hv
    obtain ⟨rfl, he⟩ := hv
    exact ⟨by simpa using hm, he⟩
  · rintro ⟨ht, he⟩
    exact ⟨t, [], by simp, ht, by simp [matches_cat_eol_empty_iff, he]⟩

theorem isPlain_of_isAlnum_or_slash (w : List Char)
    (h : ∀ c ∈ w, isAlnum c = true ∨ c = '/') : ∀ c ∈ w, isPlain c = true := by
  intro c hc
  rcases h c hc with h | h
  · exact isPlain_of_isAlnum c h
  · subst h; decide

theorem not_dot_of_isAlnum_or_slash (w : List Char)
    (h : ∀ c ∈ w, isAlnum c = true ∨ c = '/') : '.' ∉ w := by
  intro hm
  rcases h _ hm with h | h
  · exact isAlnum_ne _ _ h (by decide) rfl
  · exact absurd h (by decide)

/-- The leading `**/` of a normal form is translated to `.*`, which does not
stop at a separator: the pattern `any.txt` matches the path `company.txt`
and the pattern `here/` matches the path `nowhere/x`. -/
theorem leading_stars_match_inside_a_name :
    GitignoreMatch "company.txt".toList "any.txt".toList = Outcome.ret true
      ∧ GitignoreMatch "nowhere/x".toList ("here".toList ++ ['/']) = Outcome.ret true := by
  decide

theorem containsTwoAsterisk_cons_of_ne (c : Char) (x : List Char) (hc : c ≠ '*') :
    containsTwoAsterisk (c :: x) = containsTwoAsterisk x := by
  cases x with
  | nil => rfl
  | cons d ds => simp [containsTwoAsterisk, hc]

theorem containsTwoAsterisk_cons_of_head_ne (c : Char) (x : List Char)
    (hx : x.head? ≠ some '*') : containsTwoAsterisk (c :: x) = containsTwoAsterisk x := by
  cases x with
  | nil => rfl
  | cons d ds =>
    have hd : d ≠ '*' := fun e => hx (by simp [e])
    simp [containsTwoAsterisk, hd]

/-- A pattern with a single asterisk has no two adjacent asterisks. -/
theorem containsTwoAsterisk_single (a b : List Char) (ha : '*' ∉ a) (hb : '*' ∉ b) :
    containsTwoAsterisk (a ++ '*' :: b) = false := by
  induction a with
  | nil =>
    rw [List.nil_append, containsTwoAsterisk_cons_of_head_ne _ _ (by
      cases b with
      | nil => simp
      | cons d ds =>
        intro e
        simp only [List.head?_cons, Option.some.injEq] at e
        exact hb (by simp [e]))]
    exact containsTwoAsterisk_of_not_mem b hb
  | cons c cs ih =>
    have hc : c ≠ '*' := fun e => ha (by simp [e])
    rw [List.cons_append, containsTwoAsterisk_cons_of_ne _ _ hc]
    exact ih (fun e => ha (List.mem_cons_of_mem _ e))

/-- The normal form of a pattern with a separator in its front part that
starts with no separator and does not end with one: the pattern behind one
separator. -/
theorem NormalizeGitignore_anchored (pre mid : List Char) (c : Char) (hslash : '/' ∈ pre)
    (hmid : mid ≠ []) (hh1 : pre.head? ≠ some '/') (hh2 : pre.head? ≠ some '#')
    (hh3 : pre.head? ≠ some '!') (hlast : (pre ++ mid).getLast? = some c) (hc1 : c ≠ '/')
    (hc2 : isSpace c = false) (hclean : containsTwoAsterisk (pre ++ mid) = false) :
    NormalizeGitignore (pre ++ mid) = '/' :: (pre ++ mid) := by
  have hpre : pre ≠ [] := fun e => by rw [e] at hslash; exact absurd hslash (List.not_mem_nil _)
  have hhead : (pre ++ mid).head? = pre.head? := by
    cases pre with
    | nil => exact absurd rfl hpre
    | cons x xs => rfl
  rw [NormalizeGitignore_of_clean _ (by simp [hpre]) (by rw [hhead]; exact hh2)
    (by rw [hhead]; exact hh3) (noTrailingSpace_of_getLast _ c hlast hc2)]
  have hE : earlySlash (pre ++ mid) = '/' :: (pre ++ mid) := by
    unfold earlySlash
    rw [if_neg (by rw [hhead]; exact hh1)]
    obtain ⟨h1, h2⟩ := indexSlash_of_mem pre hslash mid
    have hml : 0 < mid.length := List.length_pos.2 hmid
    have : indexSlash (pre ++ mid) ≠ -1
        ∧ indexSlash (pre ++ mid) < ((pre ++ mid).length : Int) - 1 := by
      refine ⟨h1, ?_⟩
      rw [List.length_append]
      push_cast
      omega
    exact if_pos this
  have hL : lateSlash ('/' :: (pre ++ mid)) = '/' :: (pre ++ mid) := by
    rcases lateSlash_cases ('/' :: (pre ++ mid)) with ⟨hl, _⟩ | ⟨_, he⟩
    · rw [List.getLast?_cons, hlast] at hl
      simp only [Option.getD_some, Option.some.injEq] at hl
      exact absurd hl hc1
    · exact he
  unfold normalizeCore
  rw [hE, hL, transformTwoAsterisk_of_clean _
    (by rw [containsTwoAsterisk_cons_of_ne _ _ (by decide)]; exact hclean)]

/-- The expression of plain runes, a lone `*` and plain runes. -/
theorem asRegexp_asterisk (pre suf : List Char) (hpre : ∀ c ∈ pre, isPlain c = true)
    (hsuf : ∀ c ∈ suf, isPlain c = true) :
    asRegexp (pre ++ '*' :: suf)
      = Outcome.ret (Regex.cat Regex.bol (atomChain pre (Regex.cat (Regex.star notSlash)
          (atomChain suf (Regex.cat Regex.eol Regex.empty))))) := by
  have hs : rewrite suf 0 = suf := by
    have := rewrite_plain suf [] hsuf
    simpa [rewrite] using this
  have hhead : suf.head? ≠ some '*' := by
    cases suf with
    | nil => simp
    | cons d ds =>
      intro e
      simp only [List.head?_cons, Option.some.injEq] at e
      have := hsuf d (by simp)
      rw [e] at this
      exact absurd this (by decide)
  have hr : rewrite (pre ++ '*' :: suf) 0
      = pre ++ '[' :: '^' :: '\\' :: '/' :: ']' :: '*' :: suf := by
    rw [rewrite_plain pre _ hpre, rewrite_asterisk suf hhead, hs]
  unfold asRegexp asRegexpSource MustCompile
  rw [hr, List.cons_append, parseLoop_caret, List.append_assoc,
    parseLoop_plain pre _ _ _ _ _ hpre]
  simp only [List.cons_append]
  rw [parseLoop_notSlash_star _ _ _ _ _ (head_append_dollar_ne suf _ hsuf (by simp)),
    parseLoop_end_plain suf _ _ hsuf, wrap_cons, wrap_atoms]
  rfl

/-- The expression of plain runes, a `?` and plain runes. -/
theorem asRegexp_question (pre suf : List Char) (hpre : ∀ c ∈ pre, isPlain c = true)
    (hsuf : ∀ c ∈ suf, isPlain c = true) :
    asRegexp (pre ++ '?' :: suf)
      = Outcome.ret (Regex.cat Regex.bol (atomChain pre (Regex.cat notSlash
          (atomChain suf (Regex.cat Regex.eol Regex.empty))))) := by
  have hs : rewrite suf 0 = suf := by
    have := rewrite_plain suf [] hsuf
    simpa [rewrite] using this
  have hr : rewrite (pre ++ '?' :: suf) 0
      = pre ++ '[' :: '^' :: '\\' :: '/' :: ']' :: suf := by
    rw [rewrite_plain pre _ hpre, rewrite_question suf, hs]
  unfold asRegexp asRegexpSource MustCompile
  rw [hr, List.cons_append, parseLoop_caret, List.append_assoc,
    parseLoop_plain pre _ _ _ _ _ hpre]
  simp only [List.cons_append]
  rw [parseLoop_notSlash, parseLoop_end_plain suf _ _ hsuf, wrap_cons, wrap_atoms]
  rfl

/-- The result of `GitignoreMatch` for an anchored pattern whose expression
is known. -/
theorem GitignoreMatch_anchored (pre mid f : List Char) (c : Char) (r : Regex)
    (hslash : '/' ∈ pre) (hmid : mid ≠ []) (hh1 : pre.head? ≠ some '/')
    (hh2 : pre.head? ≠ some '#') (hh3 : pre.head? ≠ some '!')
    (hlast : (pre ++ mid).getLast? = some c) (hc1 : c ≠ '/') (hc2 : isSpace c = false)
    (hclean : containsTwoAsterisk (pre ++ mid) = false)
    (hr : asRegexp (pre ++ mid) = Outcome.ret r) :
    GitignoreMatch f (pre ++ mid) = Outcome.ret (MatchString r f) := by
  have hpre : pre ≠ [] := fun e => by rw [e] at hslash; exact absurd hslash (List.not_mem_nil _)
  have hhead : (pre ++ mid).head? = pre.head? := by
    cases pre with
    | nil => exact absurd rfl hpre
    | cons x xs => rfl
  refine GitignoreMatch_of_regex f _ _ r (by rw [hhead]; exact hh3)
    (NormalizeGitignore_anchored pre mid c hslash hmid hh1 hh2 hh3 hlast hc1 hc2 hclean)
    (by simp) ?_
  have : trimLeadingSlash ('/' :: (pre ++ mid)) = pre ++ mid := by simp [trimLeadingSlash]
  rw [this]
  exact hr

theorem not_mem_of_isAlnum_or_slash (w : List Char)
    (h : ∀ c ∈ w, isAlnum c = true ∨ c = '/') (x : Char) (hx : isAlnum x = false)
    (hx2 : x ≠ '/') : x ∉ w := by
  intro hm
  rcases h _ hm with h | h
  · exact isAlnum_ne _ _ h hx rfl
  · exact hx2 h

theorem head_ne_of_isAlnum_or_slash (w : List Char)
    (h : ∀ c ∈ w, isAlnum c = true ∨ c = '/') (x : Char) (hx : isAlnum x = false)
    (hx2 : x ≠ '/') : w.head? ≠ some x := by
  intro e
  exact not_mem_of_isAlnum_or_slash w h x hx hx2 (List.mem_of_mem_head? e)

/-- The last rune of a glob rune followed by letters, digits and separators
that do not end with a separator. -/
theorem getLast_glob (x : Char) (suf : List Char)
    (hsuf : ∀ c ∈ suf, isAlnum c = true ∨ c = '/') (hlast : suf.getLast? ≠ some '/')
    (hx1 : x ≠ '/') (hx2 : isSpace x = false) :
    ∃ c, (x :: suf).getLast? = some c ∧ c ≠ '/' ∧ isSpace c = false := by
  by_cases hs : suf = []
  · subst hs
    exact ⟨x, rfl, hx1, hx2⟩
  · obtain ⟨c, hc, hcm⟩ := getLast_of_ne_nil suf hs
    refine ⟨c, ?_, ?_, ?_⟩
    · rw [← hc]
      exact getLast_append_of_ne_nil [x] suf hs
    · intro e
      rw [e] at hc
      exact hlast hc
    · rcases hsuf c hcm with h | h
      · exact isSpace_of_isAlnum c h
      · rw [h] at hc
        exact absurd hc hlast

/-- What the expression of a pattern with one `*` matches. -/
theorem MatchString_asterisk_iff (pre suf f : List Char) :
    MatchString (Regex.cat Regex.bol (atomChain pre (Regex.cat (Regex.star notSlash)
        (atomChain suf (Regex.cat Regex.eol Regex.empty))))) f = true
      ↔ ∃ u m v, f = u ++ (m ++ v) ∧ agrees pre u ∧ (∀ c ∈ m, c ≠ '/') ∧ agrees suf v := by
  rw [MatchString_bol_iff]
  constructor
  · rintro ⟨s1, s2, rfl, h⟩
    rw [matches_atomChain_iff] at h
    obtain ⟨u, t, rfl, hu, ht⟩ := h
    rw [matches_cat_star_notSlash_iff] at ht
    obtain ⟨m, t2, rfl, hm, ht2⟩ := ht
    rw [matches_atomChain_iff] at ht2
    obtain ⟨v, t3, rfl, hv, ht3⟩ := ht2
    rw [matches_cat_eol_empty_iff] at ht3
    obtain ⟨rfl, hs2⟩ := ht3
    have : s2 = [] := by simpa using hs2
    subst this
    exact ⟨u, m, v, by simp, hu, hm, hv⟩
  · rintro ⟨u, m, v, rfl, hu, hm, hv⟩
    refine ⟨u ++ (m ++ v), [], by simp, ?_⟩
    rw [matches_atomChain_iff]
    refine ⟨u, m ++ v, rfl, hu, ?_⟩
    rw [matches_cat_star_notSlash_iff]
    refine ⟨m, v, rfl, hm, ?_⟩
    rw [matches_atomChain_iff]
    exact ⟨v, [], by simp, hv, by simp [matches_cat_eol_empty_iff]⟩

/-- What the expression of a pattern with one `?` matches. -/
theorem MatchString_question_iff (pre suf f : List Char) :
    MatchString (Regex.cat Regex.bol (atomChain pre (Regex.cat notSlash
        (atomChain suf (Regex.cat Regex.eol Regex.empty))))) f = true
      ↔ ∃ u d v, f = u ++ d :: v ∧ agrees pre u ∧ d ≠ '/' ∧ agrees suf v := by
  rw [MatchString_bol_iff]
  constructor
  · rintro ⟨s1, s2, rfl, h⟩
    rw [matches_atomChain_iff] at h
    obtain ⟨u, t, rfl, hu, ht⟩ := h
    rw [matches_cat_notSlash_iff] at ht
    obtain ⟨d, t2, rfl, hd, ht2⟩ := ht
    rw [matches_atomChain_iff] at ht2
    obtain ⟨v, t3, rfl, hv, ht3⟩ := ht2
    rw [matches_cat_eol_empty_iff] at ht3
    obtain ⟨rfl, hs2⟩ := ht3
    have : s2 = [] := by simpa using hs2
    subst this
    exact ⟨u, d, v, by simp, hu, hd, hv⟩
  · rintro ⟨u, d, v, rfl, hu, hd, hv⟩
    refine ⟨u ++ d :: v, [], by simp, ?_⟩
    rw [matches_atomChain_iff]
    refine ⟨u, d :: v, rfl, hu, ?_⟩
    rw [matches_cat_notSlash_iff]
    refine ⟨d, v, rfl, hd, ?_⟩
    rw [matches_atomChain_iff]
    exact ⟨v, [], by simp, hv, by simp [matches_cat_eol_empty_iff]⟩

/-- The result of `GitignoreMatch` for an anchored pattern with one `*`. -/
theorem asterisk_match_eq (pre suf f : List Char)
    (hpre : ∀ c ∈ pre, isAlnum c = true ∨ c = '/')
    (hsuf : ∀ c ∈ suf, isAlnum c = true ∨ c = '/') (hslash : '/' ∈ pre)
    (hhead : pre.head? ≠ some '/') (hlast : suf.getLast? ≠ some '/') :
    GitignoreMatch f (pre ++ '*' :: suf)
      = Outcome.ret (MatchString (Regex.cat Regex.bol (atomChain pre
          (Regex.cat (Regex.star notSlash) (atomChain suf (Regex.cat Regex.eol Regex.empty)))))
          f) := by
  obtain ⟨c, hc, hc1, hc2⟩ := getLast_glob '*' suf hsuf hlast (by decide) (by decide)
  exact GitignoreMatch_anchored pre ('*' :: suf) f c _ hslash (by simp) hhead
    (head_ne_of_isAlnum_or_slash pre hpre '#' (by decide) (by decide))
    (head_ne_of_isAlnum_or_slash pre hpre '!' (by decide) (by decide))
    (by rw [getLast_append_of_ne_nil pre _ (by simp)]; exact hc) hc1 hc2
    (containsTwoAsterisk_single pre suf
      (not_mem_of_isAlnum_or_slash pre hpre '*' (by decide) (by decide))
      (not_mem_of_isAlnum_or_slash suf hsuf '*' (by decide) (by decide)))
    (asRegexp_asterisk pre suf (isPlain_of_isAlnum_or_slash pre hpre)
      (isPlain_of_isAlnum_or_slash suf hsuf))

/-- The result of `GitignoreMatch` for an anchored pattern with one `?`. -/
theorem question_match_eq (pre suf f : List Char)
    (hpre : ∀ c ∈ pre, isAlnum c = true ∨ c = '/')
    (hsuf : ∀ c ∈ suf, isAlnum c = true ∨ c = '/') (hslash : '/' ∈ pre)
    (hhead : pre.head? ≠ some '/') (hlast : suf.getLast? ≠ some '/') :
    GitignoreMatch f (pre ++ '?' :: suf)
      = Outcome.ret (MatchString (Regex.cat Regex.bol (atomChain pre
          (Regex.cat notSlash (atomChain suf (Regex.cat Regex.eol Regex.empty))))) f) := by
  obtain ⟨c, hc, hc1, hc2⟩ := getLast_glob '?' suf hsuf hlast (by decide) (by decide)
  have hstar : '*' ∉ pre ++ '?' :: suf := by
    intro hm
    rcases List.mem_append.1 hm with hm | hm
    · exact not_mem_of_isAlnum_or_slash pre hpre '*' (by decide) (by decide) hm
    · rcases List.mem_cons.1 hm with hm | hm
      · exact absurd hm (by decide)
      · exact not_mem_of_isAlnum_or_slash suf hsuf '*' (by decide) (by decide) hm
  exact GitignoreMatch_anchored pre ('?' :: suf) f c _ hslash (by simp) hhead
    (head_ne_of_isAlnum_or_slash pre hpre '#' (by decide) (by decide))
    (head_ne_of_isAlnum_or_slash pre hpre '!' (by decide) (by decide))
    (by rw [getLast_append_of_ne_nil pre _ (by simp)]; exact hc) hc1 hc2
    (containsTwoAsterisk_of_not_mem _ hstar)
    (asRegexp_question pre suf (isPlain_of_isAlnum_or_slash pre hpre)
      (isPlain_of_isAlnum_or_slash suf hsuf))

/-- C14, refuted as stated: the pattern `a/*/` ends with a separator, gets
`**` appended and matches `a/x/y`, which is not `a/`, a part without
separator and `/`; and the pattern `/a/b*c` loses its leading separator and
does not match the path `/a/bXc`. -/
theorem asterisk_pattern_with_closing_separator :
    GitignoreMatch "a/x/y".toList ("a/".toList ++ '*' :: "/".toList) = Outcome.ret true
      ∧ (¬ ∃ m : List Char, "a/x/y".toList = "a/".toList ++ (m ++ "/".toList)
          ∧ ∀ c ∈ m, c ≠ '/')
      ∧ GitignoreMatch "/a/bXc".toList ("/a/b".toList ++ '*' :: "c".toList)
          = Outcome.ret false := by
  refine ⟨by decide, ?_, by decide⟩
  rintro ⟨m, h, _⟩
  rw [← List.append_assoc] at h
  have hl := congrArg List.getLast? h
  rw [getLast_append_of_ne_nil _ _ (by decide)] at hl
  exact absurd hl (by decide)

/-- C14, amended: for `pre` and `suf` of ASCII letters, digits and separators,
where `pre` has a separator and does not start with one and `suf` does not
end with one, `GitignoreMatch` returns for every path, and returns true
exactly for the paths `pre ++ m ++ suf` with no separator in `m`. -/
theorem asterisk_stays_in_segment (pre suf : List Char)
    (hpre : ∀ c ∈ pre, isAlnum c = true ∨ c = '/')
    (hsuf : ∀ c ∈ suf, isAlnum c = true ∨ c = '/') (hslash : '/' ∈ pre)
    (hhead : pre.head? ≠ some '/') (hlast : suf.getLast? ≠ some '/') (f : List Char) :
    (∃ b, GitignoreMatch f (pre ++ '*' :: suf) = Outcome.ret b)
      ∧ (GitignoreMatch f (pre ++ '*' :: suf) = Outcome.ret true
          ↔ ∃ m : List Char, f = pre ++ (m ++ suf) ∧ ∀ c ∈ m, c ≠ '/') := by
  rw [asterisk_match_eq pre suf f hpre hsuf hslash hhead hlast]
  refine ⟨⟨_, rfl⟩, ?_⟩
  simp only [Outcome.ret.injEq]
  rw [MatchString_asterisk_iff]
  constructor
  · rintro ⟨u, m, v, rfl, hu, hm, hv⟩
    rw [agrees_iff_eq _ (not_dot_of_isAlnum_or_slash _ hpre)] at hu
    rw [agrees_iff_eq _ (not_dot_of_isAlnum_or_slash _ hsuf)] at hv
    subst hu
    subst hv
    exact ⟨m, rfl, hm⟩
  · rintro ⟨m, rfl, hm⟩
    exact ⟨pre, m, suf, rfl, agrees_self _, hm, agrees_self _⟩

/-- C14, amended, at the pattern `a/b/c*d` and the path `a/b/cXYZd`. -/
theorem asterisk_stays_in_segment_witness :
    (∃ b, GitignoreMatch "a/b/cXYZd".toList ("a/b/c".toList ++ '*' :: "d".toList)
        = Outcome.ret b)
      ∧ (GitignoreMatch "a/b/cXYZd".toList ("a/b/c".toList ++ '*' :: "d".toList)
            = Outcome.ret true
          ↔ ∃ m : List Char, "a/b/cXYZd".toList = "a/b/c".toList ++ (m ++ "d".toList)
              ∧ ∀ c ∈ m, c ≠ '/') :=
  asterisk_stays_in_segment "a/b/c".toList "d".toList (by decide) (by decide) (by decide)
    (by decide) (by decide) "a/b/cXYZd".toList

/-- C15, refuted as stated: the pattern `a/?/` ends with a separator, gets
`**` appended and matches `a/x/y`, which is not `a/`, one rune and `/`; and
the pattern `/a/b?c` loses its leading separator and does not match the
path `/a/bXc`. -/
theorem question_pattern_with_closing_separator :
    GitignoreMatch "a/x/y".toList ("a/".toList ++ '?' :: "/".toList) = Outcome.ret true
      ∧ (¬ ∃ c : Char, c ≠ '/' ∧ "a/x/y".toList = "a/".toList ++ c :: "/".toList)
      ∧ GitignoreMatch "/a/bXc".toList ("/a/b".toList ++ '?' :: "c".toList)
          = Outcome.ret false := by
  refine ⟨by decide, ?_, by decide⟩
  rintro ⟨c, _, h⟩
  have hl := congrArg List.length h
  simp at hl

/-- C15, amended: for `pre` and `suf` of ASCII letters, digits and separators,
where `pre` has a separator and does not start with one and `suf` does not
end with one, `GitignoreMatch` returns for every path, and returns true
exactly for the paths `pre ++ [c] ++ suf` with `c` not a separator. -/
theorem question_matches_one_rune (pre suf : List Char)
    (hpre : ∀ c ∈ pre, isAlnum c = true ∨ c = '/')
    (hsuf : ∀ c ∈ suf, isAlnum c = true ∨ c = '/') (hslash : '/' ∈ pre)
    (hhead : pre.head? ≠ some '/') (hlast : suf.getLast? ≠ some '/') (f : List Char) :
    (∃ b, GitignoreMatch f (pre ++ '?' :: suf) = Outcome.ret b)
      ∧ (GitignoreMatch f (pre ++ '?' :: suf) = Outcome.ret true
          ↔ ∃ c : Char, c ≠ '/' ∧ f = pre ++ c :: suf) := by
  rw [question_match_eq pre suf f hpre hsuf hslash hhead hlast]
  refine ⟨⟨_, rfl⟩, ?_⟩
  simp only [Outcome.ret.injEq]
  rw [MatchString_question_iff]
  constructor
  · rintro ⟨u, d, v, rfl, hu, hd, hv⟩
    rw [agrees_iff_eq _ (not_dot_of_isAlnum_or_slash _ hpre)] at hu
    rw [agrees_iff_eq _ (not_dot_of_isAlnum_or_slash _ hsuf)] at hv
    subst hu
    subst hv
    exact ⟨d, hd, rfl⟩
  · rintro ⟨d, hd, rfl⟩
    exact ⟨pre, d, suf, rfl, agrees_self _, hd, agrees_self _⟩

/-- C15, amended, at the pattern `a/b/c?d` and the path `a/b/cXd`. -/
theorem question_matches_one_rune_witness :
    (∃ b, GitignoreMatch "a/b/cXd".toList ("a/b/c".toList ++ '?' :: "d".toList)
        = Outcome.ret b)
      ∧ (GitignoreMatch "a/b/cXd".toList ("a/b/c".toList ++ '?' :: "d".toList)
            = Outcome.ret true
          ↔ ∃ c : Char, c ≠ '/' ∧ "a/b/cXd".toList = "a/b/c".toList ++ c :: "d".toList) :=
  question_matches_one_rune "a/b/c".toList "d".toList (by decide) (by decide) (by decide)
    (by decide) (by decide) "a/b/cXd".toList

/-! ### Bracket expressions -/

theorem matches_cat_cls_iff (st en negated : Bool) (ranges : List (Char × Char)) (x : Regex)
    (s : List Char) :
    Matches st en (Regex.cat (Regex.cls negated ranges) x) s ↔
      ∃ d t, s = d :: t ∧ inRanges ranges d ≠ negated ∧ Matches false en x t := by
  rw [matches_cat_iff]
  constructor
  · rintro ⟨s1, s2, rfl, h1, h2⟩
    rw [matches_cls_iff] at h1
    obtain ⟨d, rfl, hd⟩ := h1
    exact ⟨d, s2, rfl, hd, by simpa using h2⟩
  · rintro ⟨d, t, rfl, hd, h⟩
    exact ⟨[d], t, rfl, (matches_cls_iff _ _ _ _ _).2 ⟨d, rfl, hd⟩, by simpa using h⟩

/-- What the expression `^.*` + runes + a class + runes + `$` matches. -/
theorem MatchString_stars_class_iff (ranges : List (Char × Char)) (w1 w2 f : List Char) :
    MatchString (Regex.cat Regex.bol (Regex.cat (Regex.star Regex.anyNotNL)
        (atomChain w1 (Regex.cat (Regex.cls false ranges)
          (atomChain w2 (Regex.cat Regex.eol Regex.empty)))))) f = true
      ↔ ∃ m u d v, f = m ++ (u ++ d :: v) ∧ (∀ c ∈ m, c ≠ '\n') ∧ agrees w1 u
          ∧ inRanges ranges d = true ∧ agrees w2 v := by
  rw [MatchString_bol_iff]
  constructor
  · rintro ⟨s1, s2, rfl, h⟩
    rw [matches_cat_star_anyNotNL_iff] at h
    obtain ⟨m, t, rfl, hm, ht⟩ := h
    rw [matches_atomChain_iff] at ht
    obtain ⟨u, t2, rfl, hu, ht2⟩ := ht
    rw [matches_cat_cls_iff] at ht2
    obtain ⟨d, t3, rfl, hd, ht3⟩ := ht2
    rw [matches_atomChain_iff] at ht3
    obtain ⟨v, t4, rfl, hv, ht4⟩ := ht3
    rw [matches_cat_eol_empty_iff] at ht4
    obtain ⟨rfl, hs2⟩ := ht4
    have : s2 = [] := by simpa using hs2
    subst this
    exact ⟨m, u, d, v, by simp, hm, hu, by simpa using hd, hv⟩
  · rintro ⟨m, u, d, v, rfl, hm, hu, hd, hv⟩
    refine ⟨m ++ (u ++ d :: v), [], by simp, ?_⟩
    rw [matches_cat_star_anyNotNL_iff]
    refine ⟨m, u ++ d :: v, rfl, hm, ?_⟩
    rw [matches_atomChain_iff]
    refine ⟨u, d :: v, rfl, hu, ?_⟩
    rw [matches_cat_cls_iff]
    refine ⟨d, v, rfl, by simp [hd], ?_⟩
    rw [matches_atomChain_iff]
    exact ⟨v, [], by simp, hv, by simp [matches_cat_eol_empty_iff]⟩

theorem inRanges_letters (c : Char) :
    inRanges [('a', 'z'), ('A', 'Z')] c = isAsciiLetter c := by
  simp [inRanges, isAsciiLetter]

/-- C16: for every rune `c`, the pattern `a[a-zA-Z]b.txt` and the path
`a`, `c`, `b.txt` give the result "`c` is an ASCII letter". -/
theorem bracket_range_matches_letter (c : Char) :
    GitignoreMatch ('a' :: c :: "b.txt".toList) "a[a-zA-Z]b.txt".toList
      = Outcome.ret (isAsciiLetter c) := by
  rw [GitignoreMatch_of_regex ('a' :: c :: "b.txt".toList) "a[a-zA-Z]b.txt".toList
    "**/a[a-zA-Z]b.txt".toList
    (Regex.cat Regex.bol (Regex.cat (Regex.star Regex.anyNotNL)
      (atomChain "a".toList (Regex.cat (Regex.cls false [('a', 'z'), ('A', 'Z')])
        (atomChain "b.txt".toList (Regex.cat Regex.eol Regex.empty))))))
    (by decide) (by decide) (by decide) (by decide)]
  congr 1
  rw [Bool.eq_iff_iff, MatchString_stars_class_iff, ← inRanges_letters]
  constructor
  · rintro ⟨m, u, d, v, h, _, hu, hd, hv⟩
    have hlu := agrees_length _ _ hu
    have hlv := agrees_length _ _ hv
    have hl := congrArg List.length h
    have h1 : "a".toList.length = 1 := rfl
    have h2 : "b.txt".toList.length = 5 := rfl
    rw [h1] at hlu
    simp only [List.length_append, List.length_cons, hlu, hlv, h2] at hl
    have hm : m = [] := by
      apply List.eq_nil_of_length_eq_zero
      omega
    subst hm
    match u, hlu with
    | [x], _ =>
      simp only [List.nil_append, List.cons_append, List.cons.injEq] at h
      rw [h.2.1]
      exact hd
  · intro hc
    exact ⟨[], "a".toList, c, "b.txt".toList, rfl, by simp, agrees_self _, hc, agrees_self _⟩

/-! ### Escaped wildcards -/

theorem atomChain_append (a b : List Char) (x : Regex) :
    atomChain (a ++ b) x = atomChain a (atomChain b x) := by
  unfold atomChain
  rw [List.foldr_append]

theorem atomChain_escaped (x : Char) (hx : x = '?' ∨ x = '*') (suf : List Char) (t : Regex) :
    atomChain ('\\' :: x :: suf) t
      = Regex.cat (Regex.lit '\\') (Regex.cat (Regex.lit x) (atomChain suf t)) := by
  rcases hx with rfl | rfl <;> simp [atomChain, atom]

theorem parseLoop_escaped_glob (x : Char) (hx : x = '?' ∨ x = '*') (rest : List Char)
    (stack : List Frame) (alts items : List Regex) (rep : Bool) :
    parseLoop ('\\' :: '\\' :: '\\' :: x :: rest) 0 stack ⟨alts, items⟩ rep
      = parseLoop rest 0 stack ⟨alts, Regex.lit x :: Regex.lit '\\' :: items⟩ false := by
  rcases hx with rfl | rfl
  · exact parseLoop_escaped_question rest stack alts items rep
  · exact parseLoop_escaped_asterisk rest stack alts items rep

/-- The expression of plain runes with one escaped wildcard: the chain of
the runes of the pattern itself, backslash included. -/
theorem asRegexp_escaped (pre suf : List Char) (x : Char) (hx : x = '?' ∨ x = '*')
    (hpre : ∀ c ∈ pre, isPlain c = true) (hsuf : ∀ c ∈ suf, isPlain c = true) :
    asRegexp (pre ++ '\\' :: x :: suf)
      = Outcome.ret (Regex.cat Regex.bol (atomChain (pre ++ '\\' :: x :: suf)
          (Regex.cat Regex.eol Regex.empty))) := by
  have hs : rewrite suf 0 = suf := by
    have := rewrite_plain suf [] hsuf
    simpa [rewrite] using this
  have hr : rewrite (pre ++ '\\' :: x :: suf) 0
      = pre ++ '\\' :: '\\' :: '\\' :: x :: suf := by
    rw [rewrite_plain pre _ hpre, rewrite_escape, hs]
  unfold asRegexp asRegexpSource MustCompile
  rw [hr, List.cons_append, parseLoop_caret, List.append_assoc,
    parseLoop_plain pre _ _ _ _ _ hpre]
  simp only [List.cons_append]
  rw [parseLoop_escaped_glob x hx, parseLoop_end_plain suf _ _ hsuf, wrap_cons, wrap_cons,
    wrap_atoms, atomChain_append, atomChain_escaped x hx]
  rfl

/-- The expression of plain runes with one escaped wildcard and a closing
`**`. -/
theorem asRegexp_escaped_stars (pre suf : List Char) (x : Char) (hx : x = '?' ∨ x = '*')
    (hpre : ∀ c ∈ pre, isPlain c = true) (hsuf : ∀ c ∈ suf, isPlain c = true) :
    asRegexp ((pre ++ '\\' :: x :: suf) ++ ['*', '*'])
      = Outcome.ret (Regex.cat Regex.bol (atomChain (pre ++ '\\' :: x :: suf)
          (Regex.cat (Regex.star Regex.anyNotNL) (Regex.cat Regex.eol Regex.empty)))) := by
  have hr : rewrite ((pre ++ '\\' :: x :: suf) ++ ['*', '*']) 0
      = pre ++ '\\' :: '\\' :: '\\' :: x :: (suf ++ ['.', '*']) := by
    rw [List.append_assoc, List.cons_append, List.cons_append, rewrite_plain pre _ hpre,
      rewrite_escape, rewrite_plain suf _ hsuf, rewrite_twoAsterisk_end]
  unfold asRegexp asRegexpSource MustCompile
  rw [hr, List.cons_append, parseLoop_caret, List.append_assoc,
    parseLoop_plain pre _ _ _ _ _ hpre]
  simp only [List.cons_append, List.append_assoc, List.nil_append]
  rw [parseLoop_escaped_glob x hx, parseLoop_end_plain_dotStar suf _ _ hsuf, wrap_cons,
    wrap_cons, wrap_atoms, atomChain_append, atomChain_escaped x hx]
  rfl

/-- What the expression `^` + runes + `.*$` matches. -/
theorem MatchString_plain_stars_iff (q f : List Char) :
    MatchString (Regex.cat Regex.bol (atomChain q
        (Regex.cat (Regex.star Regex.anyNotNL) (Regex.cat Regex.eol Regex.empty)))) f = true
      ↔ ∃ u b, f = u ++ b ∧ agrees q u ∧ ∀ c ∈ b, c ≠ '\n' := by
  rw [MatchString_bol_iff]
  constructor
  · rintro ⟨s1, s2, rfl, h⟩
    rw [matches_atomChain_iff] at h
    obtain ⟨u, t, rfl, hu, ht⟩ := h
    rw [matches_dotStar_eol_iff] at ht
    obtain ⟨ht, hs2⟩ := ht
    have : s2 = [] := by simpa using hs2
    subst this
    exact ⟨u, t, by simp, hu, ht⟩
  · rintro ⟨u, b, rfl, hu, hb⟩
    refine ⟨u ++ b, [], by simp, ?_⟩
    rw [matches_atomChain_iff]
    exact ⟨u, b, rfl, hu, (matches_dotStar_eol_iff _ _ _).2 ⟨hb, rfl⟩⟩

/-- The normal form of a pattern with a separator in its front part that
starts with no separator and ends with one: the pattern between a separator
and `**`. -/
theorem NormalizeGitignore_anchored_dir (pre body : List Char) (hslash : '/' ∈ pre)
    (hh1 : pre.head? ≠ some '/') (hh2 : pre.head? ≠ some '#') (hh3 : pre.head? ≠ some '!')
    (hclean : containsTwoAsterisk (pre ++ (body ++ ['/'])) = false) :
    NormalizeGitignore (pre ++ (body ++ ['/']))
      = '/' :: ((pre ++ (body ++ ['/'])) ++ ['*', '*']) := by
  have hpre : pre ≠ [] := fun e => by rw [e] at hslash; exact absurd hslash (List.not_mem_nil _)
  have hhead : (pre ++ (body ++ ['/'])).head? = pre.head? := by
    cases pre with
    | nil => exact absurd rfl hpre
    | cons x xs => rfl
  have hlast : (pre ++ (body ++ ['/'])).getLast? = some '/' := by
    rw [← List.append_assoc]
    exact List.getLast?_concat _
  rw [NormalizeGitignore_of_clean _ (by simp) (by rw [hhead]; exact hh2)
    (by rw [hhead]; exact hh3) (noTrailingSpace_of_getLast _ '/' hlast (by decide))]
  have hE : earlySlash (pre ++ (body ++ ['/'])) = '/' :: (pre ++ (body ++ ['/'])) := by
    unfold earlySlash
    rw [if_neg (by rw [hhead]; exact hh1)]
    obtain ⟨h1, h2⟩ := indexSlash_of_mem pre hslash (body ++ ['/'])
    have : indexSlash (pre ++ (body ++ ['/'])) ≠ -1
        ∧ indexSlash (pre ++ (body ++ ['/'])) < ((pre ++ (body ++ ['/'])).length : Int) - 1 := by
      refine ⟨h1, ?_⟩
      simp only [List.length_append, List.length_cons, List.length_nil]
      push_cast
      omega
    exact if_pos this
  have hL : lateSlash ('/' :: (pre ++ (body ++ ['/'])))
      = '/' :: (pre ++ (body ++ ['/'])) ++ ['*', '*'] := by
    rcases lateSlash_cases ('/' :: (pre ++ (body ++ ['/']))) with ⟨_, he⟩ | ⟨hl, _⟩
    · exact he
    · rw [List.getLast?_cons, hlast] at hl
      exact absurd rfl hl
  have hc : containsTwoAsterisk ('/' :: (pre ++ body)) = false := by
    rw [containsTwoAsterisk_cons_of_ne _ _ (by decide)]
    apply containsTwoAsterisk_of_infix [] (pre ++ body) ['/']
    rw [List.nil_append, List.append_assoc]
    exact hclean
  have hsplit : '/' :: (pre ++ (body ++ ['/'])) ++ ['*', '*']
      = ('/' :: (pre ++ body)) ++ '/' :: ['*', '*'] := by
    simp
  unfold normalizeCore
  rw [hE, hL, hsplit, transformTwoAsterisk_append_slash, transformTwoAsterisk_stars,
    transformTwoAsterisk_of_clean _ hc]
  simp

theorem isPlain_of_pathRune (c : Char) (h : isAlnum c = true ∨ c = '/' ∨ c = '.') :
    isPlain c = true := by
  rcases h with h | h | h
  · exact isPlain_of_isAlnum c h
  · subst h; decide
  · subst h; decide

theorem isSpace_of_pathRune (c : Char) (h : isAlnum c = true ∨ c = '/' ∨ c = '.') :
    isSpace c = false := by
  rcases h with h | h | h
  · exact isSpace_of_isAlnum c h
  · subst h; decide
  · subst h; decide

theorem pathRune_ne (c x : Char) (h : isAlnum c = true ∨ c = '/' ∨ c = '.')
    (hx : isAlnum x = false) (hx1 : x ≠ '/') (hx2 : x ≠ '.') : c ≠ x := by
  rcases h with h | h | h
  · exact isAlnum_ne c x h hx
  · rw [h]; exact fun e => hx1 e.symm
  · rw [h]; exact fun e => hx2 e.symm

theorem not_mem_of_pathRune (w : List Char)
    (h : ∀ c ∈ w, isAlnum c = true ∨ c = '/' ∨ c = '.') (x : Char) (hx : isAlnum x = false)
    (hx1 : x ≠ '/') (hx2 : x ≠ '.') : x ∉ w :=
  fun hm => pathRune_ne x x (h x hm) hx hx1 hx2 rfl

/-- A pattern with at most one asterisk has no two adjacent asterisks. -/
theorem containsTwoAsterisk_one (a b : List Char) (x : Char) (ha : '*' ∉ a) (hb : '*' ∉ b) :
    containsTwoAsterisk (a ++ x :: b) = false := by
  by_cases hx : x = '*'
  · rw [hx]
    exact containsTwoAsterisk_single a b ha hb
  · apply containsTwoAsterisk_of_not_mem
    intro hm
    rcases List.mem_append.1 hm with hm | hm
    · exact ha hm
    · rcases List.mem_cons.1 hm with hm | hm
      · exact hx hm.symm
      · exact hb hm

/-- The result of `GitignoreMatch` for an anchored pattern with one escaped
wildcard: true needs a path at least as long as the pattern, and the
pattern itself as the path gives true. -/
theorem escaped_match (pre suf : List Char) (x : Char) (hx : x = '?' ∨ x = '*')
    (hpre : ∀ c ∈ pre, isAlnum c = true ∨ c = '/' ∨ c = '.')
    (hsuf : ∀ c ∈ suf, isAlnum c = true ∨ c = '/' ∨ c = '.') (hslash : '/' ∈ pre)
    (hhead : pre.head? ≠ some '/') (f : List Char) :
    ∃ b, GitignoreMatch f (pre ++ '\\' :: x :: suf) = Outcome.ret b
      ∧ (b = true → (pre ++ '\\' :: x :: suf).length ≤ f.length)
      ∧ (f = pre ++ '\\' :: x :: suf → b = true) := by
  have hpp : ∀ c ∈ pre, isPlain c = true := fun c hc => isPlain_of_pathRune c (hpre c hc)
  have hsp : ∀ c ∈ suf, isPlain c = true := fun c hc => isPlain_of_pathRune c (hsuf c hc)
  have hh2 : pre.head? ≠ some '#' := fun e =>
    not_mem_of_pathRune pre hpre '#' (by decide) (by decide) (by decide)
      (List.mem_of_mem_head? e)
  have hh3 : pre.head? ≠ some '!' := fun e =>
    not_mem_of_pathRune pre hpre '!' (by decide) (by decide) (by decide)
      (List.mem_of_mem_head? e)
  have hpne : pre ≠ [] := fun e => by rw [e] at hslash; exact absurd hslash (List.not_mem_nil _)
  have hbang : (pre ++ '\\' :: x :: suf).head? ≠ some '!' := by
    cases pre with
    | nil => exact absurd rfl hpne
    | cons y ys => exact hh3
  have hstar1 : '*' ∉ pre ++ ['\\'] := by
    intro hm
    rcases List.mem_append.1 hm with hm | hm
    · exact not_mem_of_pathRune pre hpre '*' (by decide) (by decide) (by decide) hm
    · exact absurd (List.mem_singleton.1 hm) (by decide)
  have hstar2 : '*' ∉ suf :=
    not_mem_of_pathRune suf hsuf '*' (by decide) (by decide) (by decide)
  have hclean : containsTwoAsterisk (pre ++ '\\' :: x :: suf) = false := by
    have := containsTwoAsterisk_one (pre ++ ['\\']) suf x hstar1 hstar2
    simpa using this
  by_cases hl : suf.getLast? = some '/'
  · obtain ⟨s0, hs0⟩ := List.getLast?_eq_some_iff.1 hl
    have hN : NormalizeGitignore (pre ++ '\\' :: x :: suf)
        = '/' :: ((pre ++ '\\' :: x :: suf) ++ ['*', '*']) := by
      have := NormalizeGitignore_anchored_dir pre ('\\' :: x :: s0) hslash hhead hh2 hh3
        (by rw [hs0] at hclean; simpa using hclean)
      rw [hs0]
      simpa using this
    have hR : asRegexp (trimLeadingSlash ('/' :: ((pre ++ '\\' :: x :: suf) ++ ['*', '*'])))
        = Outcome.ret (Regex.cat Regex.bol (atomChain (pre ++ '\\' :: x :: suf)
            (Regex.cat (Regex.star Regex.anyNotNL) (Regex.cat Regex.eol Regex.empty)))) := by
      have : trimLeadingSlash ('/' :: ((pre ++ '\\' :: x :: suf) ++ ['*', '*']))
          = (pre ++ '\\' :: x :: suf) ++ ['*', '*'] := by simp [trimLeadingSlash]
      rw [this]
      exact asRegexp_escaped_stars pre suf x hx hpp hsp
    refine ⟨_, GitignoreMatch_of_regex f _ _ _ hbang hN (by simp) hR, ?_, ?_⟩
    · intro hb
      obtain ⟨u, b, rfl, hu, _⟩ := (MatchString_plain_stars_iff _ _).1 hb
      have hlu := agrees_length _ _ hu
      simp only [List.length_append] at hlu ⊢
      omega
    · intro hf
      rw [MatchString_plain_stars_iff]
      exact ⟨f, [], by simp, by rw [hf]; exact agrees_self _, by simp⟩
  · obtain ⟨c, hc, hc1, hc2⟩ : ∃ c, (x :: suf).getLast? = some c ∧ c ≠ '/'
        ∧ isSpace c = false := by
      by_cases hs : suf = []
      · subst hs
        refine ⟨x, rfl, ?_, ?_⟩ <;> rcases hx with rfl | rfl <;> decide
      · obtain ⟨c, hc, hcm⟩ := getLast_of_ne_nil suf hs
        refine ⟨c, ?_, ?_, isSpace_of_pathRune c (hsuf c hcm)⟩
        · rw [← hc]
          exact getLast_append_of_ne_nil [x] suf hs
        · intro e
          rw [e] at hc
          exact hl hc
    have hlast : (pre ++ '\\' :: x :: suf).getLast? = some c := by
      rw [← hc]
      exact getLast_append_of_ne_nil (pre ++ ['\\']) (x :: suf) (by simp) ▸ by simp
    refine ⟨_, GitignoreMatch_anchored pre ('\\' :: x :: suf) f c _ hslash (by simp) hhead
      hh2 hh3 hlast hc1 hc2 hclean (asRegexp_escaped pre suf x hx hpp hsp), ?_, ?_⟩
    · intro hb
      rw [MatchString_plain_iff] at hb
      rw [agrees_length _ _ hb]
    · intro hf
      rw [MatchString_plain_iff, hf]
      exact agrees_self _

/-- C17, refuted as stated: with `pre` = `/a/b`, which has an interior
separator, the pattern `/a/b\?c` loses its leading separator in the
translation and does not match the path identical to it. -/
theorem escaped_pattern_with_leading_separator :
    GitignoreMatch ("/a/b".toList ++ '\\' :: '?' :: "c".toList)
        ("/a/b".toList ++ '\\' :: '?' :: "c".toList) = Outcome.ret false := by
  decide

/-- C17, amended: for `pre` and `suf` of ASCII letters, digits, separators
and dots, where `pre` has a separator and does not start with one, and for
`x` one of `?` and `*`, the pattern `pre`, backslash, `x`, `suf` matches the
path identical to it and does not match `pre ++ [d] ++ suf` for any single
rune `d`. -/
theorem escaped_wildcard_is_literal (pre suf : List Char) (x d : Char)
    (hx : x = '?' ∨ x = '*')
    (hpre : ∀ c ∈ pre, isAlnum c = true ∨ c = '/' ∨ c = '.')
    (hsuf : ∀ c ∈ suf, isAlnum c = true ∨ c = '/' ∨ c = '.') (hslash : '/' ∈ pre)
    (hhead : pre.head? ≠ some '/') :
    GitignoreMatch (pre ++ '\\' :: x :: suf) (pre ++ '\\' :: x :: suf) = Outcome.ret true
      ∧ GitignoreMatch (pre ++ d :: suf) (pre ++ '\\' :: x :: suf) = Outcome.ret false := by
  constructor
  · obtain ⟨b, hb, _, h2⟩ := escaped_match pre suf x hx hpre hsuf hslash hhead
      (pre ++ '\\' :: x :: suf)
    rw [hb, h2 rfl]
  · obtain ⟨b, hb, h1, _⟩ := escaped_match pre suf x hx hpre hsuf hslash hhead
      (pre ++ d :: suf)
    rw [hb]
    cases b with
    | false => rfl
    | true =>
      have := h1 rfl
      simp only [List.length_append, List.length_cons] at this
      omega

/-- C17, amended, at the patterns and paths of the tests. -/
theorem escaped_wildcard_is_literal_witness :
    (GitignoreMatch ("a/b/c".toList ++ '\\' :: '?' :: "d.txt".toList)
          ("a/b/c".toList ++ '\\' :: '?' :: "d.txt".toList) = Outcome.ret true
        ∧ GitignoreMatch ("a/b/c".toList ++ 'X' :: "d.txt".toList)
          ("a/b/c".toList ++ '\\' :: '?' :: "d.txt".toList) = Outcome.ret false)
      ∧ GitignoreMatch ("a/b/c".toList ++ '\\' :: '*' :: "d.txt".toList)
          ("a/b/c".toList ++ '\\' :: '*' :: "d.txt".toList) = Outcome.ret true :=
  ⟨escaped_wildcard_is_literal "a/b/c".toList "d.txt".toList '?' 'X' (Or.inl rfl)
      (by decide) (by decide) (by decide) (by decide),
    (escaped_wildcard_is_literal "a/b/c".toList "d.txt".toList '*' 'X' (Or.inr rfl)
      (by decide) (by decide) (by decide) (by decide)).1⟩

/-! ### The end of the expression -/

/-- The text handed to `regexp.MustCompile` starts with `^` and its last
rune is `$`, for every pattern. -/
theorem asRegexpSource_ends (p : List Char) :
    (asRegexpSource p).head? = some '^' ∧ (asRegexpSource p).getLast? = some '$' := by
  unfold asRegexpSource
  exact ⟨rfl, List.getLast?_concat _⟩

/-- What the pattern `a/b\` matches: every path that starts with `a/b\$`. -/
theorem trailing_backslash_matches_iff (f : List Char) :
    GitignoreMatch f "a/b\\".toList = Outcome.ret true ↔ ∃ t, f = "a/b\\$".toList ++ t := by
  rw [GitignoreMatch_of_regex f "a/b\\".toList "/a/b\\".toList
    (Regex.cat Regex.bol (litChain "a/b\\$".toList Regex.empty))
    (by decide) (by decide) (by decide) (by decide)]
  simp only [Outcome.ret.injEq]
  rw [MatchString_bol_iff]
  constructor
  · rintro ⟨s1, s2, rfl, h⟩
    rw [matches_litChain_iff] at h
    obtain ⟨t, rfl, ht⟩ := h
    rw [matches_empty_iff] at ht
    subst ht
    exact ⟨s2, by simp⟩
  · rintro ⟨t, rfl⟩
    refine ⟨"a/b\\$".toList, t, rfl, ?_⟩
    rw [matches_litChain_iff]
    exact ⟨[], by simp, Matches.empty⟩

/-- C18, evaluation: for the pattern `a/b\` the text handed to the compiler
is `^a/b\\\$`, and the pattern does not match the path `a/b\` but matches
the path `a/b\$`. -/
theorem trailing_backslash_rejects_own_path :
    asRegexpSource "a/b\\".toList = "^a/b\\\\\\$".toList
      ∧ GitignoreMatch "a/b\\".toList "a/b\\".toList = Outcome.ret false
      ∧ GitignoreMatch "a/b\\$".toList "a/b\\".toList = Outcome.ret true := by
  decide

/-- C19, evaluation: the expression compiled for the pattern `a/b\` has no
end anchor and the pattern matches the path `a/b\$xyz` by its prefix; the
expression compiled for the pattern `a|b` is an alternation whose first
branch has no end anchor, and the pattern matches the path `xay`. -/
theorem end_anchor_missing :
    MustCompile (asRegexpSource "a/b\\".toList)
        = Outcome.ret (Regex.cat Regex.bol (litChain "a/b\\$".toList Regex.empty))
      ∧ GitignoreMatch "a/b\\$xyz".toList "a/b\\".toList = Outcome.ret true
      ∧ MustCompile (asRegexpSource "**/a|b".toList)
        = Outcome.ret (Regex.alt
            (Regex.cat Regex.bol (Regex.cat (Regex.star Regex.anyNotNL)
              (Regex.cat (Regex.lit 'a') Regex.empty)))
            (Regex.cat (Regex.lit 'b') (Regex.cat Regex.eol Regex.empty)))
      ∧ GitignoreMatch "xay".toList "a|b".toList = Outcome.ret true := by
  decide

/-- C20, evaluation: for the patterns `a/b[cd` and `a/b[` the text handed to
the compiler keeps the `[` as the opening of a class that is never closed,
and `GitignoreMatch` panics. -/
theorem unmatched_bracket_panics :
    asRegexpSource "a/b[cd".toList = "^a/b[cd$".toList
      ∧ asRegexpSource "a/b[".toList = "^a/b[$".toList
      ∧ GitignoreMatch "a/b[cd".toList "a/b[cd".toList = Outcome.panicked
      ∧ GitignoreMatch "a/b[".toList "a/b[".toList = Outcome.panicked := by
  decide

/-! ### Trailing spaces and the negation mark -/

theorem normalize_noTrailingSpace_aux (n : Nat) : ∀ p : List Char, p.length ≤ n →
    NoTrailingSpace (NormalizeGitignore p) := by
  induction n with
  | zero =>
    intro p hp
    have : p = [] := List.length_eq_zero.1 (by omega)
    subst this
    exact fun c hc => by simp [NormalizeGitignore, normalizeFuel] at hc
  | succ n ih =>
    intro p hp
    by_cases h1 : p = []
    · subst h1
      exact fun c hc => by simp [NormalizeGitignore, normalizeFuel] at hc
    by_cases h2 : p.head? = some '#'
    · have hN : NormalizeGitignore p = [] := by
        rw [NormalizeGitignore_eq, if_neg h1, if_pos h2]
      rw [hN]
      exact fun c hc => by simp at hc
    by_cases h3 : p.head? = some '!'
    · obtain ⟨rest, rfl⟩ : ∃ rest, p = '!' :: rest := by
        cases p with
        | nil => exact absurd rfl h1
        | cons c cs =>
          simp only [List.head?_cons, Option.some.injEq] at h3
          exact ⟨cs, by rw [h3]⟩
      have hl := trimRightSpace_length_le rest
      simp only [List.length_cons] at hp
      rw [NormalizeGitignore_bang]
      exact noTrailingSpace_cons_bang _ (ih (trimRightSpace rest) (by omega))
    · rw [NormalizeGitignore_plain p h1 h2 h3]
      obtain ⟨c, hc, _, hcsp⟩ :=
        lateSlash_earlySlash_getLast (trimRightSpace p) (noTrailingSpace_trimRightSpace p)
      intro d hd
      unfold normalizeCore at hd
      rw [transformTwoAsterisk_getLast, hc] at hd
      cases hd
      exact hcsp

/-- No normal form ends with a space, whatever stands before the space in
the pattern. -/
theorem NormalizeGitignore_noTrailingSpace (p : List Char) :
    NoTrailingSpace (NormalizeGitignore p) :=
  normalize_noTrailingSpace_aux p.length p (le_refl _)

/-- C21, evaluation: the trailing tab and space of `/a/b/c.json` are removed,
and so is the space after the backslash of the pattern `/a/b\` + space: the
normal form ends with the backslash. -/
theorem escaped_trailing_space_is_trimmed :
    NormalizeGitignore "/a/b/c.json\t ".toList = "/a/b/c.json".toList
      ∧ NormalizeGitignore "/a/b\\ ".toList = "/a/b\\".toList := by
  decide

theorem all_space_of_trimRightSpace_nil (q : List Char) (h : trimRightSpace q = []) :
    ∀ c ∈ q, isSpace c = true := by
  induction q with
  | nil => exact fun c hc => absurd hc (List.not_mem_nil _)
  | cons d ds ih =>
    simp only [trimRightSpace] at h
    split at h
    · rename_i ht
      split at h
      · rename_i hd
        intro c hc
        rcases List.mem_cons.1 hc with hc | hc
        · rw [hc]; exact hd
        · exact ih ht c hc
      · cases h
    · cases h

/-- Trimming a pattern first does not change its normal form, unless the
pattern is made of spaces only. -/
theorem NormalizeGitignore_trim (q : List Char) (h : ¬ IsBlank q) :
    NormalizeGitignore (trimRightSpace q) = NormalizeGitignore q := by
  cases q with
  | nil => rfl
  | cons c cs =>
    rcases trimRightSpace_head c cs with ht | ⟨t, ht⟩
    · exact absurd ⟨by simp, all_space_of_trimRightSpace_nil _ ht⟩ h
    · have hidem : trimRightSpace (trimRightSpace (c :: cs)) = trimRightSpace (c :: cs) :=
        trimRightSpace_of_noTrailingSpace _ (noTrailingSpace_trimRightSpace _)
      by_cases h2 : c = '#'
      · rw [ht, NormalizeGitignore_eq, if_neg (by simp), if_pos (by simp [h2]),
          NormalizeGitignore_eq, if_neg (by simp), if_pos (by simp [h2])]
      by_cases h3 : c = '!'
      · subst h3
        rw [trimRightSpace_cons_of_not_space '!' cs (by decide),
          NormalizeGitignore_bang (trimRightSpace cs), NormalizeGitignore_bang cs,
          trimRightSpace_of_noTrailingSpace _ (noTrailingSpace_trimRightSpace cs)]
      · rw [NormalizeGitignore_plain (c :: cs) (by simp) (by simpa using h2)
          (by simpa using h3)]
        have hp := NormalizeGitignore_plain (trimRightSpace (c :: cs)) (by rw [ht]; simp)
          (by rw [ht]; simpa using h2) (by rw [ht]; simpa using h3)
        rw [hp, hidem]

/-- The normal form of a negated pattern is the negation mark and the normal
form of the rest, unless the rest is made of spaces only. -/
theorem NormalizeGitignore_bang_of_not_blank (q : List Char) (h : ¬ IsBlank q) :
    NormalizeGitignore ('!' :: q) = '!' :: NormalizeGitignore q := by
  rw [NormalizeGitignore_bang, NormalizeGitignore_trim q h]

/-- C24, evaluation: for the rest `q` made of one space the normal form of
`!` + `q` is `!`, while `!` + the normal form of `q` is `!**/**`; at the
pattern `!a/b/` of the test the two are the same. -/
theorem negation_of_blank_pattern :
    NormalizeGitignore ('!' :: " ".toList) = "!".toList
      ∧ '!' :: NormalizeGitignore " ".toList = "!**/**".toList
      ∧ NormalizeGitignore ('!' :: "a/b/".toList) = "!/a/b/**".toList := by
  decide

/-- How `GitignoreMatch` goes on for a pattern that does not start with the
negation mark. -/
theorem GitignoreMatch_plain (f p : List Char) (h : p.head? ≠ some '!') :
    GitignoreMatch f p
      = if NormalizeGitignore p = [] then Outcome.ret false
        else (asRegexp (trimLeadingSlash (NormalizeGitignore p))).map
          (fun r => MatchString r f) := by
  cases p with
  | nil => rfl
  | cons c rest =>
    have hc : c ≠ '!' := fun e => h (by simp [e])
    simp only [GitignoreMatch, if_neg hc]

/-- C25: for a pattern that is empty or starts with `#` the normal form is
empty and `GitignoreMatch` returns false for every path. -/
theorem empty_or_comment_never_matches (f p : List Char)
    (h : p = [] ∨ p.head? = some '#') :
    NormalizeGitignore p = [] ∧ GitignoreMatch f p = Outcome.ret false := by
  have hN : NormalizeGitignore p = [] := by
    rcases h with h | h
    · subst h; rfl
    · rw [NormalizeGitignore_eq]
      by_cases hp : p = []
      · rw [if_pos hp]
      · rw [if_neg hp, if_pos h]
  refine ⟨hN, ?_⟩
  have hb : p.head? ≠ some '!' := by
    rcases h with h | h
    · subst h; simp
    · rw [h]; decide
  rw [GitignoreMatch_plain f p hb, if_pos hN]

/-- C25 at the comment of the test and at the empty pattern. -/
theorem empty_or_comment_never_matches_witness :
    (NormalizeGitignore "# Next section".toList = []
        ∧ GitignoreMatch "anything.txt".toList "# Next section".toList = Outcome.ret false)
      ∧ (NormalizeGitignore [] = []
        ∧ GitignoreMatch "anything.txt".toList [] = Outcome.ret false) :=
  ⟨empty_or_comment_never_matches "anything.txt".toList "# Next section".toList
      (Or.inr (by decide)),
    empty_or_comment_never_matches "anything.txt".toList [] (Or.inl rfl)⟩

/-! ### The anchoring rule -/

theorem indexSlash_split (p : List Char) (h : indexSlash p ≠ -1) :
    ∃ a b : List Char, p = a ++ '/' :: b ∧ indexSlash p = a.length := by
  induction p with
  | nil => exact absurd rfl h
  | cons c cs ih =>
    rw [indexSlash_cons] at h ⊢
    by_cases hc : c = '/'
    · exact ⟨[], cs, by rw [hc]; rfl, by rw [if_pos hc]; rfl⟩
    · rw [if_neg hc] at h ⊢
      by_cases hi : indexSlash cs = -1
      · rw [if_pos hi] at h
        exact absurd rfl h
      · obtain ⟨a, b, hab, hl⟩ := ih hi
        refine ⟨c :: a, b, by rw [hab]; rfl, ?_⟩
        rw [if_neg hi, hl, List.length_cons]
        push_cast
        rfl

/-- The test of `earlySlash` on the first separator says that the pattern
has a separator somewhere other than as its last rune. -/
theorem anchored_iff (p : List Char) :
    (indexSlash p ≠ -1 ∧ indexSlash p < (p.length : Int) - 1) ↔ HasInnerSlash p := by
  constructor
  · rintro ⟨h1, h2⟩
    obtain ⟨a, b, hab, hl⟩ := indexSlash_split p h1
    refine ⟨a, b, hab, ?_⟩
    intro hb
    rw [hl, hab, hb] at h2
    simp only [List.length_append, List.length_cons, List.length_nil] at h2
    push_cast at h2
    omega
  · rintro ⟨a, b, hab, hb⟩
    have hm : '/' ∈ a ++ ['/'] := by simp
    obtain ⟨h1, h2⟩ := indexSlash_of_mem (a ++ ['/']) hm b
    have hp : p = (a ++ ['/']) ++ b := by rw [hab]; simp
    have hbl : 0 < b.length := List.length_pos.2 hb
    rw [hp]
    refine ⟨h1, ?_⟩
    simp only [List.length_append, List.length_cons, List.length_nil] at h2 ⊢
    push_cast at h2 ⊢
    omega

theorem lateSlash_cons_slash (w : List Char) :
    ∃ y, lateSlash ('/' :: w) = '/' :: y
      ∧ (w ≠ [] → y.head? = w.head?) ∧ (w = [] → y.head? = some '*') := by
  rcases lateSlash_cases ('/' :: w) with ⟨_, he⟩ | ⟨hl, he⟩
  · refine ⟨w ++ ['*', '*'], by rw [he]; rfl, ?_, ?_⟩
    · intro hw
      cases w with
      | nil => exact absurd rfl hw
      | cons d ds => rfl
    · intro hw
      rw [hw]
      rfl
  · refine ⟨w, he, fun _ => rfl, ?_⟩
    intro hw
    rw [hw] at hl
    exact absurd rfl hl

/-- The normal form of a pattern without trailing space that is no comment
and no negation: `/` + rest for an anchored pattern, `**/` + rest for any
other. -/
theorem normalizeCore_head (p : List Char) (hne : p ≠ []) :
    ((p.head? = some '/' ∨ HasInnerSlash p) →
        ∃ y, normalizeCore p = '/' :: y
          ∧ (y.head? = some '/' ↔ (p.head? = some '/' ∧ (p.drop 1).head? = some '/')))
      ∧ (¬ (p.head? = some '/' ∨ HasInnerSlash p) →
        ∃ r, normalizeCore p = '*' :: '*' :: '/' :: r) := by
  constructor
  · intro h
    by_cases hs : p.head? = some '/'
    · obtain ⟨rest, rfl⟩ : ∃ rest, p = '/' :: rest := by
        cases p with
        | nil => exact absurd rfl hne
        | cons c cs =>
          simp only [List.head?_cons, Option.some.injEq] at hs
          exact ⟨cs, by rw [hs]⟩
      have hE : earlySlash ('/' :: rest) = '/' :: rest := by
        unfold earlySlash
        rw [if_pos hs]
      obtain ⟨y, hy, hy1, hy2⟩ := lateSlash_cons_slash rest
      refine ⟨transformTwoAsterisk y, ?_, ?_⟩
      · unfold normalizeCore
        rw [hE, hy, transformTwoAsterisk_cons_slash]
      · rw [transformTwoAsterisk_head]
        simp only [List.head?_cons, List.drop_succ_cons, List.drop_zero, true_and]
        by_cases hr : rest = []
        · rw [hy2 hr, hr]
          simp
        · rw [hy1 hr]
    · have hin : HasInnerSlash p := by
        rcases h with h | h
        · exact absurd h hs
        · exact h
      have hE : earlySlash p = '/' :: p := by
        unfold earlySlash
        rw [if_neg hs]
        exact if_pos ((anchored_iff p).2 hin)
      obtain ⟨y, hy, hy1, _⟩ := lateSlash_cons_slash p
      refine ⟨transformTwoAsterisk y, ?_, ?_⟩
      · unfold normalizeCore
        rw [hE, hy, transformTwoAsterisk_cons_slash]
      · rw [transformTwoAsterisk_head, hy1 hne]
        constructor
        · intro e
          exact absurd e hs
        · intro e
          exact absurd e.1 hs
  · intro h
    have hs : p.head? ≠ some '/' := fun e => h (Or.inl e)
    have hin : ¬ HasInnerSlash p := fun e => h (Or.inr e)
    have hE : earlySlash p = '*' :: '*' :: '/' :: p := by
      unfold earlySlash
      rw [if_neg hs]
      exact if_neg (fun e => hin ((anchored_iff p).1 e))
    unfold normalizeCore
    rw [hE]
    rcases lateSlash_cases ('*' :: '*' :: '/' :: p) with ⟨_, he⟩ | ⟨_, he⟩
    · rw [he]
      exact ⟨_, transformTwoAsterisk_stars_slash (p ++ ['*', '*'])⟩
    · rw [he]
      exact ⟨_, transformTwoAsterisk_stars_slash p⟩

/-- C22, refuted as stated: the pattern `//a` starts with a separator and is
its own normal form, which begins with two separators. -/
theorem double_leading_slash_is_kept :
    NormalizeGitignore "//a".toList = "//a".toList
      ∧ ((NormalizeGitignore "//a".toList).drop 1).head? = some '/' := by
  decide

/-- C22, amended: for a non-empty pattern without trailing space that starts
with neither `#` nor `!`: if it starts with a separator or has a separator
somewhere other than as its last rune, its normal form begins with a
separator, and the second rune of the normal form is a separator exactly
when the pattern itself begins with two separators; otherwise its normal
form begins with `**/`. -/
theorem anchoring_rule (p : List Char) (hne : p ≠ []) (hts : NoTrailingSpace p)
    (h1 : p.head? ≠ some '#') (h2 : p.head? ≠ some '!') :
    ((p.head? = some '/' ∨ HasInnerSlash p) →
        (NormalizeGitignore p).head? = some '/'
          ∧ (((NormalizeGitignore p).drop 1).head? = some '/'
              ↔ (p.head? = some '/' ∧ (p.drop 1).head? = some '/')))
      ∧ (¬ (p.head? = some '/' ∨ HasInnerSlash p) →
        ∃ r, NormalizeGitignore p = '*' :: '*' :: '/' :: r) := by
  rw [NormalizeGitignore_of_clean p hne h1 h2 hts]
  obtain ⟨hA, hB⟩ := normalizeCore_head p hne
  refine ⟨?_, hB⟩
  intro h
  obtain ⟨y, hy, hiff⟩ := hA h
  rw [hy]
  exact ⟨rfl, hiff⟩

/-- C22, amended, at the patterns `a/b/c.json` and `any.txt` of the tests. -/
theorem anchoring_rule_witness :
    ((NormalizeGitignore "a/b/c.json".toList).head? = some '/'
        ∧ (((NormalizeGitignore "a/b/c.json".toList).drop 1).head? = some '/'
            ↔ ("a/b/c.json".toList.head? = some '/'
                ∧ ("a/b/c.json".toList.drop 1).head? = some '/')))
      ∧ ∃ r, NormalizeGitignore "any.txt".toList = '*' :: '*' :: '/' :: r :=
  ⟨(anchoring_rule "a/b/c.json".toList (by decide)
      (noTrailingSpace_of_getLast _ 'n' (by decide) (by decide)) (by decide) (by decide)).1
      (Or.inr ⟨"a".toList, "b/c.json".toList, by decide, by decide⟩),
    (anchoring_rule "any.txt".toList (by decide)
      (noTrailingSpace_of_getLast _ 't' (by decide) (by decide)) (by decide) (by decide)).2
      (by
        rintro (h | ⟨a, b, h, _⟩)
        · exact absurd h (by decide)
        · have hm : '/' ∈ "any.txt".toList := by rw [h]; simp
          exact absurd hm (by decide))⟩

/-! ### Runs of asterisks -/

theorem collapseRuns_cons (c : Char) (s : List Char) :
    collapseRuns (c :: s)
      = if c = '*' ∧ s.head? = some '*' then collapseRuns s else c :: collapseRuns s := by
  cases s with
  | nil => simp [collapseRuns]
  | cons d ds => simp [collapseRuns]

theorem collapseRuns_replace (s : List Char) :
    collapseRuns (replaceTwoAsterisk s) = collapseRuns s := by
  induction s using replaceTwoAsterisk.induct with
  | case1 => rfl
  | case2 c => rfl
  | case3 c d cs h ih =>
    rw [replaceTwoAsterisk, if_pos h, collapseRuns_cons, replaceTwoAsterisk_head, ih,
      collapseRuns_cons c, collapseRuns_cons d]
    simp only [h.1, h.2, List.head?_cons, true_and, and_self, if_true]
  | case4 c d cs h ih =>
    rw [replaceTwoAsterisk, if_neg h, collapseRuns_cons, replaceTwoAsterisk_head, ih,
      collapseRuns_cons c (d :: cs)]

theorem collapseRuns_of_clean (s : List Char) (h : containsTwoAsterisk s = false) :
    collapseRuns s = s := by
  induction s using containsTwoAsterisk.induct with
  | case1 => rfl
  | case2 c => rfl
  | case3 c d cs ih =>
    simp only [containsTwoAsterisk, Bool.or_eq_false_iff, Bool.and_eq_false_imp,
      decide_eq_true_eq, decide_eq_false_iff_not] at h
    have hcd : ¬ (c = '*' ∧ d = '*') := fun e => h.1 e.1 e.2
    rw [collapseRuns, if_neg hcd, ih h.2]

theorem collapseRuns_collapsePart (n : Nat) : ∀ s : List Char,
    collapseRuns (collapsePart n s) = collapseRuns s := by
  induction n with
  | zero => intro s; rfl
  | succ n ih =>
    intro s
    simp only [collapsePart]
    split
    · rw [ih, collapseRuns_replace]
    · rfl

/-- The bounded loop collapses every run of asterisks of a segment with
fewer than `2 ^ 1000` adjacent asterisks. -/
theorem collapsePart_eq (s : List Char) (h : adjacentAsterisks s < 2 ^ 1000) :
    collapsePart 1000 s = collapseRuns s := by
  rw [← collapseRuns_collapsePart 1000 s]
  exact (collapseRuns_of_clean _ (collapsePart_clean 1000 s h)).symm

theorem transformPart_eq (seg : List Char) (h : adjacentAsterisks seg < 2 ^ 1000) :
    transformPart seg = collapsedSegment seg := by
  unfold transformPart collapsedSegment
  by_cases h1 : seg = ['*', '*'] ∨ containsTwoAsterisk seg = false
  · rw [if_pos h1, if_pos (by simpa using h1)]
  · rw [if_neg h1, if_neg (by simpa using h1)]
    exact collapsePart_eq seg h

theorem collapseRuns_head (s : List Char) : (collapseRuns s).head? = s.head? := by
  induction s using collapseRuns.induct with
  | case1 => rfl
  | case2 c => rfl
  | case3 c d cs h ih =>
    rw [collapseRuns, if_pos h, ih]
    simp [h.1, h.2]
  | case4 c d cs h ih =>
    rw [collapseRuns, if_neg h]
    rfl

theorem containsTwoAsterisk_collapseRuns (s : List Char) :
    containsTwoAsterisk (collapseRuns s) = false := by
  induction s using collapseRuns.induct with
  | case1 => rfl
  | case2 c => rfl
  | case3 c d cs h ih =>
    rw [collapseRuns, if_pos h]
    exact ih
  | case4 c d cs h ih =>
    rw [collapseRuns, if_neg h]
    by_cases hc : c = '*'
    · have hd : (collapseRuns (d :: cs)).head? ≠ some '*' := by
        rw [collapseRuns_head]
        intro e
        simp only [List.head?_cons, Option.some.injEq] at e
        exact h ⟨hc, e⟩
      rw [containsTwoAsterisk_cons_of_head_ne _ _ hd]
      exact ih
    · rw [containsTwoAsterisk_cons_of_ne _ _ hc]
      exact ih

theorem collapsedSegment_clean (seg : List Char) :
    collapsedSegment seg = ['*', '*'] ∨ containsTwoAsterisk (collapsedSegment seg) = false := by
  unfold collapsedSegment
  by_cases h1 : seg = ['*', '*'] ∨ containsTwoAsterisk seg = false
  · rw [if_pos h1]
    exact h1
  · rw [if_neg h1]
    exact Or.inr (containsTwoAsterisk_collapseRuns seg)

/-- C23: for a pattern shorter than `2 ^ 1000` runes, every segment of what
`transformTwoAsterisk` returns is exactly `**` or has no two adjacent
asterisks, and the segments of the result are, one by one, the segments of
the pattern: kept when exactly `**` or without two adjacent asterisks, and
with every run of asterisks collapsed to one otherwise. -/
theorem double_star_collapsing (p : List Char) (h : p.length < 2 ^ 1000) :
    (∀ seg ∈ splitSlash (transformTwoAsterisk p),
        seg = ['*', '*'] ∨ containsTwoAsterisk seg = false)
      ∧ splitSlash (transformTwoAsterisk p) = (splitSlash p).map collapsedSegment := by
  have hmap : (splitSlash p).map transformPart = (splitSlash p).map collapsedSegment := by
    apply List.map_congr_left
    intro seg hseg
    exact transformPart_eq seg (lt_of_le_of_lt
      ((adjacentAsterisks_le_length seg).trans (length_le_of_mem_splitSlash p seg hseg)) h)
  rw [splitSlash_transformTwoAsterisk, hmap]
  refine ⟨?_, rfl⟩
  intro seg hseg
  obtain ⟨s0, _, rfl⟩ := List.mem_map.1 hseg
  exact collapsedSegment_clean s0

/-- C23 at the pattern of the test, with the examples of the claim. -/
theorem double_star_collapsing_witness :
    ((∀ seg ∈ splitSlash (transformTwoAsterisk "/a**b/c***d/***/e.txt".toList),
          seg = ['*', '*'] ∨ containsTwoAsterisk seg = false)
        ∧ splitSlash (transformTwoAsterisk "/a**b/c***d/***/e.txt".toList)
          = (splitSlash "/a**b/c***d/***/e.txt".toList).map collapsedSegment)
      ∧ collapsedSegment "***".toList = "*".toList
      ∧ NormalizeGitignore "a**b/c***d/***/e.txt".toList = "/a*b/c*d/*/e.txt".toList :=
  ⟨double_star_collapsing "/a**b/c***d/***/e.txt".toList
      (length_lt_two_pow _ 5 1000 (by decide) (by decide)),
    by decide, by decide⟩

/-! ### Normalising a normal form -/

theorem noTrailingSpace_bangs_append (bangs x : List Char) (hb : ∀ c ∈ bangs, c = '!')
    (hx : NoTrailingSpace x) : NoTrailingSpace (bangs ++ x) := by
  induction bangs with
  | nil => exact hx
  | cons b bs ih =>
    have hb1 : b = '!' := hb b (by simp)
    rw [hb1, List.cons_append]
    exact noTrailingSpace_cons_bang _ (ih (fun c hc => hb c (List.mem_cons_of_mem _ hc)))

/-- Negation marks in front of a pattern without trailing space stay in
front of its normal form. -/
theorem NormalizeGitignore_bangs (bangs x : List Char) (hb : ∀ c ∈ bangs, c = '!')
    (hx : NoTrailingSpace x) :
    NormalizeGitignore (bangs ++ x) = bangs ++ NormalizeGitignore x := by
  induction bangs with
  | nil => rfl
  | cons b bs ih =>
    have hb1 : b = '!' := hb b (by simp)
    have hbs : ∀ c ∈ bs, c = '!' := fun c hc => hb c (List.mem_cons_of_mem _ hc)
    rw [hb1, List.cons_append, NormalizeGitignore_bang,
      trimRightSpace_of_noTrailingSpace _ (noTrailingSpace_bangs_append bs x hbs hx), ih hbs,
      List.cons_append]

/-- A pattern that the steps after the trimming only put a separator in
front of is left alone, with that separator, by the same steps. -/
theorem normalizeCore_stable (z : List Char) (hz : z.head? ≠ some '/')
    (h : normalizeCore z = '/' :: z) : normalizeCore ('/' :: z) = '/' :: z := by
  have hE1 : earlySlash ('/' :: z) = '/' :: z := by
    unfold earlySlash
    exact if_pos rfl
  rcases earlySlash_cases z with ⟨_, hh⟩ | ⟨he, _, _⟩ | ⟨he, _⟩
  · exact absurd hh hz
  · unfold normalizeCore at h ⊢
    rw [he] at h
    rw [hE1]
    rcases lateSlash_cases ('/' :: z) with ⟨hl, hL⟩ | ⟨_, hL⟩
    · rw [hL] at h
      have e1 : (('/' :: z) ++ ['*', '*']).getLast? = some '*' := by
        rw [List.getLast?_append]
        rfl
      have hlast := congrArg List.getLast? h
      rw [transformTwoAsterisk_getLast, e1, hl] at hlast
      exact absurd hlast (by decide)
    · rw [hL] at h ⊢
      exact h
  · unfold normalizeCore at h
    rw [he] at h
    have hhead := congrArg List.head? h
    rw [transformTwoAsterisk_head] at hhead
    rcases lateSlash_cases ('*' :: '*' :: '/' :: z) with ⟨_, hL⟩ | ⟨_, hL⟩
    · rw [hL] at hhead
      simp only [List.cons_append, List.head?_cons] at hhead
      exact absurd hhead (by decide)
    · rw [hL] at hhead
      simp only [List.head?_cons] at hhead
      exact absurd hhead (by decide)

/-- Normalising for the third time changes nothing. -/
theorem normalize_thrice (p : List Char) (h : p.length < 2 ^ 1000) :
    NormalizeGitignore (NormalizeGitignore (NormalizeGitignore p))
      = NormalizeGitignore (NormalizeGitignore p) := by
  obtain ⟨hnts, hd⟩ := normalize_twice_aux p.length p (le_refl _) h
  rcases hd with hd | ⟨bangs, r, hb, hq, hqq⟩
  · rw [hd, hd]
  · have hts1 : NoTrailingSpace ('*' :: '*' :: '/' :: r) := by
      intro c hc
      apply hnts c
      rw [hq, getLast_append_of_ne_nil bangs _ (by simp)]
      exact hc
    have hts2 : NoTrailingSpace ('/' :: '*' :: '*' :: '/' :: r) := by
      intro c hc
      apply hts1 c
      rw [← hc]
      exact (getLast_append_of_ne_nil ['/'] ('*' :: '*' :: '/' :: r) (by simp)).symm
    have h1 : NormalizeGitignore ('*' :: '*' :: '/' :: r) = '/' :: '*' :: '*' :: '/' :: r := by
      have e := hqq
      rw [hq, NormalizeGitignore_bangs bangs _ hb hts1] at e
      exact List.append_cancel_left e
    rw [NormalizeGitignore_of_clean _ (by simp) (by simp) (by simp) hts1] at h1
    have h2 := normalizeCore_stable ('*' :: '*' :: '/' :: r) (by simp) h1
    rw [hqq, NormalizeGitignore_bangs bangs _ hb hts2,
      NormalizeGitignore_of_clean _ (by simp) (by simp) (by simp) hts2, h2]

/-- A normal form that begins with a separator is its own normal form. -/
theorem normalize_twice_of_slash (p : List Char) (h : p.length < 2 ^ 1000)
    (hs : (NormalizeGitignore p).head? = some '/') :
    NormalizeGitignore (NormalizeGitignore p) = NormalizeGitignore p := by
  obtain ⟨_, hd⟩ := normalize_twice_aux p.length p (le_refl _) h
  rcases hd with hd | ⟨bangs, r, hb, hq, _⟩
  · exact hd
  · rw [hq] at hs
    cases bangs with
    | nil =>
      simp only [List.nil_append, List.head?_cons] at hs
      exact absurd hs (by decide)
    | cons b bs =>
      have hb1 : b = '!' := hb b (by simp)
      rw [hb1] at hs
      simp only [List.cons_append, List.head?_cons] at hs
      exact absurd hs (by decide)

/-- C29: for a pattern shorter than `2 ^ 1000` runes the third normalisation
changes nothing, and the second changes nothing when the pattern does not
start with `!` and its normal form begins with a separator. -/
theorem normalize_stabilises (p : List Char) (h : p.length < 2 ^ 1000) :
    NormalizeGitignore (NormalizeGitignore (NormalizeGitignore p))
        = NormalizeGitignore (NormalizeGitignore p)
      ∧ (p.head? ≠ some '!' → (NormalizeGitignore p).head? = some '/' →
          NormalizeGitignore (NormalizeGitignore p) = NormalizeGitignore p) :=
  ⟨normalize_thrice p h, fun _ hs => normalize_twice_of_slash p h hs⟩

/-- C29 at the pattern `any.txt`, which takes two normalisations to settle,
and at `a/b/c.json`, which takes one. -/
theorem normalize_stabilises_witness :
    (NormalizeGitignore (NormalizeGitignore (NormalizeGitignore "any.txt".toList))
        = NormalizeGitignore (NormalizeGitignore "any.txt".toList))
      ∧ NormalizeGitignore (NormalizeGitignore "a/b/c.json".toList)
          = NormalizeGitignore "a/b/c.json".toList :=
  ⟨(normalize_stabilises "any.txt".toList
      (length_lt_two_pow _ 3 1000 (by decide) (by decide))).1,
    (normalize_stabilises "a/b/c.json".toList
      (length_lt_two_pow _ 4 1000 (by decide) (by decide))).2 (by decide) (by decide)⟩

/-- C28: for a pattern that does not start with `!` and is shorter than
`2 ^ 1000` runes, as every Go string is, `GitignoreMatch` gives the same
result for the pattern and for its normal form, a panic included. -/
theorem normal_form_matches_the_same (f p : List Char) (hb : p.head? ≠ some '!')
    (hlen : p.length < 2 ^ 1000) :
    GitignoreMatch f (NormalizeGitignore p) = GitignoreMatch f p := by
  by_cases hN : NormalizeGitignore p = []
  · rw [GitignoreMatch_plain f p hb, if_pos hN, hN]
    rfl
  · have h1 : p ≠ [] := by
      intro e
      rw [e] at hN
      exact hN rfl
    have h2 : p.head? ≠ some '#' := by
      intro e
      apply hN
      rw [NormalizeGitignore_eq, if_neg h1, if_pos e]
    have hP := NormalizeGitignore_plain p h1 h2 hb
    have hl := trimRightSpace_length_le p
    obtain ⟨hnts, hhead, hdisj⟩ := normalizeCore_twice (trimRightSpace p)
      (noTrailingSpace_trimRightSpace p) (by omega)
    have hne : normalizeCore (trimRightSpace p) ≠ [] := by
      intro h0
      rw [h0] at hhead
      simp at hhead
    have hNN : NormalizeGitignore (normalizeCore (trimRightSpace p))
        = normalizeCore (normalizeCore (trimRightSpace p)) := by
      rw [NormalizeGitignore_plain _ hne, trimRightSpace_of_noTrailingSpace _ hnts]
      · rcases hhead with e | e <;> rw [e] <;> decide
      · rcases hhead with e | e <;> rw [e] <;> decide
    have hb2 : (normalizeCore (trimRightSpace p)).head? ≠ some '!' := by
      rcases hhead with e | e <;> rw [e] <;> decide
    rw [GitignoreMatch_plain f p hb, GitignoreMatch_plain f _ (by rw [hP]; exact hb2), hP, hNN]
    rcases hdisj with hd | ⟨r, hq, hqq⟩
    · rw [hd]
    · rw [hqq, hq]
      rfl

/-- C28 at the pattern `any.txt` and a path of the tests. -/
theorem normal_form_matches_the_same_witness :
    GitignoreMatch "so/many/layers/any.txt".toList (NormalizeGitignore "any.txt".toList)
      = GitignoreMatch "so/many/layers/any.txt".toList "any.txt".toList :=
  normal_form_matches_the_same "so/many/layers/any.txt".toList "any.txt".toList (by decide)
    (length_lt_two_pow _ 3 1000 (by decide) (by decide))

/-! ### The indices of the translation -/

theorem read_at (pre : List Char) (r : Char) (cs : List Char) :
    (pre ++ r :: cs)[pre.length]? = some r := by
  rw [List.getElem?_append_right (le_refl _)]
  simp

theorem read_next (pre : List Char) (r : Char) (cs : List Char) :
    (pre ++ r :: cs)[pre.length + 1]? = cs[0]? := by
  rw [List.getElem?_append_right (by omega)]
  simp

theorem read_next2 (pre : List Char) (r : Char) (cs : List Char) :
    (pre ++ r :: cs)[pre.length + 2]? = cs[1]? := by
  rw [List.getElem?_append_right (by omega)]
  simp

theorem drop_pre (pre : List Char) (r : Char) (cs : List Char) :
    (pre ++ r :: cs).drop (pre.length + 1) = cs := by
  have e : pre ++ r :: cs = (pre ++ [r]) ++ cs := by simp
  rw [e]
  exact List.drop_left' (by simp)

theorem sliceOf_rest (pre : List Char) (r : Char) (cs : List Char) :
    sliceOf (pre ++ r :: cs) (pre.length + 1) (pre ++ r :: cs).length = some cs := by
  unfold sliceOf
  rw [if_pos (by simp), drop_pre]
  simp only [List.length_append, List.length_cons]
  rw [List.take_of_length_le (by omega)]

theorem sliceOf_seg (pre : List Char) (r : Char) (cs : List Char) (e : Nat)
    (he : e ≤ cs.length) :
    sliceOf (pre ++ r :: cs) pre.length (pre.length + 1 + e) = some (r :: cs.take e) := by
  unfold sliceOf
  rw [if_pos (by simp; omega)]
  have h1 : (pre ++ r :: cs).drop pre.length = r :: cs := by simp
  have h2 : pre.length + 1 + e - pre.length = e + 1 := by omega
  rw [h1, h2]
  rfl

theorem findClosingBracketFrom_bounds : ∀ (cs : List Char) (prev : Char) (i : Nat),
    i ≤ findClosingBracketFrom prev cs i ∧ findClosingBracketFrom prev cs i ≤ i + cs.length := by
  intro cs
  induction cs with
  | nil => intro prev i; simp [findClosingBracketFrom]
  | cons c cs ih =>
    intro prev i
    simp only [findClosingBracketFrom, List.length_cons]
    split
    · omega
    · have := ih c (i + 1)
      omega

/-- What `findClosingBracket` returns is at most the length of its argument,
and at least one for an argument that is not empty. -/
theorem findClosingBracket_bounds (p : List Char) :
    findClosingBracket p ≤ p.length ∧ (p ≠ [] → 1 ≤ findClosingBracket p) := by
  cases p with
  | nil => simp [findClosingBracket]
  | cons c cs =>
    simp only [findClosingBracket, List.length_cons]
    split
    · simp
    · have := findClosingBracketFrom_bounds cs c 1
      refine ⟨by omega, fun _ => by omega⟩

/-- Passing `k` runes without translating them is dropping them. -/
theorem rewrite_skip (s : List Char) : ∀ k : Nat, rewrite s k = rewrite (s.drop k) 0 := by
  induction s with
  | nil => intro k; simp [rewrite]
  | cons c cs ih =>
    intro k
    cases k with
    | zero => rfl
    | succ k =>
      rw [List.drop_succ_cons, ← ih k]
      simp [rewrite]

/-- One iteration at the index of the rune `r`: no read is out of range, the
index moves on by `1 + k` runes that lie within the pattern, and the runes
appended are those of the translation `rewrite`. -/
theorem asRegexpStep_spec (pre : List Char) (r : Char) (cs : List Char) :
    ∃ k out, asRegexpStep (pre ++ r :: cs) pre.length = some (pre.length + 1 + k, out)
      ∧ k ≤ cs.length ∧ rewrite (r :: cs) 0 = out ++ rewrite (cs.drop k) 0 := by
  have hlen : (pre ++ r :: cs).length = pre.length + 1 + cs.length := by
    simp only [List.length_append, List.length_cons]
    omega
  unfold asRegexpStep
  rw [read_at, read_next, read_next2, hlen]
  simp only
  by_cases h1 : r = '\\'
  · rw [if_pos h1, h1]
    cases cs with
    | nil =>
      refine ⟨0, ['\\', '\\', '\\'], ?_, le_refl _, ?_⟩
      · simp
      · simp [rewrite]
    | cons next rest =>
      refine ⟨1, ['\\', '\\', '\\', next], ?_, by simp, ?_⟩
      · simp
      · simp [rewrite]
  rw [if_neg h1]
  by_cases h2 : r = '*'
  · rw [if_pos h2, h2]
    cases cs with
    | nil =>
      refine ⟨0, ['[', '^', '\\', '/', ']', '*'], ?_, le_refl _, ?_⟩
      · simp
      · simp [rewrite]
    | cons next rest =>
      by_cases hn : next = '*'
      · subst hn
        cases rest with
        | nil =>
          refine ⟨1, ['.', '*'], ?_, by simp, ?_⟩
          · simp
          · simp [rewrite]
        | cons sep rest2 =>
          by_cases hs : sep = '/'
          · subst hs
            refine ⟨2, ['.', '*'], ?_, by simp, ?_⟩
            · simp
              omega
            · simp [rewrite]
          · refine ⟨1, ['.', '*'], ?_, by simp, ?_⟩
            · simp [hs]
            · simp [rewrite, hs]
      · refine ⟨0, ['[', '^', '\\', '/', ']', '*'], ?_, by simp, ?_⟩
        · simp [hn]
        · simp [rewrite, hn]
  rw [if_neg h2]
  by_cases h3 : r = '?'
  · rw [if_pos h3, h3]
    refine ⟨0, ['[', '^', '\\', '/', ']'], rfl, by simp, ?_⟩
    simp [rewrite]
  rw [if_neg h3]
  by_cases h4 : r = '['
  · rw [if_pos h4, h4]
    cases cs with
    | nil =>
      refine ⟨0, ['['], ?_, le_refl _, ?_⟩
      · simp
      · simp [rewrite]
    | cons c rest =>
      have hb := (findClosingBracket_bounds (c :: rest)).1
      have e1 := sliceOf_rest pre '[' (c :: rest)
      rw [h4] at hlen
      rw [hlen] at e1
      have e2 := sliceOf_seg pre '[' (c :: rest) _ hb
      refine ⟨findClosingBracket (c :: rest),
        '[' :: (c :: rest).take (findClosingBracket (c :: rest)), ?_, hb, ?_⟩
      · rw [if_neg (by simp), e1]
        simp only
        rw [e2]
        simp only [Option.some.injEq, Prod.mk.injEq, and_true]
        omega
      · have : rewrite ('[' :: c :: rest) 0
            = '[' :: (c :: rest).take (findClosingBracket (c :: rest))
              ++ rewrite (c :: rest) (findClosingBracket (c :: rest)) := by
          simp [rewrite]
        rw [this, rewrite_skip (c :: rest)]
  rw [if_neg h4]
  refine ⟨0, [r], rfl, by simp, ?_⟩
  simp [rewrite, h1, h2, h3, h4]

/-- The loop with explicit indices, started at the end of `pre` with as much
fuel as runes are left, ends with the translation of the runes left. -/
theorem asRegexpLoop_spec : ∀ (fuel : Nat) (pre post acc : List Char), post.length ≤ fuel →
    asRegexpLoop (pre ++ post) fuel pre.length acc
      = LoopResult.done (acc ++ rewrite post 0 ++ ['$']) := by
  intro fuel
  induction fuel with
  | zero =>
    intro pre post acc h
    have hp : post = [] := List.length_eq_zero.1 (by omega)
    subst hp
    simp [asRegexpLoop, rewrite]
  | succ fuel ih =>
    intro pre post acc h
    cases post with
    | nil => simp [asRegexpLoop, rewrite]
    | cons r cs =>
      obtain ⟨k, out, hstep, hk, hrw⟩ := asRegexpStep_spec pre r cs
      have hlt : pre.length < (pre ++ r :: cs).length := by
        simp only [List.length_append, List.length_cons]
        omega
      simp only [asRegexpLoop, if_pos hlt, hstep]
      have hsplit : pre ++ r :: cs = (pre ++ r :: cs.take k) ++ cs.drop k := by
        simp [List.take_append_drop]
      have hl : (pre ++ r :: cs.take k).length = pre.length + 1 + k := by
        simp only [List.length_append, List.length_cons, List.length_take]
        omega
      have hfuel : (cs.drop k).length ≤ fuel := by
        simp only [List.length_cons] at h
        simp only [List.length_drop]
        omega
      have := ih (pre ++ r :: cs.take k) (cs.drop k) (acc ++ out) hfuel
      rw [← hsplit, hl] at this
      rw [this, hrw]
      simp

/-- C30: for every rune sequence `p`, `findClosingBracket p` is at most the
length of `p` and at least one when `p` is not empty; every iteration of the
loop of `asRegexp` that starts at an index within `p` reads within `p` and
leaves the index larger and at most the length of `p`; and the loop, given
as many iterations as `p` has runes, ends with the expression string of the
translation. -/
theorem translator_is_index_safe (p : List Char) :
    (findClosingBracket p ≤ p.length ∧ (p ≠ [] → 1 ≤ findClosingBracket p))
      ∧ (∀ i, i < p.length →
          ∃ j out, asRegexpStep p i = some (j, out) ∧ i < j ∧ j ≤ p.length)
      ∧ asRegexpLoop p p.length 0 ['^'] = LoopResult.done (asRegexpSource p) := by
  refine ⟨findClosingBracket_bounds p, ?_, ?_⟩
  · intro i hi
    have hsplit : p = p.take i ++ p.drop i := (List.take_append_drop i p).symm
    have hl : (p.take i).length = i := by
      rw [List.length_take]
      omega
    cases hd : p.drop i with
    | nil =>
      have := congrArg List.length hd
      simp only [List.length_drop, List.length_nil] at this
      omega
    | cons r cs =>
      obtain ⟨k, out, hstep, hk, _⟩ := asRegexpStep_spec (p.take i) r cs
      rw [← hd, ← hsplit, hl] at hstep
      refine ⟨i + 1 + k, out, hstep, by omega, ?_⟩
      have hlen := congrArg List.length hd
      simp only [List.length_drop, List.length_cons] at hlen
      omega
  · have := asRegexpLoop_spec p.length [] p ['^'] (le_refl _)
    simpa [asRegexpSource] using this

/-- C30 at the pattern `a[b-d]**/\`, with the bracket read at index 1. -/
theorem translator_is_index_safe_witness :
    1 ≤ findClosingBracket "b-d]**/\\".toList
      ∧ (∃ j out, asRegexpStep "a[b-d]**/\\".toList 1 = some (j, out) ∧ 1 < j
          ∧ j ≤ "a[b-d]**/\\".toList.length)
      ∧ asRegexpLoop "a[b-d]**/\\".toList "a[b-d]**/\\".toList.length 0 ['^']
          = LoopResult.done (asRegexpSource "a[b-d]**/\\".toList) :=
  ⟨(translator_is_index_safe "b-d]**/\\".toList).1.2 (by decide),
    (translator_is_index_safe "a[b-d]**/\\".toList).2.1 1 (by decide),
    (translator_is_index_safe "a[b-d]**/\\".toList).2.2⟩

end Gitignore

namespace Composite

/-! ### The runs that `CheckSatisfied` looks at -/

theorem lastRun_cons_none (rest : List (Option CheckRun)) (name : List Char) :
    lastRun (none :: rest) name = lastRun rest name := rfl

theorem lastRun_cons_some (run : CheckRun) (rest : List (Option CheckRun))
    (name : List Char) :
    lastRun (some run :: rest) name
      = if run.name = some name then some ((lastRun rest name).getD run)
        else lastRun rest name := by
  unfold lastRun
  simp only [List.filterMap_cons, id_eq, List.filter_cons]
  by_cases h : run.name = some name
  · simp only [h, decide_True, if_true]
    rw [List.getLast?_cons]
  · simp only [h, decide_False, if_false]
    rfl

/-- The map that the first loop fills holds, for a name, the last run of
that name. -/
theorem fillKnown_eq (runs : List (Option CheckRun)) :
    ∀ (known : List Char → CheckRun) (name : List Char),
      fillKnown runs known name = (lastRun runs name).getD (known name) := by
  induction runs with
  | nil => intro known name; rfl
  | cons x rest ih =>
    intro known name
    cases x with
    | none =>
      rw [lastRun_cons_none]
      exact ih known name
    | some run =>
      rw [lastRun_cons_some]
      cases hn : run.name with
      | none =>
        simp only [fillKnown, hn]
        rw [ih, if_neg (by simp)]
      | some nm =>
        simp only [fillKnown, hn]
        rw [ih]
        by_cases e : name = nm
        · rw [if_pos e, if_pos (by rw [e])]
          rfl
        · rw [if_neg e, if_neg (fun h => e (Option.some.inj h).symm)]

theorem safeDereference_status (s : Option (List Char)) :
    safeDereference s unknown = completed ↔ s = some completed := by
  cases s with
  | none =>
    simp only [safeDereference]
    constructor
    · intro h
      exact absurd h (by decide)
    · intro h
      cases h
  | some v => simp [safeDereference]

theorem safeDereference_conclusion (s : Option (List Char)) :
    safeDereference s unknown = success ↔ s = some success := by
  cases s with
  | none =>
    simp only [safeDereference]
    constructor
    · intro h
      exact absurd h (by decide)
    · intro h
      cases h
  | some v => simp [safeDereference]

/-- What the second loop returns: `failed` is set when some name has a run
that is completed without success, and the names whose run is not completed
are appended to `incomplete` in their order. -/
theorem checkRequired_eq (known : List Char → CheckRun) :
    ∀ (required : List (List Char)) (failed : Bool) (incomplete : List (List Char)),
      checkRequired known required failed incomplete
        = (failed || required.any (fun name =>
              decide ((known name).status = some completed
                ∧ (known name).conclusion ≠ some success)),
            incomplete ++ required.filter (fun name =>
              decide ((known name).status ≠ some completed))) := by
  intro required
  induction required with
  | nil => intro failed incomplete; simp [checkRequired]
  | cons name rest ih =>
    intro failed incomplete
    simp only [checkRequired, safeDereference_status, safeDereference_conclusion]
    by_cases h1 : (known name).status = some completed
    · by_cases h2 : (known name).conclusion = some success
      · rw [if_pos h1, if_pos h2, ih]
        simp [h1, h2]
      · rw [if_pos h1, if_neg h2, ih]
        simp [h1, h2]
    · rw [if_neg h1, ih]
      simp [h1]

theorem known_status (runs : List (Option CheckRun)) (name : List Char) :
    ((lastRun runs name).getD zeroCheckRun).status = some completed
      ↔ ∃ run, lastRun runs name = some run ∧ run.status = some completed := by
  cases lastRun runs name with
  | none =>
    simp only [Option.getD_none, zeroCheckRun]
    constructor
    · intro h
      cases h
    · rintro ⟨run, h, _⟩
      cases h
  | some run => simp

/-- C27: on the list of check runs that the API returned, `CheckSatisfied`
returns an error exactly when some required name has a last run of that
name whose status is `completed` and whose conclusion is not `success`; the
names returned are the required names, in their order, whose run is missing
or has a status other than `completed`. -/
theorem checkSatisfied_spec (runs : List (Option CheckRun)) (required : List (List Char)) :
    ((CheckSatisfied (Except.ok runs) required).2 ≠ none
        ↔ ∃ name ∈ required, ∃ run, lastRun runs name = some run
            ∧ run.status = some completed ∧ run.conclusion ≠ some success)
      ∧ (CheckSatisfied (Except.ok runs) required).1 = required.filter (isIncomplete runs) := by
  have hk : ∀ name, fillKnown runs (fun _ => zeroCheckRun) name
      = (lastRun runs name).getD zeroCheckRun := fun name => fillKnown_eq runs _ name
  have hfilter : required.filter (fun name =>
        decide ((fillKnown runs (fun _ => zeroCheckRun) name).status ≠ some completed))
      = required.filter (isIncomplete runs) := by
    apply List.filter_congr
    intro name _
    rw [hk]
    unfold isIncomplete
    cases lastRun runs name with
    | none => simp [zeroCheckRun]
    | some run => simp
  have hany : (required.any (fun name =>
        decide ((fillKnown runs (fun _ => zeroCheckRun) name).status = some completed
          ∧ (fillKnown runs (fun _ => zeroCheckRun) name).conclusion ≠ some success))) = true
      ↔ ∃ name ∈ required, ∃ run, lastRun runs name = some run
          ∧ run.status = some completed ∧ run.conclusion ≠ some success := by
    rw [List.any_eq_true]
    constructor
    · rintro ⟨name, hmem, h⟩
      rw [decide_eq_true_eq, hk] at h
      obtain ⟨run, hr, hs⟩ := (known_status runs name).1 h.1
      refine ⟨name, hmem, run, hr, hs, ?_⟩
      have h2 := h.2
      rw [hr] at h2
      exact h2
    · rintro ⟨name, hmem, run, hr, hs, hc⟩
      refine ⟨name, hmem, ?_⟩
      rw [decide_eq_true_eq, hk, hr]
      exact ⟨hs, hc⟩
  unfold CheckSatisfied
  simp only [checkRequired_eq, Bool.false_or, List.nil_append]
  rw [hfilter]
  cases hb : required.any (fun name =>
      decide ((fillKnown runs (fun _ => zeroCheckRun) name).status = some completed
        ∧ (fillKnown runs (fun _ => zeroCheckRun) name).conclusion ≠ some success)) with
  | true =>
    refine ⟨⟨fun _ => hany.1 hb, fun _ => by simp⟩, rfl⟩
  | false =>
    refine ⟨⟨fun h => absurd rfl h, fun h => ?_⟩, rfl⟩
    rw [hany.2 h] at hb
    cases hb

end Composite

namespace Requireconditional

/-- C26: `Validate` returns no error exactly for the configurations that
meet every condition of the claim, and the error it returns is that of the
first condition, in the order of the claim, that fails. -/
theorem validate_spec (c : Config) :
    (c.Validate = none ↔ IsValid c) ∧ c.Validate = firstFailure (conditions c) := by
  unfold Config.Validate IsValid conditions
  simp only [firstFailure]
  by_cases h1 : c.EventName = pullRequest
  · by_cases h2 : c.EventAction = opened ∨ c.EventAction = synchronize ∨ c.EventAction = reopened
    · by_cases h3 : c.BaseSHA = []
      · simp [h1, h2, h3]
      by_cases h4 : c.HeadSHA = []
      · simp [h1, h2, h3, h4]
      by_cases h5 : c.GitHubOrg = []
      · simp [h1, h2, h3, h4, h5]
      by_cases h6 : c.GitHubRepo = []
      · simp [h1, h2, h3, h4, h5, h6]
      by_cases h7 : c.GitHubRootURL = []
      · simp [h1, h2, h3, h4, h5, h6, h7]
      by_cases h8 : c.GitHubToken = []
      · simp [h1, h2, h3, h4, h5, h6, h7, h8]
      by_cases h9 : c.ChecksYAML = [] <;> by_cases h10 : c.ChecksFilename = [] <;>
        simp [h1, h2, h3, h4, h5, h6, h7, h8, h9, h10]
    · simp [h1, h2]
  · simp [h1]

end Requireconditional
